import Mathlib

/-!
# Chunked deque (`src/Deque.cpp`): embedding and verification

The container `Deque<T, Allocator>` keeps a table `body_` of blocks of
`kArraySize = 512` element slots, two cursors (block index, in-block offset) for
the front-most and back-most element, the element count `size_` and the block
count `capacity_of_arr_`.

Conventions of the embedding.

* A block is a list of slots; a slot is `none` (raw, vacant storage) or
  `some v` (a constructed element).  `array_traits::construct` writes `some v`,
  `array_traits::destroy` writes `none`, also on a slot that is already vacant.
  A reference returned by `at`, `operator[]` or `operator*` is the content of the
  slot it designates.
* Every operation returns an `Outcome`: normal return with the state after the
  call, an exception together with the state in which it leaves the container,
  `undefined` when the call indexes the block table or a block outside its
  bounds or copies, moves, swaps or assigns the value of a vacant slot, and
  `outOfFuel` when a loop was cut off by its step budget.  The loops of `insert`,
  `erase` and the copy constructor take that budget as their first argument.
* `size_t` values are natural numbers.  Additions are exact (a 64-bit counter of
  elements or blocks cannot overflow before memory is exhausted); a subtraction
  that the control flow does not guard is `wsub`, the subtraction modulo `2^64`.
  `std::ptrdiff_t` values are integers; the unsigned computation of an iterator
  difference followed by the conversion to `ptrdiff_t` is `wrapDiff`.
* Allocation succeeds, except in `initial_allocate_failing` and
  `emplace_back_alloc_failing`, which describe the first allocation when one of
  its `allocate` calls throws; a null block handle is a block without slots.  An
  element constructor may throw: `emplace_back` and `emplace_front` take the
  result of running the constructor, `none` when it throws.
* Object identity is not part of a state: the functions for the assignment
  operators take the result of the test `this == &other` as an argument.
* An iterator is its pair of indices; its `body_` pointer always designates the
  table of the one deque under consideration and is not represented.
-/

set_option autoImplicit false
set_option maxRecDepth 100000

namespace Containers

/-- Slots per block (`kArraySize`). -/
abbrev kArraySize : Nat := 512

/-- Blocks of the first allocation (`kStartCapacityOfArr`). -/
abbrev kStartCapacityOfArr : Nat := 64

/-- Subtraction of `size_t` values, modulo `2^64`. -/
def wsub (a b : Nat) : Nat := if b ≤ a then a - b else a + 2 ^ 64 - b

/-- Conversion of a `size_t` difference to `std::ptrdiff_t` (two's complement). -/
def wrapDiff (z : Int) : Int := (z + 2 ^ 63) % 2 ^ 64 - 2 ^ 63

/-- A block of raw storage: `kArraySize` slots, each vacant or holding an element. -/
abbrev Block (T : Type) := List (Option T)

/-- Result of `array_traits::allocate(alloc_, kArraySize)`: a block of vacant slots. -/
def freshBlock {T : Type} : Block T := List.replicate kArraySize none

/-- Data members of `Deque<T>`. -/
structure Deque (T : Type) where
  body_ : List (Block T)
  size_ : Nat
  capacity_of_arr_ : Nat
  first_in_array_index_ : Nat
  last_in_array_index_ : Nat
  first_array_index_ : Nat
  last_array_index_ : Nat
  deriving DecidableEq

/-- Exceptions that leave the container. -/
inductive Err
  | emptyContainer
  | indexOutOfRange
  | constructionFailure
  | allocationFailure
  deriving DecidableEq

/-- Result of a call on a deque. -/
inductive Outcome (T α : Type)
  | ok (ret : α) (d : Deque T)
  | raised (e : Err) (d : Deque T)
  | undefined
  | outOfFuel
  deriving DecidableEq

/-- Sequencing: run `k` on the result and state of a call that returned normally. -/
def Outcome.andThen {T α β : Type} (o : Outcome T α) (k : α → Deque T → Outcome T β) :
    Outcome T β :=
  match o with
  | .ok a d => k a d
  | .raised e d => .raised e d
  | .undefined => .undefined
  | .outOfFuel => .outOfFuel

/-- State carried by an outcome: after a normal return or after an exception. -/
def Outcome.state? {T α : Type} : Outcome T α → Option (Deque T)
  | .ok _ d => some d
  | .raised _ d => some d
  | .undefined => none
  | .outOfFuel => none

/-- Position `(index_of_array_, index_in_array_)` of `Deque::Iterator`. -/
structure Iterator where
  index_of_array_ : Nat
  index_in_array_ : Nat
  deriving DecidableEq

/-! ## Block table access -/

/-- Content of slot `o` of block `b`; `none` outside the table or the block. -/
def getSlot {T : Type} (body : List (Block T)) (b o : Nat) : Option (Option T) :=
  match body[b]? with
  | none => none
  | some blk => blk[o]?

/-- Table with slot `o` of block `b` replaced; `none` outside the table or the block. -/
def setSlot {T : Type} (body : List (Block T)) (b o : Nat) (s : Option T) :
    Option (List (Block T)) :=
  match body[b]? with
  | none => none
  | some blk => if o < blk.length then some (body.set b (blk.set o s)) else none

namespace Iterator

/-- Prefix `operator++`. -/
def inc (it : Iterator) : Iterator :=
  if it.index_in_array_ = kArraySize - 1 then
    { index_of_array_ := it.index_of_array_ + 1, index_in_array_ := 0 }
  else
    { it with index_in_array_ := it.index_in_array_ + 1 }

/-- Prefix `operator--`. -/
def dec (it : Iterator) : Iterator :=
  if it.index_in_array_ > 0 then
    { it with index_in_array_ := it.index_in_array_ - 1 }
  else
    { index_of_array_ := wsub it.index_of_array_ 1, index_in_array_ := kArraySize - 1 }

/-- Member `operator+=(diff n)`. -/
def add_assign (it : Iterator) (n : Int) : Iterator :=
  if n ≥ 0 then
    let total_index := it.index_of_array_ * kArraySize + it.index_in_array_ + n.toNat
    { index_of_array_ := total_index / kArraySize, index_in_array_ := total_index % kArraySize }
  else
    let neg_n := (-n).toNat
    if it.index_in_array_ ≥ neg_n then
      { it with index_in_array_ := it.index_in_array_ - neg_n }
    else
      let remaining := neg_n - it.index_in_array_ - 1
      let num_arrays_to_skip := remaining / kArraySize + 1
      { index_of_array_ := wsub it.index_of_array_ num_arrays_to_skip,
        index_in_array_ := kArraySize - 1 - remaining % kArraySize }

/-- Member `operator+(diff n)`. -/
def add (it : Iterator) (n : Int) : Iterator := it.add_assign n

/-- Member `operator-=(diff n)`. -/
def sub_assign (it : Iterator) (n : Int) : Iterator := it.add_assign (-n)

/-- Member `operator-(diff n)`. -/
def sub (it : Iterator) (n : Int) : Iterator := it.sub_assign n

/-- Member `operator-(const Iterator&)`: signed distance. -/
def distance (it other : Iterator) : Int :=
  wrapDiff ((it.index_of_array_ : Int) * kArraySize + it.index_in_array_
    - (other.index_of_array_ : Int) * kArraySize - other.index_in_array_)

/-- Member `operator>`. -/
def gt (it other : Iterator) : Bool := decide (it.distance other > 0)

/-- Member `operator<`. -/
def lt (it other : Iterator) : Bool := other.gt it

/-- Member `operator<=`. -/
def le (it other : Iterator) : Bool := !(it.gt other)

/-- Member `operator>=`. -/
def ge (it other : Iterator) : Bool := !(it.lt other)

/-- Member `operator==` (index part). -/
def eq (it other : Iterator) : Bool :=
  it.index_of_array_ == other.index_of_array_ && it.index_in_array_ == other.index_in_array_

/-- Member `operator!=`. -/
def ne (it other : Iterator) : Bool := !(it.eq other)

end Iterator

namespace Deque

variable {T : Type}

/-- Default-constructed deque: empty table, every counter zero. -/
def fresh : Deque T :=
  { body_ := [], size_ := 0, capacity_of_arr_ := 0, first_in_array_index_ := 0,
    last_in_array_index_ := 0, first_array_index_ := 0, last_array_index_ := 0 }

/-- Member `size()`. -/
def size (d : Deque T) : Nat := d.size_

/-- Member `empty()`. -/
def empty (d : Deque T) : Bool := d.size == 0

/-- Member `capacity()`. -/
def capacity (d : Deque T) : Nat := d.capacity_of_arr_

/-- Slot designated by an iterator (`operator*`); `none` outside the table. -/
def deref (d : Deque T) (it : Iterator) : Option (Option T) :=
  getSlot d.body_ it.index_of_array_ it.index_in_array_

/-- Write of slot `(b, o)` of the table. -/
def store (d : Deque T) (b o : Nat) (s : Option T) : Outcome T Unit :=
  match setSlot d.body_ b o s with
  | none => .undefined
  | some body => .ok () { d with body_ := body }

/-- Member `check_index`. -/
def check_index (d : Deque T) (index : Nat) : Outcome T Unit :=
  if index ≥ d.size_ then .raised .indexOutOfRange d else .ok () d

/-- Member `operator[]`: the slot the returned reference designates. -/
def subscript (d : Deque T) (index : Nat) : Outcome T (Option T) :=
  match getSlot d.body_
      ((index + d.first_in_array_index_) / kArraySize + d.first_array_index_)
      ((index + d.first_in_array_index_) % kArraySize) with
  | none => .undefined
  | some s => .ok s d

/-- Member `at`: the slot the returned reference designates. -/
def at_ (d : Deque T) (index : Nat) : Outcome T (Option T) :=
  (d.check_index index).andThen fun _ d1 => d1.subscript index

/-- Member `back_increase_capacity_condition`. -/
def back_increase_capacity_condition (d : Deque T) : Bool :=
  d.capacity_of_arr_ == d.last_array_index_ + 1 && kArraySize == d.last_in_array_index_ + 2

/-- Member `front_increase_capacity_condition`. -/
def front_increase_capacity_condition (d : Deque T) : Bool :=
  d.first_array_index_ == 0 && d.first_in_array_index_ == 0

/-- Member `set_indexes_in_array`. -/
def set_indexes_in_array (d : Deque T) : Deque T :=
  { d with first_in_array_index_ := kArraySize / 2, last_in_array_index_ := kArraySize / 2 }

/-- Member `set_array_indexes`. -/
def set_array_indexes (d : Deque T) : Deque T :=
  { d with first_array_index_ := d.capacity_of_arr_ / 2,
           last_array_index_ := d.capacity_of_arr_ / 2 }

/-- Member `increase_capacity`: the first `capacity_of_arr_` entries of the new
table are the old blocks, at their old indices; the other entries are new blocks;
both block cursors are moved up by the old block count. -/
def increase_capacity (d : Deque T) : Outcome T Unit :=
  let kNextCapacity := d.capacity_of_arr_ * 3
  if d.capacity_of_arr_ ≤ d.body_.length then
    .ok () { d with
      body_ := d.body_.take d.capacity_of_arr_ ++
        List.replicate (kNextCapacity - d.capacity_of_arr_) freshBlock
      first_array_index_ := d.first_array_index_ + d.capacity_of_arr_
      last_array_index_ := d.last_array_index_ + d.capacity_of_arr_
      capacity_of_arr_ := kNextCapacity }
  else .undefined

/-- Member `initial_allocate`. -/
def initial_allocate (d : Deque T) : Deque T :=
  set_array_indexes (set_indexes_in_array
    { d with
      capacity_of_arr_ := kStartCapacityOfArr
      body_ := List.replicate kStartCapacityOfArr freshBlock })

/-- Member `dealloc`. -/
def dealloc (d : Deque T) : Deque T :=
  { d with body_ := [], capacity_of_arr_ := 0, size_ := 0, first_array_index_ := 0,
           last_array_index_ := 0, first_in_array_index_ := 0, last_in_array_index_ := 0 }

/-- Inner loop of `decrease_capacity`: for `k`, `k+1`, ... move slot `k` of old block
`j` into slot `k` of new block `i` and destroy the old slot. -/
def moveSlots (i j : Nat) :
    Nat → Nat → List (Block T) → List (Block T) → Option (List (Block T) × List (Block T))
  | 0, _, new_body, body => some (new_body, body)
  | n + 1, k, new_body, body =>
    match getSlot body j k with
    | some (some v) =>
      match setSlot new_body i k (some v) with
      | none => none
      | some new_body1 =>
        match setSlot body j k none with
        | none => none
        | some body1 => moveSlots i j n (k + 1) new_body1 body1
    | _ => none

/-- Outer loop of `decrease_capacity`: blocks `j`, `j+1`, ... of the old table are
moved into blocks `i`, `i+1`, ... of the new one. -/
def moveBlocks :
    Nat → Nat → Nat → List (Block T) → List (Block T) → Option (List (Block T) × List (Block T))
  | 0, _, _, new_body, body => some (new_body, body)
  | n + 1, i, j, new_body, body =>
    match moveSlots i j kArraySize 0 new_body body with
    | none => none
    | some (new_body1, body1) => moveBlocks n (i + 1) (j + 1) new_body1 body1

/-- Member `decrease_capacity`.  The outer loop runs while `i <= new_last_array_index`,
that is `new_last_array_index + 1 - new_first_array_index` times.  The old table is
dropped after the swap, so the deallocation of its blocks is not represented. -/
def decrease_capacity (d : Deque T) : Outcome T Unit :=
  let prev_array_size := d.last_array_index_ * kArraySize + d.last_in_array_index_ + 1
  if prev_array_size ≤ d.size_ / 4 then
    let new_capacity :=
      if d.size_ / 2 + 1 ≥ d.capacity_of_arr_ / 2 then d.capacity_of_arr_ / 2
      else d.size_ / 2 + 1
    if new_capacity ≥ kArraySize then
      let new_body : List (Block T) := List.replicate new_capacity freshBlock
      let new_first_array_index := wsub new_capacity d.size_ / 2
      let new_last_array_index := wsub ((new_first_array_index + d.size_) % 2 ^ 64) 1
      let new_first_in_array_index := kArraySize - d.size_ % kArraySize
      let new_last_in_array_index := kArraySize - 1
      match moveBlocks (new_last_array_index + 1 - new_first_array_index)
          new_first_array_index d.first_array_index_ new_body d.body_ with
      | none => .undefined
      | some (new_body1, _) =>
        .ok () { d with
          body_ := new_body1
          capacity_of_arr_ := new_capacity
          first_array_index_ := new_first_array_index
          last_array_index_ := new_last_array_index
          first_in_array_index_ := new_first_in_array_index
          last_in_array_index_ := new_last_in_array_index }
    else .ok () d
  else .ok () d

/-- Member `emplace_back`; `args` is the result of the element constructor,
`none` when it throws. -/
def emplace_back (d : Deque T) (args : Option T) : Outcome T Unit :=
  if d.capacity ≠ 0 then
    (if d.back_increase_capacity_condition then d.increase_capacity
      else .ok () d).andThen fun _ d1 =>
    (if d1.last_in_array_index_ + 1 = kArraySize then
      (if d1.last_array_index_ + 1 = d1.body_.length then d1.increase_capacity
        else .ok () d1).andThen fun _ d2 =>
        .ok () { d2 with last_array_index_ := d2.last_array_index_ + 1
                         last_in_array_index_ := 0 }
      else .ok () { d1 with last_in_array_index_ := d1.last_in_array_index_ + 1 }
      ).andThen fun _ d3 =>
    match getSlot d3.body_ d3.last_array_index_ d3.last_in_array_index_, args with
    | none, _ => .undefined
    | some _, some v =>
      (d3.store d3.last_array_index_ d3.last_in_array_index_ (some v)).andThen fun _ d4 =>
        .ok () { d4 with size_ := d4.size_ + 1 }
    | some _, none =>
      if d3.last_in_array_index_ = 0 then
        .raised .constructionFailure
          { d3 with last_array_index_ := d3.last_array_index_ - 1
                    last_in_array_index_ := kArraySize - 1 }
      else
        .raised .constructionFailure
          { d3 with last_in_array_index_ := d3.last_in_array_index_ - 1 }
  else
    let d1 := d.initial_allocate
    match args with
    | some v =>
      (d1.store d1.last_array_index_ d1.last_in_array_index_ (some v)).andThen fun _ d2 =>
        .ok () { d2 with size_ := d2.size_ + 1 }
    | none => .raised .constructionFailure d1.dealloc

/-- Member `push_back`. -/
def push_back (d : Deque T) (value : T) : Outcome T Unit := d.emplace_back (some value)

/-- Member `pop_back`. -/
def pop_back (d : Deque T) : Outcome T Unit :=
  if d.empty then .raised .emptyContainer d
  else
    (d.store d.last_array_index_ d.last_in_array_index_ none).andThen fun _ d1 =>
    (if d1.first_in_array_index_ ≠ d1.last_in_array_index_ ∨
        d1.first_array_index_ ≠ d1.last_array_index_ then
      if d1.last_in_array_index_ = 0 then
        .ok () { d1 with last_in_array_index_ := kArraySize - 1
                         last_array_index_ := wsub d1.last_array_index_ 1 }
      else .ok () { d1 with last_in_array_index_ := d1.last_in_array_index_ - 1 }
     else if d1.last_array_index_ > 0 then d1.decrease_capacity
     else .ok () d1).andThen fun _ d2 =>
    .ok () { d2 with size_ := d2.size_ - 1 }

/-- Member `emplace_front`; `args` is the result of the element constructor,
`none` when it throws. -/
def emplace_front (d : Deque T) (args : Option T) : Outcome T Unit :=
  if d.capacity ≠ 0 then
    (if d.front_increase_capacity_condition then d.increase_capacity
      else .ok () d).andThen fun _ d1 =>
    (if d1.first_in_array_index_ = 0 then
      (if d1.first_array_index_ = 0 then d1.increase_capacity
        else .ok () d1).andThen fun _ d2 =>
        .ok () { d2 with first_array_index_ := wsub d2.first_array_index_ 1
                         first_in_array_index_ := kArraySize - 1 }
      else .ok () { d1 with first_in_array_index_ := d1.first_in_array_index_ - 1 }
      ).andThen fun _ d3 =>
    match getSlot d3.body_ d3.first_array_index_ d3.first_in_array_index_, args with
    | none, _ => .undefined
    | some _, some v =>
      (d3.store d3.first_array_index_ d3.first_in_array_index_ (some v)).andThen fun _ d4 =>
        .ok () { d4 with size_ := d4.size_ + 1 }
    | some _, none =>
      if d3.first_in_array_index_ = kArraySize - 1 then
        .raised .constructionFailure
          { d3 with first_array_index_ := d3.first_array_index_ + 1
                    first_in_array_index_ := 0 }
      else
        .raised .constructionFailure
          { d3 with first_in_array_index_ := d3.first_in_array_index_ + 1 }
  else
    let d1 := d.initial_allocate
    match args with
    | some v =>
      (d1.store d1.first_array_index_ d1.first_in_array_index_ (some v)).andThen fun _ d2 =>
        .ok () { d2 with size_ := d2.size_ + 1 }
    | none => .raised .constructionFailure d1.dealloc

/-- Member `push_front`. -/
def push_front (d : Deque T) (value : T) : Outcome T Unit := d.emplace_front (some value)

/-- Member `pop_front`. -/
def pop_front (d : Deque T) : Outcome T Unit :=
  if d.empty then .raised .emptyContainer d
  else
    (d.store d.first_array_index_ d.first_in_array_index_ none).andThen fun _ d1 =>
    (if d1.first_in_array_index_ ≠ d1.last_in_array_index_ ∨
        d1.first_array_index_ ≠ d1.last_array_index_ then
      if d1.first_in_array_index_ = kArraySize - 1 then
        .ok () { d1 with first_in_array_index_ := 0
                         first_array_index_ := d1.first_array_index_ + 1 }
      else .ok () { d1 with first_in_array_index_ := d1.first_in_array_index_ + 1 }
     else if d1.first_array_index_ > 0 then d1.decrease_capacity
     else .ok () d1).andThen fun _ d2 =>
    .ok () { d2 with size_ := d2.size_ - 1 }

/-- Member `begin()`. -/
def begin (d : Deque T) : Iterator :=
  if d.size ≠ 0 then
    { index_of_array_ := d.first_array_index_, index_in_array_ := d.first_in_array_index_ }
  else if d.last_in_array_index_ + 1 ≠ kArraySize then
    { index_of_array_ := d.last_array_index_, index_in_array_ := d.last_in_array_index_ + 1 }
  else
    { index_of_array_ := d.last_array_index_ + 1, index_in_array_ := 0 }

/-- Member `end()`. -/
def end_ (d : Deque T) : Iterator :=
  if d.last_in_array_index_ ≠ kArraySize - 1 then
    { index_of_array_ := d.last_array_index_, index_in_array_ := d.last_in_array_index_ + 1 }
  else
    { index_of_array_ := d.last_array_index_ + 1, index_in_array_ := 0 }

/-- Swap of the elements in two slots (`std::swap(*a, *b)`); both must hold an element. -/
def swapSlots (d : Deque T) (a b : Iterator) : Outcome T Unit :=
  match d.deref a, d.deref b with
  | some (some x), some (some y) =>
    (d.store a.index_of_array_ a.index_in_array_ (some y)).andThen fun _ d1 =>
      d1.store b.index_of_array_ b.index_in_array_ (some x)
  | _, _ => .undefined

/-- Element assignment `*dst = *src`; both slots must hold an element. -/
def assignSlot (d : Deque T) (dst src : Iterator) : Outcome T Unit :=
  match d.deref dst, d.deref src with
  | some (some _), some (some y) => d.store dst.index_of_array_ dst.index_in_array_ (some y)
  | _, _ => .undefined

/-- Loop of `insert`:
`for (cycle_iter = begin(); cycle_iter <= iter; ++cycle_iter) swap(*cycle_iter, *(cycle_iter + 1))`,
entered at `cycle_iter`. -/
def insertLoop : Nat → Deque T → Iterator → Iterator → Outcome T Unit
  | 0, _, _, _ => .outOfFuel
  | fuel + 1, d, cycle_iter, iter =>
    if cycle_iter.le iter then
      (d.swapSlots cycle_iter (cycle_iter.add 1)).andThen fun _ d1 =>
        insertLoop fuel d1 cycle_iter.inc iter
    else .ok () d

/-- Member `insert(iterator iter, const T& value)`. -/
def insert (fuel : Nat) (d : Deque T) (iter : Iterator) (value : T) : Outcome T Iterator :=
  if iter.eq d.begin then
    (d.emplace_front (some value)).andThen fun _ d1 => .ok d1.begin d1
  else if iter.eq d.end_ then
    (d.emplace_back (some value)).andThen fun _ d1 => .ok (d1.end_.sub 1) d1
  else
    (d.emplace_front (some value)).andThen fun _ d1 =>
    (insertLoop fuel d1 d1.begin iter).andThen fun _ d2 =>
    .ok (iter.sub 1) d2

/-- Loop of `erase`:
`for (cycle_iter = iter; cycle_iter > begin(); --cycle_iter) *cycle_iter = *(cycle_iter - 1)`,
entered at `cycle_iter`. -/
def eraseLoop : Nat → Deque T → Iterator → Outcome T Unit
  | 0, _, _ => .outOfFuel
  | fuel + 1, d, cycle_iter =>
    if cycle_iter.gt d.begin then
      (d.assignSlot cycle_iter (cycle_iter.sub 1)).andThen fun _ d1 =>
        eraseLoop fuel d1 cycle_iter.dec
    else .ok () d

/-- Member `erase(iterator iter)`. -/
def erase (fuel : Nat) (d : Deque T) (iter : Iterator) : Outcome T Iterator :=
  if iter.eq d.begin then
    d.pop_front.andThen fun _ d1 => .ok d1.begin d1
  else if iter.eq (d.end_.sub 1) then
    d.pop_back.andThen fun _ d1 => .ok d1.end_ d1
  else
    (eraseLoop fuel d iter).andThen fun _ d1 =>
    d1.pop_front.andThen fun _ d2 =>
    .ok iter d2

/-- The loop `while (size_ != 0) pop_back();` of the destructor and of the
constructors' handlers. -/
def popAll : Nat → Deque T → Outcome T Unit
  | 0, _ => .outOfFuel
  | fuel + 1, d =>
    if d.size_ ≠ 0 then d.pop_back.andThen fun _ d1 => popAll fuel d1
    else .ok () d

/-- Loop of the copy constructor, entered at `iter`; `self` is the deque under
construction and `copyT` the element copy constructor (`none` when it throws). -/
def copyLoop (copyT : T → Option T) (other : Deque T) (last : Iterator) :
    Nat → Deque T → Iterator → Outcome T Unit
  | 0, _, _ => .outOfFuel
  | fuel + 1, self, iter =>
    if iter.ne last then
      match other.deref iter with
      | some (some v) =>
        match self.emplace_back (copyT v) with
        | .ok _ self1 => copyLoop copyT other last fuel self1 iter.inc
        | .raised e self1 =>
          (popAll (fuel + 1) self1).andThen fun _ self2 => .raised e self2.dealloc
        | .undefined => .undefined
        | .outOfFuel => .outOfFuel
      | _ => .undefined
    else .ok () self

/-- Copy constructor `Deque(const Deque& other)`: the outcome carries the new deque. -/
def copy (copyT : T → Option T) (fuel : Nat) (other : Deque T) : Outcome T Unit :=
  copyLoop copyT other other.end_ fuel fresh other.begin

/-- Client loop `for (it = first; it != last; ++it) out.push_back(*it)`: the slots
visited, in order; `none` when the walk leaves the table or is cut off. -/
def collect (d : Deque T) : Nat → Iterator → Iterator → Option (List (Option T))
  | 0, _, _ => none
  | fuel + 1, it, last =>
    if it.ne last then
      match d.deref it with
      | none => none
      | some s => (collect d fuel it.inc last).map (s :: ·)
    else some []

/-- Client loop over `std::reverse_iterator`, from the reverse iterator with base
`it` to `rend()` whose base is `first`: dereferencing reads the slot before the
base, incrementing decrements the base. -/
def collectReverse (d : Deque T) : Nat → Iterator → Iterator → Option (List (Option T))
  | 0, _, _ => none
  | fuel + 1, it, first =>
    if it.ne first then
      match d.deref it.dec with
      | none => none
      | some s => (collectReverse d fuel it.dec first).map (s :: ·)
    else some []

/-- The slots `at(0), ..., at(size() - 1)`, each with the outcome of the call. -/
def elems (d : Deque T) : List (Outcome T (Option T)) :=
  (List.range d.size).map d.at_

end Deque

/-! ## Call sequences and the reference queue -/

/-- One call of the push/pop interface. -/
inductive Op (T : Type)
  | push_back (value : T)
  | push_front (value : T)
  | pop_back
  | pop_front
  deriving DecidableEq

namespace Op

variable {T : Type}

/-- Whether the call is a push. -/
def isPush : Op T → Bool
  | .push_back _ => true
  | .push_front _ => true
  | _ => false

/-- Whether the call is a pop. -/
def isPop : Op T → Bool
  | .pop_back => true
  | .pop_front => true
  | _ => false

/-- The call carried out on a deque. -/
def apply (op : Op T) (d : Deque T) : Outcome T Unit :=
  match op with
  | .push_back v => d.push_back v
  | .push_front v => d.push_front v
  | .pop_back => d.pop_back
  | .pop_front => d.pop_front

/-- The call carried out on the reference double-ended queue, a list: snoc, cons,
unsnoc, uncons. -/
def applyRef (op : Op T) (l : List T) : List T :=
  match op with
  | .push_back v => l ++ [v]
  | .push_front v => v :: l
  | .pop_back => l.dropLast
  | .pop_front => l.tail

end Op

/-- A sequence of calls carried out in order; a caller that receives an exception
goes on with the next call. `none` when a call has no defined result. -/
def run {T : Type} (d : Deque T) : List (Op T) → Option (Deque T)
  | [] => some d
  | op :: ops =>
    match (op.apply d).state? with
    | none => none
    | some d1 => run d1 ops

/-- The reference queue after a sequence of calls. -/
def runRef {T : Type} (l : List T) : List (Op T) → List T
  | [] => l
  | op :: ops => runRef (op.applyRef l) ops

/-- Number of pop calls of the sequence that returned normally. -/
def succeededPops {T : Type} (d : Deque T) : List (Op T) → Nat
  | [] => 0
  | op :: ops =>
    match op.apply d with
    | .ok _ d1 => (if op.isPop then 1 else 0) + succeededPops d1 ops
    | .raised _ d1 => succeededPops d1 ops
    | _ => 0

/-- Number of push calls of the sequence. -/
def pushCount {T : Type} (ops : List (Op T)) : Nat := (ops.filter Op.isPush).length

/-- States reachable from a default-constructed deque by push and pop calls. -/
def Reachable {T : Type} (d : Deque T) : Prop := ∃ ops, run Deque.fresh ops = some d

/-! ## Well-formed states -/

/-- Shape of a block table: `n` blocks of `kArraySize` slots each. -/
def Shaped {T : Type} (body : List (Block T)) (n : Nat) : Prop :=
  body.length = n ∧ ∀ blk ∈ body, blk.length = kArraySize

namespace Deque

variable {T : Type}

/-- Absolute slot number of the front cursor. -/
def firstPos (d : Deque T) : Nat :=
  d.first_array_index_ * kArraySize + d.first_in_array_index_

/-- Absolute slot number of the back cursor. -/
def lastPos (d : Deque T) : Nat :=
  d.last_array_index_ * kArraySize + d.last_in_array_index_

/-- Well-formedness of a deque that has allocated its table. -/
structure Valid (d : Deque T) : Prop where
  cap_ge : kStartCapacityOfArr ≤ d.capacity_of_arr_
  shaped : Shaped d.body_ d.capacity_of_arr_
  fin_lt : d.first_in_array_index_ < kArraySize
  lin_lt : d.last_in_array_index_ < kArraySize
  larr_lt : d.last_array_index_ < d.capacity_of_arr_
  ordered : d.firstPos ≤ d.lastPos
  size_le : d.firstPos + d.size_ ≤ d.lastPos + 1

/-- Invariant of the states reachable by pushes and pops. -/
def Inv (d : Deque T) : Prop := d = fresh ∨ d.Valid

/-- The state after `increase_capacity` when the table has `capacity_of_arr_` blocks. -/
def grown (d : Deque T) : Deque T :=
  { d with
    body_ := d.body_.take d.capacity_of_arr_ ++
      List.replicate (d.capacity_of_arr_ * 3 - d.capacity_of_arr_) freshBlock
    first_array_index_ := d.first_array_index_ + d.capacity_of_arr_
    last_array_index_ := d.last_array_index_ + d.capacity_of_arr_
    capacity_of_arr_ := d.capacity_of_arr_ * 3 }

/-- Whether `emplace_back` enlarges the table of a well-formed deque. -/
def backGrows (d : Deque T) : Prop :=
  d.last_array_index_ + 1 = d.capacity_of_arr_ ∧ 510 ≤ d.last_in_array_index_

/-- Whether `emplace_front` enlarges the table of a well-formed deque. -/
def frontGrows (d : Deque T) : Prop :=
  d.first_array_index_ = 0 ∧ d.first_in_array_index_ = 0

instance (d : Deque T) : Decidable d.backGrows := by unfold backGrows; infer_instance

instance (d : Deque T) : Decidable d.frontGrows := by unfold frontGrows; infer_instance

/-- The back cursor moved one slot up. -/
def nextBack (d : Deque T) : Deque T :=
  if d.last_in_array_index_ + 1 = kArraySize then
    { d with last_array_index_ := d.last_array_index_ + 1, last_in_array_index_ := 0 }
  else { d with last_in_array_index_ := d.last_in_array_index_ + 1 }

/-- The front cursor moved one slot down. -/
def prevFront (d : Deque T) : Deque T :=
  if d.first_in_array_index_ = 0 then
    { d with first_array_index_ := wsub d.first_array_index_ 1
             first_in_array_index_ := kArraySize - 1 }
  else { d with first_in_array_index_ := d.first_in_array_index_ - 1 }

/-- State of a well-formed deque in `emplace_back` at the point of construction. -/
def advanceBack (d : Deque T) : Deque T :=
  nextBack (if d.backGrows then d.grown else d)

/-- State of a well-formed deque in `emplace_front` at the point of construction. -/
def advanceFront (d : Deque T) : Deque T :=
  prevFront (if d.frontGrows then d.grown else d)

/-- The construction step of `emplace_back` (the `try` block and its handler), on
the state `d3` in which the cursor has been moved. -/
def constructBack (d3 : Deque T) (args : Option T) : Outcome T Unit :=
  match getSlot d3.body_ d3.last_array_index_ d3.last_in_array_index_, args with
  | none, _ => .undefined
  | some _, some v =>
    (d3.store d3.last_array_index_ d3.last_in_array_index_ (some v)).andThen fun _ d4 =>
      .ok () { d4 with size_ := d4.size_ + 1 }
  | some _, none =>
    if d3.last_in_array_index_ = 0 then
      .raised .constructionFailure
        { d3 with last_array_index_ := d3.last_array_index_ - 1
                  last_in_array_index_ := kArraySize - 1 }
    else
      .raised .constructionFailure
        { d3 with last_in_array_index_ := d3.last_in_array_index_ - 1 }

/-- The construction step of `emplace_front` (the `try` block and its handler), on
the state `d3` in which the cursor has been moved. -/
def constructFront (d3 : Deque T) (args : Option T) : Outcome T Unit :=
  match getSlot d3.body_ d3.first_array_index_ d3.first_in_array_index_, args with
  | none, _ => .undefined
  | some _, some v =>
    (d3.store d3.first_array_index_ d3.first_in_array_index_ (some v)).andThen fun _ d4 =>
      .ok () { d4 with size_ := d4.size_ + 1 }
  | some _, none =>
    if d3.first_in_array_index_ = kArraySize - 1 then
      .raised .constructionFailure
        { d3 with first_array_index_ := d3.first_array_index_ + 1
                  first_in_array_index_ := 0 }
    else
      .raised .constructionFailure
        { d3 with first_in_array_index_ := d3.first_in_array_index_ + 1 }

end Deque

/-! ## Absolute slot numbers and contents -/

namespace Iterator

/-- Absolute slot number designated by an iterator. -/
def pos (it : Iterator) : Nat := it.index_of_array_ * kArraySize + it.index_in_array_

/-- The iterator of an absolute slot number, its in-block offset below `kArraySize`. -/
def ofPos (p : Nat) : Iterator :=
  { index_of_array_ := p / kArraySize, index_in_array_ := p % kArraySize }

end Iterator

/-- Content of the slot with absolute number `p`. -/
def slotAt {T : Type} (body : List (Block T)) (p : Nat) : Option (Option T) :=
  getSlot body (p / kArraySize) (p % kArraySize)

/-- The deque holds exactly the elements of `l`, in order, in the slots from the
front cursor to the back cursor. -/
structure Deque.Holds {T : Type} (d : Deque T) (l : List T) : Prop where
  valid : d.Valid
  size_eq : d.size_ = l.length
  span : d.firstPos + l.length = d.lastPos + 1
  slots : ∀ (i : Nat) (h : i < l.length), slotAt d.body_ (d.firstPos + i) = some (some l[i])

/-- The deque after `push_back 7` on a default-constructed `Deque<int>`. -/
def sampleOne : Deque Int :=
  ((Deque.fresh : Deque Int).push_back 7).state?.getD Deque.fresh

/-- The deque after `push_back 1; pop_back` on a default-constructed `Deque<int>`:
empty, with its table allocated. -/
def sampleEmptied : Deque Int :=
  (run (Deque.fresh : Deque Int) [.push_back 1, .pop_back]).getD Deque.fresh

/-- The deque after `push_back 1; push_back 2; push_back 3; push_back 4`. -/
def sampleFour : Deque Int :=
  (run (Deque.fresh : Deque Int)
    [.push_back 1, .push_back 2, .push_back 3, .push_back 4]).getD Deque.fresh


/-! ## Copy assignment, moves, allocation failure -/

namespace Deque

variable {T : Type}

/-- Copy assignment `operator=(const Deque& other)`; `aliased` is the result of
`this == &other`.  The temporary `tmp` is built by the copy constructor; an
exception of the copy constructor leaves `operator=` before any member of `*this`
is touched.  Then the elements of `*this` are popped, its table released, and its
seven members swapped with those of `tmp`, which is destroyed holding the released
members. -/
def copy_assign (copyT : T → Option T) (fuel : Nat) (aliased : Bool)
    (self other : Deque T) : Outcome T Unit :=
  if aliased then .ok () self
  else
    match copy copyT fuel other with
    | .raised e _ => .raised e self
    | .undefined => .undefined
    | .outOfFuel => .outOfFuel
    | .ok _ tmp =>
      (popAll fuel self).andThen fun _ self1 =>
        let self2 := self1.dealloc
        .ok () { self2 with
          body_ := tmp.body_
          first_in_array_index_ := tmp.first_in_array_index_
          first_array_index_ := tmp.first_array_index_
          last_in_array_index_ := tmp.last_in_array_index_
          last_array_index_ := tmp.last_array_index_
          size_ := tmp.size_
          capacity_of_arr_ := tmp.capacity_of_arr_ }

/-- The state in which the move constructor and move assignment leave `other`:
table cleared, every counter reset. -/
def moved_from (other : Deque T) : Deque T :=
  { other with body_ := [], first_in_array_index_ := 0, last_in_array_index_ := 0,
               first_array_index_ := 0, last_array_index_ := 0, size_ := 0,
               capacity_of_arr_ := 0 }

/-- Move constructor `Deque(Deque&& other)`: the outcome carries the new deque and
returns `other` as the call leaves it. -/
def move_construct (other : Deque T) : Outcome T (Deque T) :=
  .ok other.moved_from
    { body_ := other.body_
      first_in_array_index_ := other.first_in_array_index_
      last_in_array_index_ := other.last_in_array_index_
      first_array_index_ := other.first_array_index_
      last_array_index_ := other.last_array_index_
      size_ := other.size_
      capacity_of_arr_ := other.capacity_of_arr_ }

/-- Move assignment `operator=(Deque&& other)`; `aliased` is the result of
`this == &other`.  The outcome carries `*this` and returns `other` as the call
leaves it. -/
def move_assign (fuel : Nat) (aliased : Bool) (self other : Deque T) :
    Outcome T (Deque T) :=
  if aliased then .ok self self
  else
    (popAll fuel self).andThen fun _ self1 =>
      let self2 := self1.dealloc
      .ok other.moved_from { self2 with
        body_ := other.body_
        first_in_array_index_ := other.first_in_array_index_
        last_in_array_index_ := other.last_in_array_index_
        first_array_index_ := other.first_array_index_
        last_array_index_ := other.last_array_index_
        size_ := other.size_
        capacity_of_arr_ := other.capacity_of_arr_ }

/-- Member `initial_allocate` when its `allocate` call number `k` (counted from 0)
throws: `capacity_of_arr_` has been set and the table resized to
`kStartCapacityOfArr` handles, the new ones null; the first `k` handles have been
replaced by allocated blocks; the cursors have not been set. -/
def initial_allocate_failing (d : Deque T) (k : Nat) : Deque T :=
  let resized : List (Block T) :=
    (d.body_ ++ List.replicate (kStartCapacityOfArr - d.body_.length) []).take
      kStartCapacityOfArr
  { d with
    capacity_of_arr_ := kStartCapacityOfArr
    body_ := List.replicate k freshBlock ++ resized.drop k }

/-- Member `emplace_back` when, in its branch `capacity() == 0`, the `allocate` call
number `k` of `initial_allocate` throws: no handler encloses `initial_allocate()`,
the exception leaves `emplace_back`.  With `capacity() != 0` there is no first
allocation and the call is `emplace_back`. -/
def emplace_back_alloc_failing (d : Deque T) (k : Nat) (args : Option T) : Outcome T Unit :=
  if d.capacity ≠ 0 then d.emplace_back args
  else .raised .allocationFailure (d.initial_allocate_failing k)

end Deque

/-! ## Index mapping, runs without exception, work of the shifting loops -/

namespace Deque

variable {T : Type}

/-- The block index and the in-block offset that `at` and `operator[]` compute for
`index`. -/
def slot_index (d : Deque T) (index : Nat) : Nat × Nat :=
  ((index + d.first_in_array_index_) / kArraySize + d.first_array_index_,
    (index + d.first_in_array_index_) % kArraySize)

/-- Number of element assignments `*cycle_iter = *(cycle_iter - 1)` that the loop of
`erase` executes when entered at `cycle_iter`. -/
def eraseLoopAssignments : Nat → Deque T → Iterator → Nat
  | 0, _, _ => 0
  | fuel + 1, d, cycle_iter =>
    if cycle_iter.gt d.begin then
      match d.assignSlot cycle_iter (cycle_iter.sub 1) with
      | .ok _ d1 => 1 + eraseLoopAssignments fuel d1 cycle_iter.dec
      | _ => 1
    else 0

/-- Number of element assignments executed by `erase(iter)`: none in the branches
that only pop, those of the loop otherwise. -/
def eraseAssignments (fuel : Nat) (d : Deque T) (iter : Iterator) : Nat :=
  if iter.eq d.begin then 0
  else if iter.eq (d.end_.sub 1) then 0
  else eraseLoopAssignments fuel d iter

/-- Number of swaps `std::swap(*cycle_iter, *(cycle_iter + 1))` that the loop of
`insert` executes when entered at `cycle_iter`. -/
def insertLoopSwaps : Nat → Deque T → Iterator → Iterator → Nat
  | 0, _, _, _ => 0
  | fuel + 1, d, cycle_iter, iter =>
    if cycle_iter.le iter then
      match d.swapSlots cycle_iter (cycle_iter.add 1) with
      | .ok _ d1 => 1 + insertLoopSwaps fuel d1 cycle_iter.inc iter
      | _ => 1
    else 0

/-- Number of swaps executed by `insert(iter, value)`: none in the branches that
only push, those of the loop after `emplace_front` otherwise. -/
def insertSwaps (fuel : Nat) (d : Deque T) (iter : Iterator) (value : T) : Nat :=
  if iter.eq d.begin then 0
  else if iter.eq d.end_ then 0
  else
    match d.emplace_front (some value) with
    | .ok _ d1 => insertLoopSwaps fuel d1 d1.begin iter
    | _ => 0

end Deque

/-- The mapping of the specification from a logical index `i` and the front cursor
to a slot: `absolute = block_index * C + offset + i`, then block `absolute / C` and
offset `absolute mod C`. -/
def specMapping (block_index offset i : Nat) : Nat × Nat :=
  let absolute := block_index * kArraySize + offset + i
  (absolute / kArraySize, absolute % kArraySize)

/-- A sequence of calls carried out in order, every call returning normally; `none`
as soon as a call raises or has no defined result. -/
def runOk {T : Type} (d : Deque T) : List (Op T) → Option (Deque T)
  | [] => some d
  | op :: ops =>
    match op.apply d with
    | .ok _ d1 => runOk d1 ops
    | _ => none

/-- The deque after `push_back 1; ...; push_back 6` on a default-constructed
`Deque<int>`. -/
def sampleSix : Deque Int :=
  (run (Deque.fresh : Deque Int)
    [.push_back 1, .push_back 2, .push_back 3, .push_back 4, .push_back 5,
      .push_back 6]).getD Deque.fresh

/-! ## Lemmas on the block table and the four push/pop calls -/

section Lemmas

variable {T : Type}

@[simp] theorem Outcome.andThen_ok {α β : Type} (a : α) (d : Deque T)
    (k : α → Deque T → Outcome T β) : (Outcome.ok a d).andThen k = k a d := rfl

@[simp] theorem Outcome.andThen_raised {α β : Type} (e : Err) (d : Deque T)
    (k : α → Deque T → Outcome T β) :
    (Outcome.raised e d : Outcome T α).andThen k = .raised e d := rfl

@[simp] theorem Outcome.andThen_undefined {α β : Type}
    (k : α → Deque T → Outcome T β) :
    (Outcome.undefined : Outcome T α).andThen k = .undefined := rfl

@[simp] theorem Outcome.andThen_outOfFuel {α β : Type}
    (k : α → Deque T → Outcome T β) :
    (Outcome.outOfFuel : Outcome T α).andThen k = .outOfFuel := rfl

theorem getSlot_eq_some_of_shaped {body : List (Block T)} {n b o : Nat}
    (hs : Shaped body n) (hb : b < n) (ho : o < kArraySize) :
    ∃ s, getSlot body b o = some s := by
  obtain ⟨hl, hblk⟩ := hs
  have hb' : b < body.length := by omega
  have h1 : body[b]? = some body[b] := List.getElem?_eq_getElem hb'
  have h2 : body[b].length = kArraySize := hblk _ (List.getElem_mem hb')
  have ho' : o < body[b].length := by omega
  refine ⟨body[b][o], ?_⟩
  simp [getSlot, h1, List.getElem?_eq_getElem ho']

theorem setSlot_shaped {body : List (Block T)} {n b o : Nat} (s : Option T)
    (hs : Shaped body n) (hb : b < n) (ho : o < kArraySize) :
    ∃ body1, setSlot body b o s = some body1 ∧ Shaped body1 n ∧
      ∀ b1 o1, getSlot body1 b1 o1 =
        if b1 = b ∧ o1 = o then some s else getSlot body b1 o1 := by
  obtain ⟨hl, hblk⟩ := hs
  have hb' : b < body.length := by omega
  have h1 : body[b]? = some body[b] := List.getElem?_eq_getElem hb'
  have h2 : body[b].length = kArraySize := hblk _ (List.getElem_mem hb')
  have ho' : o < body[b].length := by omega
  refine ⟨body.set b (body[b].set o s), ?_, ⟨?_, ?_⟩, ?_⟩
  · simp [setSlot, h1, ho']
  · simp [hl]
  · intro blk hmem
    rcases List.mem_or_eq_of_mem_set hmem with h | h
    · exact hblk _ h
    · simp [h, h2]
  · intro b1 o1
    by_cases hbb : b1 = b
    · subst hbb
      by_cases hoo : o1 = o
      · subst hoo
        simp [getSlot, hb', ho']
      · have : ¬ o = o1 := fun h => hoo h.symm
        simp [getSlot, hb', hoo, List.getElem?_set, this, h1]
    · have : ¬ b = b1 := fun h => hbb h.symm
      simp [getSlot, hbb, List.getElem?_set, this]

namespace Deque

theorem shaped_grow {body : List (Block T)} {n : Nat} (hs : Shaped body n) :
    Shaped (body.take n ++ List.replicate (n * 3 - n) freshBlock) (n * 3) := by
  obtain ⟨hl, hblk⟩ := hs
  refine ⟨by simp [hl]; omega, ?_⟩
  intro blk hmem
  rcases List.mem_append.1 hmem with h | h
  · exact hblk _ (List.mem_of_mem_take h)
  · rw [List.eq_of_mem_replicate h]; simp [freshBlock]

theorem increase_capacity_eq {d : Deque T} (h : d.body_.length = d.capacity_of_arr_) :
    d.increase_capacity = .ok () d.grown := by
  simp [increase_capacity, grown, h]

theorem emplace_back_unfold (d : Deque T) (args : Option T) (hne : d.capacity_of_arr_ ≠ 0)
    (hlen : d.body_.length = d.capacity_of_arr_) (hlin : d.last_in_array_index_ < kArraySize) :
    d.emplace_back args = constructBack d.advanceBack args := by
  have hgl : d.grown.body_.length = d.capacity_of_arr_ * 3 := by
    simp [grown, hlen]; omega
  simp only [kArraySize] at hlin
  by_cases h1 : d.last_array_index_ + 1 = d.capacity_of_arr_
  · by_cases h2 : d.last_in_array_index_ = 510
    · have hg : d.backGrows := ⟨h1, by omega⟩
      simp [emplace_back, capacity, hne, back_increase_capacity_condition, h1.symm, h2,
        increase_capacity_eq hlen, advanceBack, hg, nextBack, constructBack, grown]
    · by_cases h3 : d.last_in_array_index_ = 511
      · have hg : d.backGrows := ⟨h1, by omega⟩
        simp [emplace_back, capacity, hne, back_increase_capacity_condition, h1.symm, h3,
          increase_capacity_eq hlen, advanceBack, hg, nextBack, constructBack, grown, hlen]
      · have hg : ¬ d.backGrows := fun h => by have := h.2; omega
        have h4 : ¬ (512 = d.last_in_array_index_ + 2) := by omega
        have h5 : ¬ (d.last_in_array_index_ + 1 = 512) := by omega
        simp [emplace_back, capacity, hne, back_increase_capacity_condition, h4, h5,
          advanceBack, hg, nextBack, constructBack]
  · have hg : ¬ d.backGrows := fun h => h1 h.1
    have h4 : ¬ (d.capacity_of_arr_ = d.last_array_index_ + 1) := fun h => h1 h.symm
    by_cases h3 : d.last_in_array_index_ + 1 = 512
    · simp [emplace_back, capacity, hne, back_increase_capacity_condition, h4, h3,
        advanceBack, hg, nextBack, constructBack, hlen, h1]
    · simp [emplace_back, capacity, hne, back_increase_capacity_condition, h4, h3,
        advanceBack, hg, nextBack, constructBack]

theorem valid_advanceBack {d : Deque T} (hv : d.Valid) :
    Shaped d.advanceBack.body_ d.advanceBack.capacity_of_arr_ ∧
    d.advanceBack.last_array_index_ < d.advanceBack.capacity_of_arr_ ∧
    d.advanceBack.last_in_array_index_ < kArraySize ∧
    d.advanceBack.first_in_array_index_ = d.first_in_array_index_ ∧
    d.advanceBack.size_ = d.size_ ∧
    ((¬ d.backGrows ∧ d.advanceBack.body_ = d.body_ ∧
        d.advanceBack.capacity_of_arr_ = d.capacity_of_arr_ ∧
        d.advanceBack.first_array_index_ = d.first_array_index_ ∧
        d.advanceBack.lastPos = d.lastPos + 1) ∨
     (d.backGrows ∧ d.advanceBack.body_ = d.grown.body_ ∧
        d.advanceBack.capacity_of_arr_ = d.capacity_of_arr_ * 3 ∧
        d.advanceBack.first_array_index_ = d.first_array_index_ + d.capacity_of_arr_ ∧
        d.advanceBack.lastPos = d.lastPos + 1 + d.capacity_of_arr_ * kArraySize)) := by
  obtain ⟨hcap, hsh, hfin, hlin, hlarr, hord, hsz⟩ := hv
  simp only [firstPos, lastPos, kArraySize, kStartCapacityOfArr] at hord hsz hcap hfin hlin
  by_cases hg : d.backGrows
  · have h1 := hg.1
    have h2 := hg.2
    have hsg : Shaped d.grown.body_ (d.capacity_of_arr_ * 3) := shaped_grow hsh
    by_cases h3 : d.last_in_array_index_ + 1 = 512
    · simp only [advanceBack, if_pos hg, nextBack, grown, kArraySize, if_pos h3, lastPos]
      refine ⟨hsg, ?_, ?_, ?_, ?_, Or.inr ⟨hg, ?_, ?_, ?_, ?_⟩⟩ <;> first | omega | rfl | trivial
    · simp only [advanceBack, if_pos hg, nextBack, grown, kArraySize, if_neg h3, lastPos]
      refine ⟨hsg, ?_, ?_, ?_, ?_, Or.inr ⟨hg, ?_, ?_, ?_, ?_⟩⟩ <;> first | omega | rfl | trivial
  · have h1 : ¬ (d.last_array_index_ + 1 = d.capacity_of_arr_ ∧ 510 ≤ d.last_in_array_index_) :=
      hg
    by_cases h3 : d.last_in_array_index_ + 1 = 512
    · simp only [advanceBack, if_neg hg, nextBack, kArraySize, if_pos h3, lastPos]
      refine ⟨hsh, ?_, ?_, ?_, ?_, Or.inl ⟨hg, ?_, ?_, ?_, ?_⟩⟩ <;> first | omega | rfl | trivial
    · simp only [advanceBack, if_neg hg, nextBack, kArraySize, if_neg h3, lastPos]
      refine ⟨hsh, ?_, ?_, ?_, ?_, Or.inl ⟨hg, ?_, ?_, ?_, ?_⟩⟩ <;> first | omega | rfl | trivial

theorem constructBack_some {d3 : Deque T} (v : T)
    (hs : Shaped d3.body_ d3.capacity_of_arr_)
    (hb : d3.last_array_index_ < d3.capacity_of_arr_)
    (ho : d3.last_in_array_index_ < kArraySize) :
    ∃ body1, Shaped body1 d3.capacity_of_arr_ ∧
      (∀ b o, getSlot body1 b o =
        if b = d3.last_array_index_ ∧ o = d3.last_in_array_index_ then some (some v)
        else getSlot d3.body_ b o) ∧
      constructBack d3 (some v) = .ok () { d3 with body_ := body1, size_ := d3.size_ + 1 } := by
  obtain ⟨s, hg⟩ := getSlot_eq_some_of_shaped hs hb ho
  obtain ⟨body1, hset, hs1, hget⟩ := setSlot_shaped (some v) hs hb ho
  exact ⟨body1, hs1, hget, by simp [constructBack, hg, store, hset]⟩

theorem push_back_spec {d : Deque T} (v : T) (hv : d.Valid) :
    ∃ d1, d.push_back v = .ok () d1 ∧ d1.Valid ∧ d1.size_ = d.size_ + 1 ∧
      d1.first_in_array_index_ = d.first_in_array_index_ ∧
      ((¬ d.backGrows ∧ d1.capacity_of_arr_ = d.capacity_of_arr_ ∧
          d1.first_array_index_ = d.first_array_index_ ∧ d1.lastPos = d.lastPos + 1 ∧
          ∀ b o, getSlot d1.body_ b o =
            if b = d1.last_array_index_ ∧ o = d1.last_in_array_index_ then some (some v)
            else getSlot d.body_ b o) ∨
        (d.backGrows ∧ d1.capacity_of_arr_ = d.capacity_of_arr_ * 3 ∧
          d1.first_array_index_ = d.first_array_index_ + d.capacity_of_arr_ ∧
          d1.lastPos = d.lastPos + 1 + d.capacity_of_arr_ * kArraySize ∧
          ∀ b o, getSlot d1.body_ b o =
            if b = d1.last_array_index_ ∧ o = d1.last_in_array_index_ then some (some v)
            else getSlot d.grown.body_ b o)) := by
  obtain ⟨hsh, hb, ho, hfi, hsize, hcases⟩ := valid_advanceBack hv
  obtain ⟨body1, hs1, hget, heq⟩ := constructBack_some v hsh hb ho
  have hunf := emplace_back_unfold d (some v)
    (by have := hv.cap_ge; simp only [kStartCapacityOfArr] at this; omega) hv.shaped.1 hv.lin_lt
  refine ⟨{ d.advanceBack with body_ := body1, size_ := d.advanceBack.size_ + 1 },
    by rw [push_back, hunf, heq], ?_, by simp [hsize], hfi, ?_⟩
  · obtain ⟨hcap, -, hfin, hlin, hlarr, hord, hsz⟩ := hv
    simp only [firstPos, lastPos, kArraySize, kStartCapacityOfArr] at *
    refine ⟨?_, hs1, ?_, ho, hb, ?_, ?_⟩
    · dsimp only [kStartCapacityOfArr]
      rcases hcases with ⟨-, -, h, -⟩ | ⟨-, -, h, -⟩ <;> omega
    · dsimp only [kArraySize]; omega
    · dsimp only [firstPos, lastPos, kArraySize]
      rcases hcases with ⟨-, -, h1, h2, h3⟩ | ⟨-, -, h1, h2, h3⟩ <;> omega
    · dsimp only [firstPos, lastPos, kArraySize]
      rcases hcases with ⟨-, -, h1, h2, h3⟩ | ⟨-, -, h1, h2, h3⟩ <;> omega
  · rcases hcases with ⟨hng, hbody, h1, h2, h3⟩ | ⟨hg, hbody, h1, h2, h3⟩
    · exact Or.inl ⟨hng, h1, h2, h3, fun b o => by rw [← hbody]; exact hget b o⟩
    · exact Or.inr ⟨hg, h1, h2, h3, fun b o => by rw [← hbody]; exact hget b o⟩


theorem emplace_front_unfold (d : Deque T) (args : Option T) (hne : d.capacity_of_arr_ ≠ 0)
    (hlen : d.body_.length = d.capacity_of_arr_) :
    d.emplace_front args = constructFront d.advanceFront args := by
  by_cases h1 : d.first_in_array_index_ = 0
  · by_cases h2 : d.first_array_index_ = 0
    · have hg : d.frontGrows := ⟨h2, h1⟩
      simp [emplace_front, capacity, hne, front_increase_capacity_condition, h1, h2,
        increase_capacity_eq hlen, advanceFront, hg, prevFront, constructFront, grown]
    · have hg : ¬ d.frontGrows := fun h => h2 h.1
      simp [emplace_front, capacity, hne, front_increase_capacity_condition, h1, h2,
        advanceFront, hg, prevFront, constructFront]
  · have hg : ¬ d.frontGrows := fun h => h1 h.2
    simp [emplace_front, capacity, hne, front_increase_capacity_condition, h1,
      advanceFront, hg, prevFront, constructFront]

theorem valid_advanceFront {d : Deque T} (hv : d.Valid) :
    Shaped d.advanceFront.body_ d.advanceFront.capacity_of_arr_ ∧
    d.advanceFront.first_array_index_ < d.advanceFront.capacity_of_arr_ ∧
    d.advanceFront.first_in_array_index_ < kArraySize ∧
    d.advanceFront.last_in_array_index_ = d.last_in_array_index_ ∧
    d.advanceFront.size_ = d.size_ ∧
    ((¬ d.frontGrows ∧ d.advanceFront.body_ = d.body_ ∧
        d.advanceFront.capacity_of_arr_ = d.capacity_of_arr_ ∧
        d.advanceFront.last_array_index_ = d.last_array_index_ ∧
        d.advanceFront.firstPos + 1 = d.firstPos) ∨
     (d.frontGrows ∧ d.advanceFront.body_ = d.grown.body_ ∧
        d.advanceFront.capacity_of_arr_ = d.capacity_of_arr_ * 3 ∧
        d.advanceFront.last_array_index_ = d.last_array_index_ + d.capacity_of_arr_ ∧
        d.advanceFront.firstPos + 1 = d.firstPos + d.capacity_of_arr_ * kArraySize)) := by
  obtain ⟨hcap, hsh, hfin, hlin, hlarr, hord, hsz⟩ := hv
  simp only [firstPos, lastPos, kArraySize, kStartCapacityOfArr] at hord hsz hcap hfin hlin
  by_cases hg : d.frontGrows
  · have h1 := hg.1
    have h2 := hg.2
    have hsg : Shaped d.grown.body_ (d.capacity_of_arr_ * 3) := shaped_grow hsh
    have hw : wsub (d.first_array_index_ + d.capacity_of_arr_) 1 =
        d.first_array_index_ + d.capacity_of_arr_ - 1 := by
      simp only [wsub]; rw [if_pos (by omega)]
    simp only [advanceFront, if_pos hg, prevFront, grown, kArraySize, if_pos h2, firstPos, hw]
    refine ⟨hsg, ?_, ?_, ?_, ?_, Or.inr ⟨hg, ?_, ?_, ?_, ?_⟩⟩ <;> first | omega | rfl | trivial
  · have h1 : ¬ (d.first_array_index_ = 0 ∧ d.first_in_array_index_ = 0) := hg
    by_cases h3 : d.first_in_array_index_ = 0
    · have hw : wsub d.first_array_index_ 1 = d.first_array_index_ - 1 := by
        simp only [wsub]; rw [if_pos (by omega)]
      simp only [advanceFront, if_neg hg, prevFront, kArraySize, if_pos h3, firstPos, hw]
      refine ⟨hsh, ?_, ?_, ?_, ?_, Or.inl ⟨hg, ?_, ?_, ?_, ?_⟩⟩ <;>
        first | omega | rfl | trivial
    · simp only [advanceFront, if_neg hg, prevFront, kArraySize, if_neg h3, firstPos]
      refine ⟨hsh, ?_, ?_, ?_, ?_, Or.inl ⟨hg, ?_, ?_, ?_, ?_⟩⟩ <;>
        first | omega | rfl | trivial

theorem constructFront_some {d3 : Deque T} (v : T)
    (hs : Shaped d3.body_ d3.capacity_of_arr_)
    (hb : d3.first_array_index_ < d3.capacity_of_arr_)
    (ho : d3.first_in_array_index_ < kArraySize) :
    ∃ body1, Shaped body1 d3.capacity_of_arr_ ∧
      (∀ b o, getSlot body1 b o =
        if b = d3.first_array_index_ ∧ o = d3.first_in_array_index_ then some (some v)
        else getSlot d3.body_ b o) ∧
      constructFront d3 (some v) = .ok () { d3 with body_ := body1, size_ := d3.size_ + 1 } := by
  obtain ⟨s, hg⟩ := getSlot_eq_some_of_shaped hs hb ho
  obtain ⟨body1, hset, hs1, hget⟩ := setSlot_shaped (some v) hs hb ho
  exact ⟨body1, hs1, hget, by simp [constructFront, hg, store, hset]⟩

theorem push_front_spec {d : Deque T} (v : T) (hv : d.Valid) :
    ∃ d1, d.push_front v = .ok () d1 ∧ d1.Valid ∧ d1.size_ = d.size_ + 1 ∧
      d1.last_in_array_index_ = d.last_in_array_index_ ∧
      ((¬ d.frontGrows ∧ d1.capacity_of_arr_ = d.capacity_of_arr_ ∧
          d1.last_array_index_ = d.last_array_index_ ∧ d1.firstPos + 1 = d.firstPos ∧
          ∀ b o, getSlot d1.body_ b o =
            if b = d1.first_array_index_ ∧ o = d1.first_in_array_index_ then some (some v)
            else getSlot d.body_ b o) ∨
        (d.frontGrows ∧ d1.capacity_of_arr_ = d.capacity_of_arr_ * 3 ∧
          d1.last_array_index_ = d.last_array_index_ + d.capacity_of_arr_ ∧
          d1.firstPos + 1 = d.firstPos + d.capacity_of_arr_ * kArraySize ∧
          ∀ b o, getSlot d1.body_ b o =
            if b = d1.first_array_index_ ∧ o = d1.first_in_array_index_ then some (some v)
            else getSlot d.grown.body_ b o)) := by
  obtain ⟨hsh, hb, ho, hli, hsize, hcases⟩ := valid_advanceFront hv
  obtain ⟨body1, hs1, hget, heq⟩ := constructFront_some v hsh hb ho
  have hunf := emplace_front_unfold d (some v)
    (by have := hv.cap_ge; simp only [kStartCapacityOfArr] at this; omega) hv.shaped.1
  refine ⟨{ d.advanceFront with body_ := body1, size_ := d.advanceFront.size_ + 1 },
    by rw [push_front, hunf, heq], ?_, by simp [hsize], hli, ?_⟩
  · obtain ⟨hcap, -, hfin, hlin, hlarr, hord, hsz⟩ := hv
    simp only [firstPos, lastPos, kArraySize, kStartCapacityOfArr] at *
    refine ⟨?_, hs1, ho, ?_, ?_, ?_, ?_⟩
    · dsimp only [kStartCapacityOfArr]
      rcases hcases with ⟨-, -, h, -⟩ | ⟨-, -, h, -⟩ <;> omega
    · dsimp only [kArraySize]; omega
    · dsimp only
      rcases hcases with ⟨-, -, h1, h2, h3⟩ | ⟨-, -, h1, h2, h3⟩ <;> omega
    · dsimp only [firstPos, lastPos, kArraySize]
      rcases hcases with ⟨-, -, h1, h2, h3⟩ | ⟨-, -, h1, h2, h3⟩ <;> omega
    · dsimp only [firstPos, lastPos, kArraySize]
      rcases hcases with ⟨-, -, h1, h2, h3⟩ | ⟨-, -, h1, h2, h3⟩ <;> omega
  · rcases hcases with ⟨hng, hbody, h1, h2, h3⟩ | ⟨hg, hbody, h1, h2, h3⟩
    · exact Or.inl ⟨hng, h1, h2, h3, fun b o => by rw [← hbody]; exact hget b o⟩
    · exact Or.inr ⟨hg, h1, h2, h3, fun b o => by rw [← hbody]; exact hget b o⟩

theorem decrease_capacity_noop (d : Deque T)
    (h : d.size_ / 4 < d.last_array_index_ * kArraySize + d.last_in_array_index_ + 1) :
    d.decrease_capacity = .ok () d := by
  have h1 : ¬ (d.last_array_index_ * kArraySize + d.last_in_array_index_ + 1 ≤ d.size_ / 4) := by
    omega
  simp only [decrease_capacity, if_neg h1]

theorem pop_back_spec {d : Deque T} (hv : d.Valid) (hne : d.size_ ≠ 0) :
    ∃ d1, d.pop_back = .ok () d1 ∧ d1.Valid ∧ d1.size_ = d.size_ - 1 ∧
      d1.capacity_of_arr_ = d.capacity_of_arr_ ∧
      d1.first_array_index_ = d.first_array_index_ ∧
      d1.first_in_array_index_ = d.first_in_array_index_ ∧
      (d.firstPos < d.lastPos → d1.lastPos + 1 = d.lastPos) ∧
      (d.firstPos = d.lastPos → d1.last_array_index_ = d.last_array_index_ ∧
        d1.last_in_array_index_ = d.last_in_array_index_) ∧
      ∀ b o, getSlot d1.body_ b o =
        if b = d.last_array_index_ ∧ o = d.last_in_array_index_ then some none
        else getSlot d.body_ b o := by
  obtain ⟨hcap, hsh, hfin, hlin, hlarr, hord, hsz⟩ := hv
  obtain ⟨body1, hset, hs1, hget⟩ := setSlot_shaped (none : Option T) hsh hlarr hlin
  simp only [firstPos, lastPos, kArraySize, kStartCapacityOfArr] at hord hsz hcap hfin hlin
  have hemp : d.empty = false := by simp [empty, size, hne]
  by_cases hc : d.first_in_array_index_ ≠ d.last_in_array_index_ ∨
      d.first_array_index_ ≠ d.last_array_index_
  · have hlt : d.first_array_index_ * 512 + d.first_in_array_index_ <
        d.last_array_index_ * 512 + d.last_in_array_index_ := by omega
    by_cases h0 : d.last_in_array_index_ = 0
    · have hw : wsub d.last_array_index_ 1 = d.last_array_index_ - 1 := by
        simp only [wsub]; rw [if_pos (by omega)]
      refine ⟨{ d with body_ := body1, last_in_array_index_ := kArraySize - 1,
                       last_array_index_ := d.last_array_index_ - 1,
                       size_ := d.size_ - 1 }, ?_, ?_, rfl, rfl, rfl, rfl, ?_, ?_, hget⟩
      · simp only [pop_back, hemp, store, hset, Outcome.andThen_ok, Bool.false_eq_true, if_false]
        rw [if_pos hc]; simp [h0, hw]
      · refine ⟨hcap, hs1, hfin, ?_, ?_, ?_, ?_⟩ <;>
          first | omega | (simp only [firstPos, lastPos, kArraySize]; omega)
      · intro _; dsimp only [lastPos, kArraySize]; omega
      · intro h; dsimp only [firstPos, lastPos, kArraySize] at h; omega
    · refine ⟨{ d with body_ := body1,
                       last_in_array_index_ := d.last_in_array_index_ - 1,
                       size_ := d.size_ - 1 }, ?_, ?_, rfl, rfl, rfl, rfl, ?_, ?_, hget⟩
      · simp only [pop_back, hemp, store, hset, Outcome.andThen_ok, Bool.false_eq_true, if_false]
        rw [if_pos hc]; simp [h0]
      · refine ⟨hcap, hs1, hfin, ?_, ?_, ?_, ?_⟩ <;>
          first | omega | (simp only [firstPos, lastPos, kArraySize]; omega)
      · intro _; dsimp only [lastPos, kArraySize]; omega
      · intro h; dsimp only [firstPos, lastPos, kArraySize] at h; omega
  · have heq : d.first_in_array_index_ = d.last_in_array_index_ ∧
        d.first_array_index_ = d.last_array_index_ :=
      ⟨not_not.1 (not_or.1 hc).1, not_not.1 (not_or.1 hc).2⟩
    have hdc : ({ d with body_ := body1 } : Deque T).decrease_capacity =
        .ok () { d with body_ := body1 } := by
      apply decrease_capacity_noop
      dsimp only [kArraySize]
      have : d.size_ ≤ 1 := by omega
      omega
    refine ⟨{ d with body_ := body1, size_ := d.size_ - 1 }, ?_, ?_, rfl, rfl, rfl, rfl,
      ?_, ?_, hget⟩
    · simp only [pop_back, hemp, store, hset, Outcome.andThen_ok, Bool.false_eq_true, if_false]
      dsimp only
      rw [if_neg hc]
      by_cases hp : d.last_array_index_ > 0
      · rw [if_pos hp, hdc]; rfl
      · rw [if_neg hp]; rfl
    · refine ⟨hcap, hs1, hfin, ?_, ?_, ?_, ?_⟩ <;>
        first | omega | (simp only [firstPos, lastPos, kArraySize]; omega)
    · intro h; dsimp only [firstPos, lastPos, kArraySize] at h; omega
    · intro _; exact ⟨rfl, rfl⟩

theorem pop_front_spec {d : Deque T} (hv : d.Valid) (hne : d.size_ ≠ 0) :
    ∃ d1, d.pop_front = .ok () d1 ∧ d1.Valid ∧ d1.size_ = d.size_ - 1 ∧
      d1.capacity_of_arr_ = d.capacity_of_arr_ ∧
      d1.last_array_index_ = d.last_array_index_ ∧
      d1.last_in_array_index_ = d.last_in_array_index_ ∧
      (d.firstPos < d.lastPos → d1.firstPos = d.firstPos + 1) ∧
      (d.firstPos = d.lastPos → d1.first_array_index_ = d.first_array_index_ ∧
        d1.first_in_array_index_ = d.first_in_array_index_) ∧
      ∀ b o, getSlot d1.body_ b o =
        if b = d.first_array_index_ ∧ o = d.first_in_array_index_ then some none
        else getSlot d.body_ b o := by
  obtain ⟨hcap, hsh, hfin, hlin, hlarr, hord, hsz⟩ := hv
  simp only [firstPos, lastPos, kArraySize, kStartCapacityOfArr] at hord hsz hcap hfin hlin
  have hfarr : d.first_array_index_ < d.capacity_of_arr_ := by omega
  obtain ⟨body1, hset, hs1, hget⟩ := setSlot_shaped (none : Option T) hsh hfarr
    (show d.first_in_array_index_ < kArraySize from hfin)
  have hemp : d.empty = false := by simp [empty, size, hne]
  by_cases hc : d.first_in_array_index_ ≠ d.last_in_array_index_ ∨
      d.first_array_index_ ≠ d.last_array_index_
  · have hlt : d.first_array_index_ * 512 + d.first_in_array_index_ <
        d.last_array_index_ * 512 + d.last_in_array_index_ := by omega
    by_cases h0 : d.first_in_array_index_ = 511
    · refine ⟨{ d with body_ := body1, first_in_array_index_ := 0,
                       first_array_index_ := d.first_array_index_ + 1,
                       size_ := d.size_ - 1 }, ?_, ?_, rfl, rfl, rfl, rfl, ?_, ?_, hget⟩
      · simp only [pop_front, hemp, store, hset, Outcome.andThen_ok, Bool.false_eq_true, if_false]
        rw [if_pos hc]; simp [h0]
      · refine ⟨hcap, hs1, ?_, hlin, hlarr, ?_, ?_⟩ <;>
          first | omega | (simp only [firstPos, lastPos, kArraySize]; omega)
      · intro _; dsimp only [firstPos, kArraySize]; omega
      · intro h; dsimp only [firstPos, lastPos, kArraySize] at h; omega
    · refine ⟨{ d with body_ := body1,
                       first_in_array_index_ := d.first_in_array_index_ + 1,
                       size_ := d.size_ - 1 }, ?_, ?_, rfl, rfl, rfl, rfl, ?_, ?_, hget⟩
      · simp only [pop_front, hemp, store, hset, Outcome.andThen_ok, Bool.false_eq_true, if_false]
        rw [if_pos hc]; simp [h0]
      · refine ⟨hcap, hs1, ?_, hlin, hlarr, ?_, ?_⟩ <;>
          first | omega | (simp only [firstPos, lastPos, kArraySize]; omega)
      · intro _; dsimp only [firstPos, kArraySize]; omega
      · intro h; dsimp only [firstPos, lastPos, kArraySize] at h; omega
  · have heq : d.first_in_array_index_ = d.last_in_array_index_ ∧
        d.first_array_index_ = d.last_array_index_ :=
      ⟨not_not.1 (not_or.1 hc).1, not_not.1 (not_or.1 hc).2⟩
    have hdc : ({ d with body_ := body1 } : Deque T).decrease_capacity =
        .ok () { d with body_ := body1 } := by
      apply decrease_capacity_noop
      dsimp only [kArraySize]
      have : d.size_ ≤ 1 := by omega
      omega
    refine ⟨{ d with body_ := body1, size_ := d.size_ - 1 }, ?_, ?_, rfl, rfl, rfl, rfl,
      ?_, ?_, hget⟩
    · simp only [pop_front, hemp, store, hset, Outcome.andThen_ok, Bool.false_eq_true, if_false]
      dsimp only
      rw [if_neg hc]
      by_cases hp : d.first_array_index_ > 0
      · rw [if_pos hp, hdc]; rfl
      · rw [if_neg hp]; rfl
    · refine ⟨hcap, hs1, hfin, hlin, hlarr, ?_, ?_⟩ <;>
        first | omega | (simp only [firstPos, lastPos, kArraySize]; omega)
    · intro h; dsimp only [firstPos, lastPos, kArraySize] at h; omega
    · intro _; exact ⟨rfl, rfl⟩

theorem shaped_initial : Shaped (List.replicate kStartCapacityOfArr (freshBlock : Block T))
    kStartCapacityOfArr := by
  refine ⟨by simp, ?_⟩
  intro blk h
  rw [List.eq_of_mem_replicate h]
  simp [freshBlock]

theorem emplace_back_fresh (v : T) :
    ∃ d1 : Deque T, fresh.emplace_back (some v) = .ok () d1 ∧ d1.Valid ∧ d1.size_ = 1 ∧
      d1.capacity_of_arr_ = kStartCapacityOfArr ∧
      d1.first_array_index_ = 32 ∧ d1.first_in_array_index_ = 256 ∧
      d1.last_array_index_ = 32 ∧ d1.last_in_array_index_ = 256 ∧
      ∀ b o, getSlot d1.body_ b o =
        if b = 32 ∧ o = 256 then some (some v)
        else getSlot (List.replicate kStartCapacityOfArr (freshBlock : Block T)) b o := by
  obtain ⟨body1, hset, hs1, hget⟩ := setSlot_shaped (some v) (shaped_initial (T := T))
    (show 32 < kStartCapacityOfArr by norm_num) (show 256 < kArraySize by norm_num)
  have hset1 : setSlot (List.replicate kStartCapacityOfArr (freshBlock : Block T))
      (kStartCapacityOfArr / 2) (kArraySize / 2) (some v) = some body1 := hset
  refine ⟨{ body_ := body1, size_ := 1, capacity_of_arr_ := kStartCapacityOfArr,
            first_in_array_index_ := 256, last_in_array_index_ := 256,
            first_array_index_ := 32, last_array_index_ := 32 }, ?_, ?_, rfl, rfl, rfl, rfl,
    rfl, rfl, hget⟩
  · simp [emplace_back, capacity, fresh, initial_allocate, set_array_indexes,
      set_indexes_in_array, store, hset1]
    norm_num
  · exact ⟨le_refl _, hs1, by norm_num, by norm_num, by norm_num, by simp [firstPos, lastPos],
      by simp [firstPos, lastPos]⟩

theorem emplace_front_fresh (v : T) :
    (fresh : Deque T).emplace_front (some v) = fresh.emplace_back (some v) := by
  simp [emplace_front, emplace_back, capacity, fresh, initial_allocate, set_array_indexes,
    set_indexes_in_array]

theorem pop_back_of_size_zero {d : Deque T} (h : d.size_ = 0) :
    d.pop_back = .raised .emptyContainer d := by
  simp [pop_back, empty, size, h]

theorem pop_front_of_size_zero {d : Deque T} (h : d.size_ = 0) :
    d.pop_front = .raised .emptyContainer d := by
  simp [pop_front, empty, size, h]

end Deque

theorem apply_push {op : Op T} {d : Deque T} (hd : d.Inv) (hop : op.isPush = true) :
    ∃ d1, op.apply d = .ok () d1 ∧ d1.Valid ∧ d1.size_ = d.size_ + 1 := by
  cases op with
  | push_back v =>
    rcases hd with rfl | hv
    · obtain ⟨d1, h1, h2, h3, -⟩ := Deque.emplace_back_fresh v
      exact ⟨d1, h1, h2, by rw [h3]; rfl⟩
    · obtain ⟨d1, h1, h2, h3, -⟩ := Deque.push_back_spec v hv
      exact ⟨d1, h1, h2, h3⟩
  | push_front v =>
    rcases hd with rfl | hv
    · obtain ⟨d1, h1, h2, h3, -⟩ := Deque.emplace_back_fresh v
      exact ⟨d1, by rw [Op.apply, Deque.push_front, Deque.emplace_front_fresh, h1], h2,
        by rw [h3]; rfl⟩
    · obtain ⟨d1, h1, h2, h3, -⟩ := Deque.push_front_spec v hv
      exact ⟨d1, h1, h2, h3⟩
  | pop_back => simp [Op.isPush] at hop
  | pop_front => simp [Op.isPush] at hop

theorem apply_pop {op : Op T} {d : Deque T} (hd : d.Inv) (hop : op.isPop = true) :
    (d.size_ = 0 → op.apply d = .raised .emptyContainer d) ∧
    (d.size_ ≠ 0 → ∃ d1, op.apply d = .ok () d1 ∧ d1.Valid ∧ d1.size_ + 1 = d.size_) := by
  cases op with
  | push_back v => simp [Op.isPop] at hop
  | push_front v => simp [Op.isPop] at hop
  | pop_back =>
    refine ⟨fun h => Deque.pop_back_of_size_zero h, fun h => ?_⟩
    rcases hd with rfl | hv
    · exact absurd rfl h
    · obtain ⟨d1, h1, h2, h3, -⟩ := Deque.pop_back_spec hv h
      exact ⟨d1, h1, h2, by omega⟩
  | pop_front =>
    refine ⟨fun h => Deque.pop_front_of_size_zero h, fun h => ?_⟩
    rcases hd with rfl | hv
    · exact absurd rfl h
    · obtain ⟨d1, h1, h2, h3, -⟩ := Deque.pop_front_spec hv h
      exact ⟨d1, h1, h2, by omega⟩

theorem isPush_or_isPop (op : Op T) : op.isPush = true ∨ op.isPop = true := by
  cases op <;> simp [Op.isPush, Op.isPop]

theorem isPop_of_not_isPush {op : Op T} (h : op.isPush = false) : op.isPop = true := by
  cases op <;> simp_all [Op.isPush, Op.isPop]

theorem isPush_of_isPop {op : Op T} (h : op.isPop = true) : op.isPush = false := by
  cases op <;> simp_all [Op.isPush, Op.isPop]

/-- Every call on a state satisfying the invariant has a defined result, which
satisfies the invariant. -/
theorem apply_inv (op : Op T) {d : Deque T} (hd : d.Inv) :
    ∃ d1, (op.apply d).state? = some d1 ∧ d1.Inv := by
  rcases isPush_or_isPop op with h | h
  · obtain ⟨d1, h1, h2, -⟩ := apply_push hd h
    exact ⟨d1, by rw [h1]; rfl, Or.inr h2⟩
  · by_cases hz : d.size_ = 0
    · exact ⟨d, by rw [(apply_pop hd h).1 hz]; rfl, hd⟩
    · obtain ⟨d1, h1, h2, -⟩ := (apply_pop hd h).2 hz
      exact ⟨d1, by rw [h1]; rfl, Or.inr h2⟩

theorem run_inv (ops : List (Op T)) : ∀ {d : Deque T}, d.Inv →
    ∃ d1, run d ops = some d1 ∧ d1.Inv := by
  induction ops with
  | nil => intro d hd; exact ⟨d, rfl, hd⟩
  | cons op ops ih =>
    intro d hd
    obtain ⟨d1, h1, h2⟩ := apply_inv op hd
    obtain ⟨d2, h3, h4⟩ := ih h2
    exact ⟨d2, by simp only [run, h1, h3], h4⟩

theorem run_append (ops1 ops2 : List (Op T)) : ∀ d : Deque T,
    run d (ops1 ++ ops2) = (run d ops1).bind fun d1 => run d1 ops2 := by
  induction ops1 with
  | nil => intro d; rfl
  | cons op ops ih =>
    intro d
    simp only [List.cons_append, run]
    cases (op.apply d).state? with
    | none => rfl
    | some d1 => exact ih d1

theorem inv_of_reachable {d : Deque T} (h : Reachable d) : d.Inv := by
  obtain ⟨ops, hops⟩ := h
  obtain ⟨d1, h1, h2⟩ := run_inv ops (Or.inl rfl : (Deque.fresh : Deque T).Inv)
  rw [hops] at h1
  cases h1
  exact h2

theorem run_size (ops : List (Op T)) : ∀ {d : Deque T}, d.Inv →
    ∃ d1, run d ops = some d1 ∧
      d1.size_ + succeededPops d ops = d.size_ + pushCount ops := by
  induction ops with
  | nil => intro d _; exact ⟨d, rfl, rfl⟩
  | cons op ops ih =>
    intro d hd
    by_cases hp : op.isPush = true
    · obtain ⟨d1, h1, h2, h3⟩ := apply_push hd hp
      obtain ⟨d2, h4, h5⟩ := ih (Or.inr h2 : d1.Inv)
      have hpop : op.isPop = false := by cases op <;> simp_all [Op.isPush, Op.isPop]
      refine ⟨d2, by simp only [run, h1, Outcome.state?, h4], ?_⟩
      have hc : pushCount (op :: ops) = pushCount ops + 1 := by
        simp [pushCount, List.filter_cons, hp]
      have hs : succeededPops d (op :: ops) = succeededPops d1 ops := by
        simp [succeededPops, h1, hpop]
      omega
    · have hp' : op.isPush = false := by simpa using hp
      have hpop := isPop_of_not_isPush hp'
      have hc : pushCount (op :: ops) = pushCount ops := by
        simp [pushCount, List.filter_cons, hp']
      by_cases hz : d.size_ = 0
      · have h1 := (apply_pop hd hpop).1 hz
        obtain ⟨d2, h4, h5⟩ := ih hd
        refine ⟨d2, by simp only [run, h1, Outcome.state?, h4], ?_⟩
        have hs : succeededPops d (op :: ops) = succeededPops d ops := by
          simp [succeededPops, h1]
        omega
      · obtain ⟨d1, h1, h2, h3⟩ := (apply_pop hd hpop).2 hz
        obtain ⟨d2, h4, h5⟩ := ih (Or.inr h2 : d1.Inv)
        refine ⟨d2, by simp only [run, h1, Outcome.state?, h4], ?_⟩
        have hs : succeededPops d (op :: ops) = 1 + succeededPops d1 ops := by
          simp [succeededPops, h1, hpop]
        omega


/-! ## Iterator arithmetic on absolute slot numbers -/

namespace Iterator

theorem ofPos_pos {it : Iterator} (h : it.index_in_array_ < kArraySize) :
    ofPos it.pos = it := by
  cases it with
  | mk b o =>
    simp only [kArraySize] at h
    simp only [ofPos, pos, kArraySize, Iterator.mk.injEq]
    constructor <;> omega

theorem pos_ofPos (p : Nat) : (ofPos p).pos = p := by
  simp only [ofPos, pos, kArraySize]; omega

theorem ofPos_inj {p q : Nat} : ofPos p = ofPos q ↔ p = q := by
  simp only [ofPos, kArraySize, Iterator.mk.injEq]; omega

theorem eq_ofPos (p q : Nat) : (ofPos p).eq (ofPos q) = decide (p = q) := by
  simp only [Iterator.eq, ofPos, kArraySize]
  by_cases h : p = q
  · subst h; simp
  · have : ¬ (p / 512 = q / 512 ∧ p % 512 = q % 512) := by omega
    simp [h]
    intro h1; by_contra h2; exact this ⟨h1, h2⟩

theorem inc_ofPos (p : Nat) : (ofPos p).inc = ofPos (p + 1) := by
  simp only [inc, ofPos, kArraySize]
  split
  · rename_i h
    simp only [Iterator.mk.injEq]
    constructor <;> omega
  · rename_i h
    simp only [Iterator.mk.injEq]
    constructor <;> omega

theorem dec_ofPos {p : Nat} (hp : 0 < p) : (ofPos p).dec = ofPos (p - 1) := by
  simp only [dec, ofPos, kArraySize]
  split
  · rename_i h
    simp only [Iterator.mk.injEq]
    constructor <;> omega
  · rename_i h
    have hw : wsub (p / 512) 1 = p / 512 - 1 := by
      simp only [wsub]; rw [if_pos (by omega)]
    simp only [Iterator.mk.injEq, hw]
    constructor <;> omega

theorem add_ofPos_nat (p n : Nat) : (ofPos p).add (n : Int) = ofPos (p + n) := by
  have h0 : (n : Int) ≥ 0 := Int.ofNat_nonneg n
  simp only [add, add_assign, if_pos h0, ofPos, kArraySize, Int.toNat_ofNat, Iterator.mk.injEq]
  constructor <;> omega

theorem sub_one_ofPos {p : Nat} (hp : 0 < p) : (ofPos p).sub 1 = ofPos (p - 1) := by
  have h0 : ¬ ((-1 : Int) ≥ 0) := by decide
  have h1 : (-(-1 : Int)).toNat = 1 := by decide
  simp only [sub, sub_assign, add_assign, if_neg h0, h1, ofPos, kArraySize]
  split
  · rename_i h
    simp only [Iterator.mk.injEq]
    constructor <;> omega
  · rename_i h
    have h2 : p % 512 = 0 := by omega
    have hw : wsub (p / 512) ((1 - p % 512 - 1) / 512 + 1) = p / 512 - 1 := by
      simp only [wsub, h2]; rw [if_pos (by omega)]
    simp only [Iterator.mk.injEq, hw]
    constructor <;> omega

theorem wrapDiff_of_small {z : Int} (h1 : -(2 ^ 63) ≤ z) (h2 : z < 2 ^ 63) : wrapDiff z = z := by
  simp only [wrapDiff]
  have : (z + 2 ^ 63) % 2 ^ 64 = z + 2 ^ 63 := Int.emod_eq_of_lt (by omega) (by omega)
  omega

theorem distance_ofPos {p q : Nat} (hp : p < 2 ^ 62) (hq : q < 2 ^ 62) :
    (ofPos p).distance (ofPos q) = (p : Int) - q := by
  simp only [distance, ofPos, kArraySize]
  have : ((p / 512 : Nat) : Int) * (512 : Nat) + ((p % 512 : Nat) : Int)
      - ((q / 512 : Nat) : Int) * (512 : Nat) - ((q % 512 : Nat) : Int) = (p : Int) - q := by
    omega
  rw [this]
  exact wrapDiff_of_small (by omega) (by omega)

theorem gt_ofPos {p q : Nat} (hp : p < 2 ^ 62) (hq : q < 2 ^ 62) :
    (ofPos p).gt (ofPos q) = decide (q < p) := by
  simp only [gt, distance_ofPos hp hq]
  by_cases h : q < p
  · simp [h]
  · simp [h]

end Iterator


/-! ## Cursors, checked access -/

namespace Deque

theorem begin_eq_ofPos {d : Deque T} (hv : d.Valid) (hne : d.size_ ≠ 0) :
    d.begin = Iterator.ofPos d.firstPos := by
  have h := hv.fin_lt
  simp only [kArraySize] at h
  simp only [begin, size, ne_eq, hne, not_false_eq_true, if_true, Iterator.ofPos, firstPos,
    kArraySize, Iterator.mk.injEq]
  constructor <;> omega

theorem end_eq_ofPos {d : Deque T} (hv : d.Valid) :
    d.end_ = Iterator.ofPos (d.lastPos + 1) := by
  have h := hv.lin_lt
  simp only [kArraySize] at h
  simp only [end_, Iterator.ofPos, lastPos, kArraySize]
  split
  · simp only [Iterator.mk.injEq]; constructor <;> omega
  · simp only [Iterator.mk.injEq]; constructor <;> omega

theorem deref_ofPos (d : Deque T) (p : Nat) :
    d.deref (Iterator.ofPos p) = slotAt d.body_ p := rfl

theorem subscript_eq (d : Deque T) (i : Nat) :
    d.subscript i =
      match slotAt d.body_ (d.firstPos + i) with
      | none => .undefined
      | some s => .ok s d := by
  have h1 : (i + d.first_in_array_index_) / kArraySize + d.first_array_index_ =
      (d.firstPos + i) / kArraySize := by
    simp only [firstPos, kArraySize]; omega
  have h2 : (i + d.first_in_array_index_) % kArraySize = (d.firstPos + i) % kArraySize := by
    simp only [firstPos, kArraySize]; omega
  simp only [subscript, slotAt, h1, h2]

theorem at_of_lt {d : Deque T} {i : Nat} (h : i < d.size_) : d.at_ i = d.subscript i := by
  have : ¬ (i ≥ d.size_) := by omega
  simp [at_, check_index, this]

theorem at_of_ge {d : Deque T} {i : Nat} (h : d.size_ ≤ i) :
    d.at_ i = .raised .indexOutOfRange d := by
  simp [at_, check_index, h]

theorem slotAt_isSome {body : List (Block T)} {n p : Nat} (hs : Shaped body n)
    (hp : p < n * kArraySize) : ∃ s, slotAt body p = some s := by
  simp only [kArraySize] at hp
  exact getSlot_eq_some_of_shaped hs (by simp only [kArraySize]; omega)
    (by simp only [kArraySize]; omega)

theorem at_ok_of_valid {d : Deque T} (hv : d.Valid) {i : Nat} (h : i < d.size_) :
    ∃ s, slotAt d.body_ (d.firstPos + i) = some s ∧ d.at_ i = .ok s d := by
  have h1 := hv.size_le
  have h2 := hv.larr_lt
  have h3 := hv.lin_lt
  simp only [kArraySize, lastPos] at h1 h2 h3
  obtain ⟨s, hs⟩ := slotAt_isSome hv.shaped (p := d.firstPos + i)
    (by simp only [kArraySize]; omega)
  exact ⟨s, hs, by rw [at_of_lt h, subscript_eq, hs]⟩

end Deque

/-- C5: at(i) raises the out-of-range error, leaving the deque as it was, exactly
when i >= size(); in a state reachable from a default-constructed deque by pushes
and pops, at(i) with i < size() returns a slot of the table and leaves the deque
unchanged. -/
theorem at_raises_iff_out_of_range (d : Deque T) (i : Nat) :
    ((∃ e d1, d.at_ i = .raised e d1) ↔ d.size ≤ i) ∧
    (d.size ≤ i → d.at_ i = .raised .indexOutOfRange d) ∧
    (Reachable d → i < d.size → ∃ s, d.at_ i = .ok s d) := by
  refine ⟨⟨?_, fun h => ⟨_, _, Deque.at_of_ge h⟩⟩, Deque.at_of_ge, ?_⟩
  · rintro ⟨e, d1, h⟩
    by_contra hlt
    have hlt' : i < d.size_ := by simp only [Deque.size] at hlt; omega
    rw [Deque.at_of_lt hlt', Deque.subscript_eq] at h
    split at h <;> cases h
  · intro hr hlt
    rcases inv_of_reachable hr with rfl | hv
    · exact absurd hlt (by simp [Deque.size, Deque.fresh])
    · obtain ⟨s, -, hs⟩ := Deque.at_ok_of_valid hv hlt
      exact ⟨s, hs⟩

theorem sampleOne_reachable : Reachable sampleOne := ⟨[.push_back 7], rfl⟩

/-- Instance of C5 on the deque holding the single element 7: index 0 is read,
index 1 is out of range. -/
theorem at_raises_iff_out_of_range_witness :
    Reachable sampleOne ∧ 0 < sampleOne.size ∧ (∃ s, sampleOne.at_ 0 = .ok s sampleOne) ∧
      sampleOne.at_ 1 = .raised .indexOutOfRange sampleOne :=
  ⟨sampleOne_reachable, by decide,
    (at_raises_iff_out_of_range sampleOne 0).2.2 sampleOne_reachable (by decide),
    (at_raises_iff_out_of_range sampleOne 1).2.1 (by decide)⟩


/-! ## Exceptions of the pops, element count -/

namespace Deque

theorem decrease_capacity_not_raised (d : Deque T) (e : Err) (d1 : Deque T) :
    d.decrease_capacity ≠ .raised e d1 := by
  intro h
  unfold decrease_capacity at h
  dsimp only at h
  split_ifs at h
  all_goals first | cases h | (split at h <;> cases h)

theorem store_not_raised (d : Deque T) (b o : Nat) (s : Option T) (e : Err) (d1 : Deque T) :
    d.store b o s ≠ .raised e d1 := by
  intro h
  simp only [store] at h
  split at h <;> cases h

theorem pop_back_not_raised {d : Deque T} (hne : d.size_ ≠ 0) (e : Err) (d1 : Deque T) :
    d.pop_back ≠ .raised e d1 := by
  intro h
  have hemp : d.empty = false := by simp [empty, size, hne]
  simp only [pop_back, hemp, Bool.false_eq_true, if_false] at h
  cases hs : d.store d.last_array_index_ d.last_in_array_index_ none with
  | raised e2 d2 => exact store_not_raised _ _ _ _ _ _ hs
  | undefined => rw [hs] at h; cases h
  | outOfFuel => rw [hs] at h; cases h
  | ok u d2 =>
    rw [hs] at h
    simp only [Outcome.andThen_ok] at h
    split at h
    · split at h <;> cases h
    · split at h
      · cases hd : d2.decrease_capacity with
        | raised e3 d3 => exact decrease_capacity_not_raised _ _ _ hd
        | undefined => rw [hd] at h; cases h
        | outOfFuel => rw [hd] at h; cases h
        | ok u3 d3 => rw [hd] at h; cases h
      · cases h

theorem pop_front_not_raised {d : Deque T} (hne : d.size_ ≠ 0) (e : Err) (d1 : Deque T) :
    d.pop_front ≠ .raised e d1 := by
  intro h
  have hemp : d.empty = false := by simp [empty, size, hne]
  simp only [pop_front, hemp, Bool.false_eq_true, if_false] at h
  cases hs : d.store d.first_array_index_ d.first_in_array_index_ none with
  | raised e2 d2 => exact store_not_raised _ _ _ _ _ _ hs
  | undefined => rw [hs] at h; cases h
  | outOfFuel => rw [hs] at h; cases h
  | ok u d2 =>
    rw [hs] at h
    simp only [Outcome.andThen_ok] at h
    split at h
    · split at h <;> cases h
    · split at h
      · cases hd : d2.decrease_capacity with
        | raised e3 d3 => exact decrease_capacity_not_raised _ _ _ hd
        | undefined => rw [hd] at h; cases h
        | outOfFuel => rw [hd] at h; cases h
        | ok u3 d3 => rw [hd] at h; cases h
      · cases h

end Deque

/-- C6: pop_back and pop_front raise exactly when size() == 0; the exception is the
empty-container error and the state it leaves is the state before the call; on a
non-empty deque reachable by pushes and pops both calls return normally. -/
theorem pop_raises_iff_empty (d : Deque T) :
    ((∃ e d1, d.pop_back = .raised e d1) ↔ d.size = 0) ∧
    ((∃ e d1, d.pop_front = .raised e d1) ↔ d.size = 0) ∧
    (∀ e d1, d.pop_back = .raised e d1 → e = .emptyContainer ∧ d1 = d) ∧
    (∀ e d1, d.pop_front = .raised e d1 → e = .emptyContainer ∧ d1 = d) ∧
    (Reachable d → d.size ≠ 0 →
      (∃ d1, d.pop_back = .ok () d1) ∧ (∃ d1, d.pop_front = .ok () d1)) := by
  have hb : ∀ e d1, d.pop_back = .raised e d1 → d.size_ = 0 := by
    intro e d1 h
    by_contra hne
    exact Deque.pop_back_not_raised hne e d1 h
  have hf : ∀ e d1, d.pop_front = .raised e d1 → d.size_ = 0 := by
    intro e d1 h
    by_contra hne
    exact Deque.pop_front_not_raised hne e d1 h
  refine ⟨⟨fun ⟨e, d1, h⟩ => hb e d1 h, fun h => ⟨_, _, Deque.pop_back_of_size_zero h⟩⟩,
    ⟨fun ⟨e, d1, h⟩ => hf e d1 h, fun h => ⟨_, _, Deque.pop_front_of_size_zero h⟩⟩, ?_, ?_, ?_⟩
  · intro e d1 h
    rw [Deque.pop_back_of_size_zero (hb e d1 h)] at h
    cases h
    exact ⟨rfl, rfl⟩
  · intro e d1 h
    rw [Deque.pop_front_of_size_zero (hf e d1 h)] at h
    cases h
    exact ⟨rfl, rfl⟩
  · intro hr hne
    rcases inv_of_reachable hr with rfl | hv
    · exact absurd rfl hne
    · obtain ⟨d1, h1, -⟩ := Deque.pop_back_spec hv hne
      obtain ⟨d2, h2, -⟩ := Deque.pop_front_spec hv hne
      exact ⟨⟨d1, h1⟩, ⟨d2, h2⟩⟩

/-- Instance of C6 on the deque holding the single element 7: both pops return. -/
theorem pop_raises_iff_empty_witness :
    Reachable sampleOne ∧ sampleOne.size ≠ 0 ∧
      (∃ d1, sampleOne.pop_back = .ok () d1) ∧ (∃ d1, sampleOne.pop_front = .ok () d1) :=
  ⟨sampleOne_reachable, by decide,
    (pop_raises_iff_empty sampleOne).2.2.2.2 sampleOne_reachable (by decide)⟩

/-- C2: after any sequence of push_back / push_front / pop_back / pop_front calls on
a default-constructed deque, every call has a defined result and size() is the
number of pushes minus the number of pops that returned normally. -/
theorem size_eq_pushes_minus_succeeded_pops (ops : List (Op T)) :
    ∃ d, run Deque.fresh ops = some d ∧
      d.size + succeededPops Deque.fresh ops = pushCount ops ∧
      d.size = pushCount ops - succeededPops Deque.fresh ops := by
  obtain ⟨d, h1, h2⟩ := run_size ops (Or.inl rfl : (Deque.fresh : Deque T).Inv)
  have h3 : (Deque.fresh : Deque T).size_ = 0 := rfl
  exact ⟨d, h1, by simp only [Deque.size]; omega, by simp only [Deque.size]; omega⟩


/-! ## Insertion at the end -/

theorem Outcome.state?_andThen_ok {α β : Type} (o : Outcome T α) (f : α → Deque T → β) :
    (o.andThen fun a d1 => .ok (f a d1) d1).state? = o.state? := by
  cases o <;> rfl

namespace Deque

theorem begin_eq_end_of_size_zero {d : Deque T} (h : d.size_ = 0) : d.begin = d.end_ := by
  simp only [begin, end_, size, h, ne_eq, not_true_eq_false, if_false, kArraySize]
  by_cases h1 : d.last_in_array_index_ = 511
  · simp [h1]
  · have h2 : ¬ (d.last_in_array_index_ + 1 = 512) := by omega
    simp [h1, h2]

theorem eq_self (it : Iterator) : it.eq it = true := by
  simp [Iterator.eq]

theorem end_ne_begin {d : Deque T} (hv : d.Valid) (hne : d.size_ ≠ 0) :
    d.end_.eq d.begin = false := by
  rw [begin_eq_ofPos hv hne, end_eq_ofPos hv, Iterator.eq_ofPos]
  have := hv.ordered
  simp only [decide_eq_false_iff_not]
  omega

theorem insert_end_of_nonempty (fuel : Nat) {d : Deque T} (v : T) (hv : d.Valid)
    (hne : d.size_ ≠ 0) :
    d.insert fuel d.end_ v =
      (d.emplace_back (some v)).andThen fun _ d1 => .ok (d1.end_.sub 1) d1 := by
  simp only [insert, end_ne_begin hv hne, eq_self, Bool.false_eq_true, if_false, if_true]

theorem insert_end_of_size_zero (fuel : Nat) {d : Deque T} (v : T) (h : d.size_ = 0) :
    d.insert fuel d.end_ v =
      (d.emplace_front (some v)).andThen fun _ d1 => .ok d1.begin d1 := by
  simp only [insert, ← begin_eq_end_of_size_zero h, eq_self, if_true]

end Deque

/-- C9 (amended): in a state reachable by pushes and pops that is non-empty or has
never allocated its table, insert(end(), v) leaves the deque in the same state as
push_back(v); in every reachable state with size() == 0 it leaves the state of
push_front(v). -/
theorem insert_end_eq_push_back (fuel : Nat) (d : Deque T) (v : T) (hr : Reachable d) :
    (d.size ≠ 0 ∨ d.capacity = 0 →
      (d.insert fuel d.end_ v).state? = (d.push_back v).state?) ∧
    (d.size = 0 → (d.insert fuel d.end_ v).state? = (d.push_front v).state?) := by
  constructor
  · intro h
    rcases inv_of_reachable hr with rfl | hv
    · rw [Deque.insert_end_of_size_zero fuel v rfl, Outcome.state?_andThen_ok,
        Deque.emplace_front_fresh]
      rfl
    · have hne : d.size_ ≠ 0 := by
        rcases h with h | h
        · exact h
        · have := hv.cap_ge
          simp only [Deque.capacity] at h
          simp only [kStartCapacityOfArr] at this
          omega
      rw [Deque.insert_end_of_nonempty fuel v hv hne, Outcome.state?_andThen_ok]
      rfl
  · intro h
    rw [Deque.insert_end_of_size_zero fuel v h, Outcome.state?_andThen_ok]
    rfl

/-- Instance of C9 (amended) on the deque holding the single element 7. -/
theorem insert_end_eq_push_back_witness :
    Reachable sampleOne ∧ sampleOne.size ≠ 0 ∧
      (sampleOne.insert 0 sampleOne.end_ 8).state? = (sampleOne.push_back 8).state? :=
  ⟨sampleOne_reachable, by decide,
    (insert_end_eq_push_back 0 sampleOne 8 sampleOne_reachable).1 (Or.inl (by decide))⟩

/-- C9 as stated fails on the deque emptied by `push_back 1; pop_back`:
insert(end(), 2) moves the front cursor down (offset 255) and leaves the back cursor,
push_back(2) leaves the front cursor (offset 256) and moves the back cursor up. -/
theorem insert_end_differs_on_emptied :
    run (Deque.fresh : Deque Int) [.push_back 1, .pop_back] = some sampleEmptied ∧
    sampleEmptied.size = 0 ∧
    ((sampleEmptied.insert 0 sampleEmptied.end_ 2).state?.map
      fun d => (d.first_in_array_index_, d.last_in_array_index_)) = some (255, 256) ∧
    ((sampleEmptied.push_back 2).state?.map
      fun d => (d.first_in_array_index_, d.last_in_array_index_)) = some (256, 257) ∧
    (sampleEmptied.insert 0 sampleEmptied.end_ 2).state? ≠ (sampleEmptied.push_back 2).state? :=
  ⟨rfl, rfl, rfl, rfl, fun h =>
    absurd (congrArg (Option.map Deque.first_in_array_index_) h) (by decide)⟩


/-! ## Concrete runs -/

/-- C1 fails on the code: after `push_back 1; pop_back; push_back 2` the deque has
size 1 and at(0) designates the slot vacated by pop_back, not the element 2 of the
reference queue; after `push_back 1; pop_back; push_front 2; pop_back; push_back 3`
at(0) is the element 2, where the reference queue holds 3. -/
theorem order_lost_after_emptying :
    (∃ d, run (Deque.fresh : Deque Int) [.push_back 1, .pop_back, .push_back 2] = some d ∧
      d.size = 1 ∧ d.elems = [.ok none d] ∧
      runRef [] [Op.push_back (1 : Int), .pop_back, .push_back 2] = [2]) ∧
    (∃ d, run (Deque.fresh : Deque Int)
        [.push_back 1, .pop_back, .push_front 2, .pop_back, .push_back 3] = some d ∧
      d.size = 1 ∧ d.elems = [.ok (some 2) d] ∧
      runRef [] [Op.push_back (1 : Int), .pop_back, .push_front 2, .pop_back, .push_back 3]
        = [3]) :=
  ⟨⟨_, rfl, rfl, rfl, rfl⟩, ⟨_, rfl, rfl, rfl, rfl⟩⟩

/-- C4: push_back 1, 2, 3, 4, 5; pop_front; pop_front; push_front 6 on a
default-constructed `Deque<int>` leaves size() == 4, at(0..3) equal to 6, 3, 4, 5,
and the walk from begin() to end() visits 6, 3, 4, 5. -/
theorem scenario_six_three_four_five :
    ∃ d, run (Deque.fresh : Deque Int)
        [.push_back 1, .push_back 2, .push_back 3, .push_back 4, .push_back 5,
          .pop_front, .pop_front, .push_front 6] = some d ∧
      d.size = 4 ∧
      d.elems = [.ok (some 6) d, .ok (some 3) d, .ok (some 4) d, .ok (some 5) d] ∧
      d.collect 5 d.begin d.end_ = some [some 6, some 3, some 4, some 5] ∧
      runRef [] [Op.push_back (1 : Int), .push_back 2, .push_back 3, .push_back 4,
        .push_back 5, .pop_front, .pop_front, .push_front 6] = [6, 3, 4, 5] :=
  ⟨_, rfl, rfl, rfl, rfl, rfl⟩

/-- C7 fails on the code: on the deque 1, 2, 3 built by three push_back calls,
insert(begin() + 1, 9) returns normally and leaves 1, 2, 3, 9: the new element
sits at index 3, not at index 1. -/
theorem insert_misplaces_element :
    ∃ d it d1, run (Deque.fresh : Deque Int) [.push_back 1, .push_back 2, .push_back 3]
        = some d ∧
      d.insert 8 (d.begin.add 1) 9 = .ok it d1 ∧ d1.size = 4 ∧
      d1.elems = [.ok (some 1) d1, .ok (some 2) d1, .ok (some 3) d1, .ok (some 9) d1] :=
  ⟨_, _, _, rfl, rfl, rfl, rfl⟩

/-- C10 fails on the code: the source left by `push_back 1; pop_back; push_front 2`
has size 1 and holds 2, but its range begin()..end() spans two slots, the second
one vacated by pop_back; the copy constructor copies the first and then reads the
vacated slot. -/
theorem copy_reads_vacated_slot :
    ∃ d, run (Deque.fresh : Deque Int) [.push_back 1, .pop_back, .push_front 2] = some d ∧
      d.size = 1 ∧ d.elems = [.ok (some 2) d] ∧
      d.collect 3 d.begin d.end_ = some [some 2, none] ∧
      d.copy some 3 = .undefined :=
  ⟨_, rfl, rfl, rfl, rfl, rfl⟩


/-! ## Repeated push_back and table growth -/

namespace Deque

theorem getSlot_grown_new {d : Deque T} (hs : Shaped d.body_ d.capacity_of_arr_) {b o : Nat}
    (h1 : d.capacity_of_arr_ ≤ b) (h2 : b < d.capacity_of_arr_ * 3) (h3 : o < kArraySize) :
    getSlot d.grown.body_ b o = some none := by
  have hl : (List.take d.capacity_of_arr_ d.body_).length = d.capacity_of_arr_ := by
    simp [hs.1]
  have hb : (List.take d.capacity_of_arr_ d.body_ ++
      List.replicate (d.capacity_of_arr_ * 3 - d.capacity_of_arr_) (freshBlock : Block T))[b]?
      = some freshBlock := by
    rw [List.getElem?_append_right (by omega), hl, List.getElem?_replicate]
    rw [if_pos (by omega)]
  simp only [getSlot, grown, hb]
  simp only [freshBlock, List.getElem?_replicate]
  rw [if_pos h3]

end Deque

theorem run_singleton_ok (op : Op T) (d : Deque T) {d1 : Deque T}
    (h : op.apply d = .ok () d1) : run d [op] = some d1 := by
  simp only [run, h, Outcome.state?]

/-- State after `n` push_back calls on a default-constructed deque, `1 ≤ n ≤ 16127`:
the table still has its 64 initial blocks, the front cursor is at (32, 256) and the
back cursor `n - 1` slots above it. -/
theorem run_push_backs (vs : List T) :
    vs ≠ [] → vs.length ≤ 16127 →
    ∃ d, run Deque.fresh (vs.map Op.push_back) = some d ∧ d.Valid ∧
      d.capacity_of_arr_ = 64 ∧ d.first_array_index_ = 32 ∧ d.first_in_array_index_ = 256 ∧
      d.lastPos + 1 = 16640 + vs.length ∧ d.size_ = vs.length := by
  induction vs using List.reverseRecOn with
  | nil => intro h; exact absurd rfl h
  | append_singleton vs v ih =>
    intro _ hlen
    simp only [List.length_append, List.length_singleton] at hlen
    simp only [List.map_append, List.map_cons, List.map_nil, run_append]
    by_cases hvs : vs = []
    · subst hvs
      obtain ⟨d1, h1, h2, h3, h4, h5, h6, h7, h8, -⟩ := Deque.emplace_back_fresh v
      refine ⟨d1, ?_, h2, h4, h5, h6, ?_, by simpa using h3⟩
      · have := run_singleton_ok (Op.push_back v) Deque.fresh h1
        simp only [List.map_nil, run, Option.bind_some (α := Deque T)] at this ⊢
        exact this
      · simp only [Deque.lastPos, h7, h8, kArraySize]; rfl
    · obtain ⟨d, h1, hv, h3, h4, h5, h6, h7⟩ := ih hvs (by omega)
      obtain ⟨d1, e1, hv1, e3, e4, hcases⟩ := Deque.push_back_spec v hv
      have hng : ¬ d.backGrows := by
        intro hg
        have a1 := hg.1
        have a2 := hg.2
        simp only [Deque.lastPos, kArraySize] at h6
        omega
      rcases hcases with ⟨-, c1, c2, c3, -⟩ | ⟨hg, -⟩
      · refine ⟨d1, ?_, hv1, by omega, by omega, by omega, ?_, ?_⟩
        · rw [h1]
          exact run_singleton_ok (Op.push_back v) d e1
        · simp only [List.length_append, List.length_singleton]; omega
        · simp only [List.length_append, List.length_singleton]; omega
      · exact absurd hg hng

/-- C3 fails on the code: after 16128 push_back calls (values 0, 1, ..., 16127) the
table has been enlarged to 192 blocks, size() is 16128, and the slot that begin()
and at(0) designate is a vacant slot of a newly allocated block, not the element 0. -/
theorem growth_loses_elements :
    ∃ d, run (Deque.fresh : Deque Int)
        ((List.range 16128).map fun i => Op.push_back (Int.ofNat i)) = some d ∧
      d.size = 16128 ∧ d.capacity = 192 ∧ d.at_ 0 = .ok none d ∧
      d.deref d.begin = some none := by
  have hr : List.range 16128 = List.range 16127 ++ [16127] := List.range_succ 16127
  have hm : ((List.range 16128).map fun i => Op.push_back (Int.ofNat i)) =
      ((List.range 16127).map Int.ofNat).map Op.push_back ++
        [Op.push_back (Int.ofNat 16127)] := by
    rw [hr, List.map_append, List.map_map]; rfl
  have hlen : ((List.range 16127).map Int.ofNat).length = 16127 := by
    rw [List.length_map, List.length_range]
  obtain ⟨d, h1, hv, h3, h4, h5, h6, h7⟩ :=
    run_push_backs ((List.range 16127).map Int.ofNat)
      (by intro h; rw [h] at hlen; cases hlen) (by rw [hlen])
  rw [hlen] at h6 h7
  simp only [Deque.lastPos, kArraySize] at h6
  have hl := hv.lin_lt
  have hla := hv.larr_lt
  simp only [kArraySize] at hl
  have hg : d.backGrows := ⟨by omega, by omega⟩
  obtain ⟨d1, e1, hv1, e3, e4, hcases⟩ := Deque.push_back_spec (Int.ofNat 16127) hv
  rcases hcases with ⟨hng, -⟩ | ⟨-, c1, c2, c3, c4⟩
  · exact absurd hg hng
  · have hl1 := hv1.lin_lt
    simp only [Deque.lastPos, kArraySize] at c3 hl1
    have hslot : getSlot d1.body_ 96 256 = some none := by
      rw [c4]
      rw [if_neg (by omega)]
      exact Deque.getSlot_grown_new hv.shaped (by omega) (by omega) (by norm_num)
    have hsz : d1.size_ = 16128 := by omega
    have hfp : d1.firstPos = 96 * 512 + 256 := by
      simp only [Deque.firstPos, kArraySize]; omega
    have hsl : slotAt d1.body_ (d1.firstPos + 0) = some none := by
      rw [hfp]; exact hslot
    refine ⟨d1, ?_, hsz, by simp only [Deque.capacity]; omega, ?_, ?_⟩
    · rw [hm, run_append, h1]
      exact run_singleton_ok (Op.push_back (Int.ofNat 16127)) d e1
    · rw [Deque.at_of_lt (by omega), Deque.subscript_eq, hsl]
    · rw [Deque.begin_eq_ofPos hv1 (by omega), Deque.deref_ofPos]
      exact hsl


/-! ## Contents of a deque built by pushes -/

theorem slotAt_setSlot {body : List (Block T)} {n p : Nat} (s : Option T)
    (hs : Shaped body n) (hp : p < n * kArraySize) :
    ∃ body1, setSlot body (p / kArraySize) (p % kArraySize) s = some body1 ∧ Shaped body1 n ∧
      ∀ r, slotAt body1 r = if r = p then some s else slotAt body r := by
  simp only [kArraySize] at hp
  obtain ⟨body1, h1, h2, h3⟩ := setSlot_shaped s hs (b := p / kArraySize) (o := p % kArraySize)
    (by simp only [kArraySize]; omega) (by simp only [kArraySize]; omega)
  refine ⟨body1, h1, h2, fun r => ?_⟩
  rw [slotAt, h3]
  by_cases hr : r = p
  · subst hr; simp
  · have : ¬ (r / kArraySize = p / kArraySize ∧ r % kArraySize = p % kArraySize) := by
      simp only [kArraySize]; omega
    rw [if_neg this, if_neg hr]
    rfl

/-- A statement about the slot `(b, o)` with `o < kArraySize`, read as a statement
about its absolute number. -/
theorem getSlot_eq_slotAt (body : List (Block T)) {b o : Nat} (ho : o < kArraySize) :
    getSlot body b o = slotAt body (b * kArraySize + o) := by
  simp only [kArraySize] at ho
  have h1 : (b * kArraySize + o) / kArraySize = b := by simp only [kArraySize]; omega
  have h2 : (b * kArraySize + o) % kArraySize = o := by simp only [kArraySize]; omega
  rw [slotAt, h1, h2]

namespace Deque

theorem slotAt_of_getSlot_update {body body1 : List (Block T)} {b o : Nat} {s : Option T}
    (ho : o < kArraySize)
    (h : ∀ b1 o1, getSlot body1 b1 o1 = if b1 = b ∧ o1 = o then some s else getSlot body b1 o1)
    (r : Nat) :
    slotAt body1 r = if r = b * kArraySize + o then some s else slotAt body r := by
  simp only [kArraySize] at ho
  rw [slotAt, h]
  by_cases hr : r = b * kArraySize + o
  · have : r / kArraySize = b ∧ r % kArraySize = o := by
      simp only [kArraySize] at hr ⊢; omega
    rw [if_pos this, if_pos hr]
  · have : ¬ (r / kArraySize = b ∧ r % kArraySize = o) := by
      simp only [kArraySize] at hr ⊢; omega
    rw [if_neg this, if_neg hr]
    rfl

theorem holds_nonempty {d : Deque T} {l : List T} (h : d.Holds l) : 0 < l.length := by
  have h1 := h.valid.ordered
  have h2 := h.span
  omega

theorem holds_emplace_back_fresh (v : T) :
    ∃ d1 : Deque T, fresh.emplace_back (some v) = .ok () d1 ∧ d1.Holds [v] ∧
      d1.capacity_of_arr_ = kStartCapacityOfArr := by
  obtain ⟨d1, h1, h2, h3, h4, h5, h6, h7, h8, h9⟩ := emplace_back_fresh v
  refine ⟨d1, h1, ⟨h2, h3, ?_, ?_⟩, h4⟩
  · simp only [firstPos, lastPos, h5, h6, h7, h8, List.length_singleton]
  · intro i hi
    have hi0 : i = 0 := by simpa using hi
    subst hi0
    simp only [slotAt, firstPos, h5, h6, kArraySize, h9]
    simp

theorem holds_push_back {d : Deque T} {l : List T} (v : T) (h : d.Holds l)
    (hng : ¬ d.backGrows) :
    ∃ d1, d.push_back v = .ok () d1 ∧ d1.Holds (l ++ [v]) ∧
      d1.capacity_of_arr_ = d.capacity_of_arr_ := by
  obtain ⟨d1, e1, hv1, e3, e4, hcases⟩ := push_back_spec v h.valid
  rcases hcases with ⟨-, c1, c2, c3, c4⟩ | ⟨hg, -⟩
  · have hsl := slotAt_of_getSlot_update hv1.lin_lt c4
    have hfp : d1.firstPos = d.firstPos := by simp only [firstPos, c2, e4]
    have hlp : d1.last_array_index_ * kArraySize + d1.last_in_array_index_ = d.lastPos + 1 := c3
    have hspan := h.span
    refine ⟨d1, e1, ⟨hv1, by simp [e3, h.size_eq], ?_, ?_⟩, c1⟩
    · simp only [List.length_append, List.length_singleton, hfp]; omega
    · intro i hi
      simp only [List.length_append, List.length_singleton] at hi
      rw [hfp, hsl, hlp]
      by_cases hil : i < l.length
      · rw [if_neg (by omega), h.slots i hil, List.getElem_append_left hil]
      · have hie : i = l.length := by omega
        subst hie
        rw [if_pos (by omega)]
        simp
  · exact absurd hg hng

theorem holds_push_front {d : Deque T} {l : List T} (v : T) (h : d.Holds l)
    (hng : ¬ d.frontGrows) :
    ∃ d1, d.push_front v = .ok () d1 ∧ d1.Holds (v :: l) ∧
      d1.capacity_of_arr_ = d.capacity_of_arr_ := by
  obtain ⟨d1, e1, hv1, e3, e4, hcases⟩ := push_front_spec v h.valid
  rcases hcases with ⟨-, c1, c2, c3, c4⟩ | ⟨hg, -⟩
  · have hsl := slotAt_of_getSlot_update hv1.fin_lt c4
    have hfp : d1.first_array_index_ * kArraySize + d1.first_in_array_index_ = d1.firstPos :=
      rfl
    have hlp : d1.lastPos = d.lastPos := by simp only [lastPos, c2, e4]
    have hspan := h.span
    refine ⟨d1, e1, ⟨hv1, by simp [e3, h.size_eq], ?_, ?_⟩, c1⟩
    · simp only [List.length_cons, hlp]; omega
    · intro i hi
      simp only [List.length_cons] at hi
      rw [hsl, hfp]
      cases i with
      | zero => simp
      | succ j =>
        rw [if_neg (by omega)]
        have : d1.firstPos + (j + 1) = d.firstPos + j := by omega
        rw [this, h.slots j (by omega)]
        simp
  · exact absurd hg hng

end Deque

theorem runRef_append (ops1 ops2 : List (Op T)) : ∀ l : List T,
    runRef l (ops1 ++ ops2) = runRef (runRef l ops1) ops2 := by
  induction ops1 with
  | nil => intro l; rfl
  | cons op ops ih => intro l; simp only [List.cons_append, runRef]; exact ih _

theorem run_singleton (op : Op T) (d1 : Deque T) : run d1 [op] = (op.apply d1).state? := by
  simp only [run]
  cases (op.apply d1).state? <;> rfl

theorem run_snoc {ops : List (Op T)} {op : Op T} {d0 d : Deque T}
    (h : run d0 (ops ++ [op]) = some d) :
    ∃ d1, run d0 ops = some d1 ∧ (op.apply d1).state? = some d := by
  rw [run_append] at h
  cases h1 : run d0 ops with
  | none => rw [h1] at h; cases h
  | some d1 =>
    rw [h1] at h
    simp only [Option.some_bind, run_singleton] at h
    exact ⟨d1, rfl, h⟩

/-- A deque built from a default-constructed one by pushes only is well formed,
and while the table has not been enlarged it holds the contents of the reference
queue. -/
theorem holds_of_pushes (ops : List (Op T)) :
    (∀ op ∈ ops, op.isPush = true) → ∀ d, run Deque.fresh ops = some d →
      (ops = [] ∧ d = Deque.fresh) ∨
      (d.Valid ∧ (d.capacity_of_arr_ = kStartCapacityOfArr → d.Holds (runRef [] ops))) := by
  induction ops using List.reverseRecOn with
  | nil =>
    intro _ d h
    simp only [run, Option.some.injEq] at h
    exact Or.inl ⟨rfl, h.symm⟩
  | append_singleton ops op ih =>
    intro hall d h
    obtain ⟨d0, h0, h1⟩ := run_snoc h
    have hpush : op.isPush = true := hall op (by simp)
    have hall0 : ∀ o ∈ ops, o.isPush = true := fun o ho => hall o (by simp [ho])
    rw [runRef_append]
    right
    rcases ih hall0 d0 h0 with ⟨rfl, rfl⟩ | ⟨hv0, hh0⟩
    · cases op with
      | push_back v =>
        obtain ⟨d1, e1, e2, e3⟩ := Deque.holds_emplace_back_fresh v
        simp only [Op.apply, Deque.push_back, e1, Outcome.state?, Option.some.injEq] at h1
        subst h1
        exact ⟨e2.valid, fun _ => e2⟩
      | push_front v =>
        obtain ⟨d1, e1, e2, e3⟩ := Deque.holds_emplace_back_fresh v
        simp only [Op.apply, Deque.push_front, Deque.emplace_front_fresh, e1, Outcome.state?,
          Option.some.injEq] at h1
        subst h1
        exact ⟨e2.valid, fun _ => e2⟩
      | pop_back => simp [Op.isPush] at hpush
      | pop_front => simp [Op.isPush] at hpush
    · have hc0 := hv0.cap_ge
      simp only [kStartCapacityOfArr] at hc0 ⊢
      cases op with
      | push_back v =>
        obtain ⟨d1, e1, hv1, e3, e4, hcases⟩ := Deque.push_back_spec v hv0
        simp only [Op.apply, e1, Outcome.state?, Option.some.injEq] at h1
        subst h1
        refine ⟨hv1, fun hc => ?_⟩
        rcases hcases with ⟨hng, c1, -⟩ | ⟨-, c1, -⟩
        · obtain ⟨d2, f1, f2, -⟩ := Deque.holds_push_back v
            (hh0 (by simp only [kStartCapacityOfArr]; omega)) hng
          rw [e1] at f1
          cases f1
          exact f2
        · omega
      | push_front v =>
        obtain ⟨d1, e1, hv1, e3, e4, hcases⟩ := Deque.push_front_spec v hv0
        simp only [Op.apply, e1, Outcome.state?, Option.some.injEq] at h1
        subst h1
        refine ⟨hv1, fun hc => ?_⟩
        rcases hcases with ⟨hng, c1, -⟩ | ⟨-, c1, -⟩
        · obtain ⟨d2, f1, f2, -⟩ := Deque.holds_push_front v
            (hh0 (by simp only [kStartCapacityOfArr]; omega)) hng
          rw [e1] at f1
          cases f1
          exact f2
        · omega
      | pop_back => simp [Op.isPush] at hpush
      | pop_front => simp [Op.isPush] at hpush

namespace Deque

/-- The sequence at(0), ..., at(size() - 1) of a deque whose slots from the front
cursor on hold the elements of `l`. -/
theorem elems_eq_of_slots {d : Deque T} {l : List T} (hsize : d.size_ = l.length)
    (hslots : ∀ (i : Nat) (h : i < l.length),
      slotAt d.body_ (d.firstPos + i) = some (some l[i])) :
    d.elems = l.map fun v => .ok (some v) d := by
  apply List.ext_getElem
  · simp [elems, size, hsize]
  · intro i h1 h2
    have hi : i < l.length := by simpa using h2
    simp only [elems, List.getElem_map, List.getElem_range]
    rw [at_of_lt (by omega), subscript_eq, hslots i hi]

theorem holds_elems {d : Deque T} {l : List T} (h : d.Holds l) :
    d.elems = l.map fun v => .ok (some v) d :=
  elems_eq_of_slots h.size_eq h.slots

end Deque

/-! ## Erasure -/

namespace Deque

theorem assignSlot_ofPos {d : Deque T} {n q q1 : Nat} {x y : T}
    (hs : Shaped d.body_ n) (hq : q < n * kArraySize)
    (h1 : slotAt d.body_ q = some (some x)) (h2 : slotAt d.body_ q1 = some (some y)) :
    ∃ body1, d.assignSlot (Iterator.ofPos q) (Iterator.ofPos q1) =
        .ok () { d with body_ := body1 } ∧ Shaped body1 n ∧
      ∀ r, slotAt body1 r = if r = q then some (some y) else slotAt d.body_ r := by
  obtain ⟨body1, e1, e2, e3⟩ := slotAt_setSlot (some y) hs hq
  refine ⟨body1, ?_, e2, e3⟩
  have d1 : d.deref (Iterator.ofPos q) = some (some x) := h1
  have d2 : d.deref (Iterator.ofPos q1) = some (some y) := h2
  have e1' : setSlot d.body_ (Iterator.ofPos q).index_of_array_
      (Iterator.ofPos q).index_in_array_ (some y) = some body1 := e1
  simp only [assignSlot, d1, d2, store, e1']

theorem valid_with_body {d : Deque T} (hv : d.Valid) {body1 : List (Block T)}
    (hs : Shaped body1 d.capacity_of_arr_) : ({ d with body_ := body1 } : Deque T).Valid :=
  ⟨hv.cap_ge, hs, hv.fin_lt, hv.lin_lt, hv.larr_lt, hv.ordered, hv.size_le⟩

/-- The shifting loop of `erase`, entered `k` slots above the front cursor: it
returns after `k` steps, and every slot from the one above the front cursor up to
the entry slot has received the element of the slot below it. -/
theorem eraseLoop_spec (k : Nat) : ∀ (fuel : Nat) (d : Deque T), d.Valid → d.size_ ≠ 0 →
    d.capacity_of_arr_ * kArraySize < 2 ^ 62 → d.firstPos + k ≤ d.lastPos →
    (∀ j, j ≤ k → ∃ x, slotAt d.body_ (d.firstPos + j) = some (some x)) → k < fuel →
    ∃ body1, d.eraseLoop fuel (Iterator.ofPos (d.firstPos + k)) =
        .ok () { d with body_ := body1 } ∧ Shaped body1 d.capacity_of_arr_ ∧
      ∀ r, slotAt body1 r =
        if d.firstPos < r ∧ r ≤ d.firstPos + k then slotAt d.body_ (r - 1)
        else slotAt d.body_ r := by
  induction k with
  | zero =>
    intro fuel d hv hne hcap hle hsl hf
    obtain ⟨f, rfl⟩ : ∃ f, fuel = f + 1 := ⟨fuel - 1, by omega⟩
    have hlt := hv.larr_lt
    have hli := hv.lin_lt
    simp only [lastPos, kArraySize] at hle hcap hli
    refine ⟨d.body_, ?_, hv.shaped, fun r => by rw [if_neg (by omega)]⟩
    simp only [eraseLoop, begin_eq_ofPos hv hne, Nat.add_zero]
    rw [Iterator.gt_ofPos (by simp only [firstPos, kArraySize] at *; omega)
      (by simp only [firstPos, kArraySize] at *; omega)]
    simp
  | succ k ih =>
    intro fuel d hv hne hcap hle hsl hf
    obtain ⟨f, rfl⟩ : ∃ f, fuel = f + 1 := ⟨fuel - 1, by omega⟩
    have hlt := hv.larr_lt
    have hli := hv.lin_lt
    simp only [lastPos, kArraySize] at hle hcap hli
    obtain ⟨x, hx⟩ := hsl (k + 1) (le_refl _)
    obtain ⟨y, hy⟩ := hsl k (by omega)
    have hq : d.firstPos + (k + 1) < d.capacity_of_arr_ * kArraySize := by
      simp only [kArraySize]; omega
    obtain ⟨body1, e1, e2, e3⟩ := assignSlot_ofPos hv.shaped hq hx hy
    have hv1 := valid_with_body hv e2
    have hfp : ({ d with body_ := body1 } : Deque T).firstPos = d.firstPos := rfl
    obtain ⟨body2, g1, g2, g3⟩ := ih f { d with body_ := body1 } hv1 hne hcap
      (by simp only [hfp, lastPos, kArraySize]; omega)
      (by
        intro j hj
        obtain ⟨z, hz⟩ := hsl j (by omega)
        refine ⟨z, ?_⟩
        rw [hfp]
        show slotAt body1 (d.firstPos + j) = _
        rw [e3, if_neg (by omega), hz])
      (by omega)
    refine ⟨body2, ?_, g2, fun r => ?_⟩
    · have hgt : (Iterator.ofPos (d.firstPos + (k + 1))).gt d.begin = true := by
        rw [begin_eq_ofPos hv hne, Iterator.gt_ofPos (by simp only [kArraySize] at hq; omega)
          (by simp only [kArraySize] at hq; omega)]
        simp
      have hsub : (Iterator.ofPos (d.firstPos + (k + 1))).sub 1 =
          Iterator.ofPos (d.firstPos + k) := by
        rw [Iterator.sub_one_ofPos (by omega)]; rfl
      have hdec : (Iterator.ofPos (d.firstPos + (k + 1))).dec =
          Iterator.ofPos (d.firstPos + k) := by
        rw [Iterator.dec_ofPos (by omega)]; rfl
      simp only [eraseLoop, hgt, if_true, hsub, e1, Outcome.andThen_ok, hdec]
      exact g1
    · rw [g3]
      show (if d.firstPos < r ∧ r ≤ d.firstPos + k then slotAt body1 (r - 1)
        else slotAt body1 r) = _
      by_cases h1 : d.firstPos < r ∧ r ≤ d.firstPos + k
      · rw [if_pos h1, if_pos (by omega), e3, if_neg (by omega)]
      · rw [if_neg h1, e3]
        by_cases h2 : r = d.firstPos + (k + 1)
        · rw [if_pos h2, if_pos (by omega), h2]
          exact hy.symm
        · rw [if_neg h2, if_neg (by omega)]

end Deque

namespace Deque

theorem erase_begin (fuel : Nat) (d : Deque T) :
    d.erase fuel d.begin = d.pop_front.andThen fun _ d1 => .ok d1.begin d1 := by
  simp only [erase, eq_self, if_true]

/-- The call `erase` at index `p` of a deque that holds `l`: it returns, and the deque then
reads as `l` without its element of index `p`. -/
theorem erase_holds (fuel : Nat) {d : Deque T} {l : List T} (h : d.Holds l)
    (hcap : d.capacity_of_arr_ * kArraySize < 2 ^ 62) {p : Nat} (hp : p < l.length)
    (hfuel : p < fuel) :
    ∃ it d1, d.erase fuel (d.begin.add p) = .ok it d1 ∧ d1.size_ = l.length - 1 ∧
      d1.elems = (l.eraseIdx p).map fun v => .ok (some v) d1 := by
  have hv := h.valid
  have hne : d.size_ ≠ 0 := by rw [h.size_eq]; omega
  have hspan := h.span
  have hlt := hv.larr_lt
  have hli := hv.lin_lt
  have hfi := hv.fin_lt
  have hlen : (l.eraseIdx p).length = l.length - 1 := List.length_eraseIdx_of_lt hp
  have hiter : d.begin.add p = Iterator.ofPos (d.firstPos + p) := by
    rw [begin_eq_ofPos hv hne, Iterator.add_ofPos_nat]
  have hend : d.end_.sub 1 = Iterator.ofPos d.lastPos := by
    rw [end_eq_ofPos hv, Iterator.sub_one_ofPos (by omega)]; rfl
  by_cases hp0 : p = 0
  · subst hp0
    obtain ⟨d1, e1, hv1, e3, -, -, -, e7, -, e9⟩ := pop_front_spec hv hne
    have hsl := slotAt_of_getSlot_update hfi e9
    refine ⟨d1.begin, d1, ?_, by rw [e3, h.size_eq], ?_⟩
    · rw [hiter, Nat.add_zero, ← begin_eq_ofPos hv hne, erase_begin, e1]; rfl
    · apply elems_eq_of_slots (by rw [e3, h.size_eq, hlen])
      intro i hi
      rw [hlen] at hi
      have hfp : d1.firstPos = d.firstPos + 1 := e7 (by omega)
      rw [hfp, hsl, if_neg (by simp only [firstPos]; omega)]
      have : d.firstPos + 1 + i = d.firstPos + (i + 1) := by omega
      rw [this, h.slots (i + 1) (by omega), List.getElem_eraseIdx_of_ge _ _ _ _ (by omega)]
  · by_cases hpl : p + 1 = l.length
    · obtain ⟨d1, e1, hv1, e3, -, e5, e6, -, -, e9⟩ := pop_back_spec hv hne
      have hsl := slotAt_of_getSlot_update hli e9
      have hne1 : (Iterator.ofPos (d.firstPos + p)).eq d.begin = false := by
        rw [begin_eq_ofPos hv hne, Iterator.eq_ofPos]
        simp only [decide_eq_false_iff_not]; omega
      have heq2 : (Iterator.ofPos (d.firstPos + p)).eq (d.end_.sub 1) = true := by
        rw [hend, Iterator.eq_ofPos]
        simp only [decide_eq_true_eq]; omega
      refine ⟨d1.end_, d1, ?_, by rw [e3, h.size_eq], ?_⟩
      · rw [hiter]
        simp only [erase, hne1, heq2, Bool.false_eq_true, if_false, if_true, e1,
          Outcome.andThen_ok]
      · apply elems_eq_of_slots (by rw [e3, h.size_eq, hlen])
        intro i hi
        rw [hlen] at hi
        have hfp : d1.firstPos = d.firstPos := by simp only [firstPos, e5, e6]
        rw [hfp, hsl, if_neg (by simp only [lastPos] at hspan; omega),
          h.slots i (by omega), List.getElem_eraseIdx_of_lt _ _ _ _ (by omega)]
    · have hle : d.firstPos + p ≤ d.lastPos := by omega
      obtain ⟨body1, g1, g2, g3⟩ := eraseLoop_spec p fuel d hv hne hcap hle
        (fun j hj => have hjl : j < l.length := by omega
          ⟨l[j], h.slots j hjl⟩) hfuel
      have hv1 := valid_with_body hv g2
      obtain ⟨d2, e1, hv2, e3, -, -, -, e7, -, e9⟩ :=
        pop_front_spec (d := { d with body_ := body1 }) hv1 hne
      have hsl := slotAt_of_getSlot_update hfi e9
      have hne1 : (Iterator.ofPos (d.firstPos + p)).eq d.begin = false := by
        rw [begin_eq_ofPos hv hne, Iterator.eq_ofPos]
        simp only [decide_eq_false_iff_not]; omega
      have hne2 : (Iterator.ofPos (d.firstPos + p)).eq (d.end_.sub 1) = false := by
        rw [hend, Iterator.eq_ofPos]
        simp only [decide_eq_false_iff_not]; omega
      refine ⟨Iterator.ofPos (d.firstPos + p), d2, ?_, ?_, ?_⟩
      · rw [hiter]
        simp only [erase, hne1, hne2, Bool.false_eq_true, if_false, g1, Outcome.andThen_ok, e1]
      · rw [e3]; show d.size_ - 1 = _; rw [h.size_eq]
      · apply elems_eq_of_slots (by rw [e3]; show d.size_ - 1 = _; rw [h.size_eq, hlen])
        intro i hi
        rw [hlen] at hi
        have hfp : d2.firstPos = d.firstPos + 1 :=
          e7 (by show d.firstPos < d.lastPos; omega)
        rw [hfp, hsl, if_neg (by simp only [firstPos]; omega), g3]
        by_cases hip : i < p
        · rw [if_pos (by omega)]
          have : d.firstPos + 1 + i - 1 = d.firstPos + i := by omega
          rw [this, h.slots i (by omega), List.getElem_eraseIdx_of_lt _ _ _ _ hip]
        · rw [if_neg (by omega)]
          have : d.firstPos + 1 + i = d.firstPos + (i + 1) := by omega
          rw [this, h.slots (i + 1) (by omega),
            List.getElem_eraseIdx_of_ge _ _ _ _ (by omega)]

end Deque

/-- C8: on a deque built from a default-constructed one by push_back / push_front
calls only, its table not enlarged, with contents `runRef [] ops` of length n >= 1,
erase(begin() + p) with p < n returns, leaves size() == n - 1 and the contents
without the element of index p, in the same order; and erase(begin()) leaves the
state that pop_front() leaves. -/
theorem erase_removes_element (fuel : Nat) (ops : List (Op T)) (d : Deque T) (p : Nat)
    (hpush : ∀ op ∈ ops, op.isPush = true) (hrun : run Deque.fresh ops = some d)
    (hcap : d.capacity_of_arr_ = kStartCapacityOfArr) (hp : p < d.size) (hfuel : p < fuel) :
    d.elems = (runRef [] ops).map (fun v => .ok (some v) d) ∧
    (∃ it d1, d.erase fuel (d.begin.add p) = .ok it d1 ∧ d1.size = d.size - 1 ∧
      d1.elems = ((runRef [] ops).eraseIdx p).map fun v => .ok (some v) d1) ∧
    (d.erase fuel d.begin).state? = d.pop_front.state? := by
  have hholds : d.Holds (runRef [] ops) := by
    rcases holds_of_pushes ops hpush d hrun with ⟨-, rfl⟩ | ⟨-, h⟩
    · exact absurd hp (by simp [Deque.size, Deque.fresh])
    · exact h hcap
  have hsz : d.size = (runRef [] ops).length := hholds.size_eq
  refine ⟨Deque.holds_elems hholds, ?_, ?_⟩
  · obtain ⟨it, d1, e1, e2, e3⟩ := Deque.erase_holds fuel hholds
      (by rw [hcap]; norm_num) (by omega) hfuel
    exact ⟨it, d1, e1, by simp only [Deque.size] at hsz ⊢; omega, e3⟩
  · rw [Deque.erase_begin, Outcome.state?_andThen_ok]

theorem sampleFour_run : run (Deque.fresh : Deque Int)
    [.push_back 1, .push_back 2, .push_back 3, .push_back 4] = some sampleFour := rfl

/-- Instance of C8: erase(begin() + 2) on the deque 1, 2, 3, 4 leaves 1, 2, 4. -/
theorem erase_removes_element_witness :
    (∀ op ∈ [Op.push_back (1 : Int), .push_back 2, .push_back 3, .push_back 4],
      op.isPush = true) ∧
    run (Deque.fresh : Deque Int) [.push_back 1, .push_back 2, .push_back 3, .push_back 4]
      = some sampleFour ∧
    sampleFour.capacity_of_arr_ = kStartCapacityOfArr ∧ 2 < sampleFour.size ∧
    (∃ it d1, sampleFour.erase 3 (sampleFour.begin.add 2) = .ok it d1 ∧
      d1.size = sampleFour.size - 1 ∧
      d1.elems = ((runRef [] [Op.push_back (1 : Int), .push_back 2, .push_back 3,
        .push_back 4]).eraseIdx 2).map fun v => .ok (some v) d1) :=
  ⟨by decide, sampleFour_run, rfl, by decide,
    (erase_removes_element 3 [.push_back 1, .push_back 2, .push_back 3, .push_back 4]
      sampleFour 2 (by decide) sampleFour_run rfl (by decide) (by decide)).2.1⟩


/-! ## Iterator arithmetic and ordering -/

namespace Iterator

theorem offset_ofPos_lt (p : Nat) : (ofPos p).index_in_array_ < kArraySize := by
  simp only [ofPos, kArraySize]; omega

theorem add_ofPos (p : Nat) (n : Int) (h : 0 ≤ (p : Int) + n) :
    (ofPos p).add n = ofPos ((p : Int) + n).toNat := by
  by_cases hn : n ≥ 0
  · obtain ⟨m, rfl⟩ := Int.eq_ofNat_of_zero_le hn
    rw [add_ofPos_nat]
    congr 1
  · have hm : ∃ m : Nat, n = -(m : Int) := ⟨(-n).toNat, by omega⟩
    obtain ⟨m, rfl⟩ := hm
    have hmp : m ≤ p := by omega
    have h1 : (-(-(m : Int))).toNat = m := by omega
    have h2 : ((p : Int) + -(m : Int)).toNat = p - m := by omega
    simp only [add, add_assign, if_neg hn, h1, h2, ofPos, kArraySize]
    split
    · rename_i hc
      simp only [Iterator.mk.injEq]
      constructor <;> omega
    · rename_i hc
      have hw : wsub (p / 512) ((m - p % 512 - 1) / 512 + 1) =
          p / 512 - ((m - p % 512 - 1) / 512 + 1) := by
        simp only [wsub]; rw [if_pos (by omega)]
      simp only [Iterator.mk.injEq, hw]
      constructor <;> omega

theorem distance_ofPos_wrap (p q : Nat) :
    (ofPos p).distance (ofPos q) = wrapDiff ((p : Int) - q) := by
  simp only [distance, ofPos, kArraySize]
  have : ((p / 512 : Nat) : Int) * (512 : Nat) + ((p % 512 : Nat) : Int)
      - ((q / 512 : Nat) : Int) * (512 : Nat) - ((q % 512 : Nat) : Int) = (p : Int) - q := by
    omega
  rw [this]

theorem distance_ofPos_small {p q : Nat} (hp : p < 2 ^ 63) (hq : q < 2 ^ 63) :
    (ofPos p).distance (ofPos q) = (p : Int) - q := by
  rw [distance_ofPos_wrap]
  exact wrapDiff_of_small (by omega) (by omega)

theorem gt_iff_pos {a b : Iterator} (ha : a.index_in_array_ < kArraySize)
    (hb : b.index_in_array_ < kArraySize) (hpa : a.pos < 2 ^ 63) (hpb : b.pos < 2 ^ 63) :
    a.gt b = true ↔ b.pos < a.pos := by
  rw [← ofPos_pos ha, ← ofPos_pos hb, pos_ofPos, pos_ofPos]
  simp only [gt, distance_ofPos_small hpa hpb, decide_eq_true_eq]
  omega

theorem eq_iff_pos {a b : Iterator} (ha : a.index_in_array_ < kArraySize)
    (hb : b.index_in_array_ < kArraySize) : a.eq b = true ↔ a.pos = b.pos := by
  rw [← ofPos_pos ha, ← ofPos_pos hb, pos_ofPos, pos_ofPos, eq_ofPos]
  simp

end Iterator

/-- C15: for an iterator at block b, offset o < 512, and an integer n with
512*b + o + n >= 0, the iterator it + n has in-block offset < 512 and absolute
position 512*b + o + n; for n in the range of `std::ptrdiff_t`, (it + n) - it == n. -/
theorem add_reaches_position (b o : Nat) (n : Int) (ho : o < kArraySize)
    (hn : 0 ≤ (512 : Int) * b + o + n) :
    ((Iterator.mk b o).add n).index_in_array_ < kArraySize ∧
    (((Iterator.mk b o).add n).pos : Int) = 512 * b + o + n ∧
    (-(2 ^ 63) ≤ n → n < 2 ^ 63 → ((Iterator.mk b o).add n).distance (Iterator.mk b o) = n) := by
  have hit : Iterator.mk b o = Iterator.ofPos (b * 512 + o) := by
    have := @Iterator.ofPos_pos (Iterator.mk b o) ho
    simp only [Iterator.pos, kArraySize] at this
    exact this.symm
  have h0 : 0 ≤ ((b * 512 + o : Nat) : Int) + n := by push_cast; omega
  rw [hit, Iterator.add_ofPos _ _ h0]
  refine ⟨Iterator.offset_ofPos_lt _, ?_, ?_⟩
  · rw [Iterator.pos_ofPos]; push_cast at h0 ⊢; omega
  · intro h1 h2
    rw [Iterator.distance_ofPos_wrap]
    have : ((((b * 512 + o : Nat) : Int) + n).toNat : Int) - ((b * 512 + o : Nat) : Int) = n := by
      omega
    rw [this]
    exact Iterator.wrapDiff_of_small h1 h2

/-- Instance of C15 with a negative n that crosses three block boundaries:
from (3, 5), n = -1030 leads to (0, 511). -/
theorem add_reaches_position_witness :
    (5 : Nat) < kArraySize ∧ (0 : Int) ≤ (512 : Int) * (3 : Nat) + (5 : Nat) + (-1030) ∧
    ((Iterator.mk 3 5).add (-1030)).index_in_array_ < kArraySize ∧
    (((Iterator.mk 3 5).add (-1030)).pos : Int) = 512 * (3 : Nat) + (5 : Nat) + (-1030) ∧
    ((Iterator.mk 3 5).add (-1030)).distance (Iterator.mk 3 5) = -1030 :=
  ⟨by decide, by decide,
    (add_reaches_position 3 5 (-1030) (by decide) (by decide)).1,
    (add_reaches_position 3 5 (-1030) (by decide) (by decide)).2.1,
    (add_reaches_position 3 5 (-1030) (by decide) (by decide)).2.2 (by decide) (by decide)⟩

/-- C16: for two iterators with in-block offsets < 512 and absolute positions
representable in `std::ptrdiff_t` (as the positions of one block table are),
it1 + (it2 - it1) == it2 under `operator==`, whichever of the two comes first. -/
theorem add_distance_reaches (it1 it2 : Iterator)
    (h1 : it1.index_in_array_ < kArraySize) (h2 : it2.index_in_array_ < kArraySize)
    (hp1 : it1.pos < 2 ^ 63) (hp2 : it2.pos < 2 ^ 63) :
    (it1.add (it2.distance it1)).eq it2 = true ∧ it1.add (it2.distance it1) = it2 := by
  obtain ⟨p1, rfl⟩ : ∃ p, it1 = Iterator.ofPos p := ⟨it1.pos, (Iterator.ofPos_pos h1).symm⟩
  obtain ⟨p2, rfl⟩ : ∃ p, it2 = Iterator.ofPos p := ⟨it2.pos, (Iterator.ofPos_pos h2).symm⟩
  rw [Iterator.pos_ofPos] at hp1 hp2
  have hadd : (Iterator.ofPos p1).add ((Iterator.ofPos p2).distance (Iterator.ofPos p1)) =
      Iterator.ofPos p2 := by
    rw [Iterator.distance_ofPos_small hp2 hp1, Iterator.add_ofPos _ _ (by omega)]
    have : ((p1 : Int) + ((p2 : Int) - p1)).toNat = p2 := by omega
    rw [this]
  exact ⟨by rw [hadd]; exact Deque.eq_self _, hadd⟩

/-- Instance of C16 with it2 before it1 (negative distance across a block boundary)
and with it2 after it1. -/
theorem add_distance_reaches_witness :
    ((Iterator.mk 2 3).add ((Iterator.mk 0 500).distance (Iterator.mk 2 3))).eq
      (Iterator.mk 0 500) = true ∧
    ((Iterator.mk 0 500).add ((Iterator.mk 2 3).distance (Iterator.mk 0 500))).eq
      (Iterator.mk 2 3) = true :=
  ⟨(add_distance_reaches (Iterator.mk 2 3) (Iterator.mk 0 500) (by decide) (by decide)
      (by decide) (by decide)).1,
    (add_distance_reaches (Iterator.mk 0 500) (Iterator.mk 2 3) (by decide) (by decide)
      (by decide) (by decide)).1⟩

/-- C17: for two iterators with in-block offsets < 512 and absolute positions
representable in `std::ptrdiff_t`, each relational operator agrees with the order
of the absolute positions, and exactly one of a < b, a == b, a > b holds. -/
theorem relational_operators_agree (a b : Iterator)
    (ha : a.index_in_array_ < kArraySize) (hb : b.index_in_array_ < kArraySize)
    (hpa : a.pos < 2 ^ 63) (hpb : b.pos < 2 ^ 63) :
    (a.lt b = true ↔ a.pos < b.pos) ∧ (a.gt b = true ↔ a.pos > b.pos) ∧
    (a.le b = true ↔ a.pos ≤ b.pos) ∧ (a.ge b = true ↔ a.pos ≥ b.pos) ∧
    (a.eq b = true ↔ a.pos = b.pos) ∧
    ((a.lt b = true ∧ a.eq b = false ∧ a.gt b = false) ∨
     (a.lt b = false ∧ a.eq b = true ∧ a.gt b = false) ∨
     (a.lt b = false ∧ a.eq b = false ∧ a.gt b = true)) := by
  have hgt := Iterator.gt_iff_pos ha hb hpa hpb
  have hlt : a.lt b = true ↔ a.pos < b.pos := Iterator.gt_iff_pos hb ha hpb hpa
  have heq := Iterator.eq_iff_pos ha hb
  have hle : a.le b = true ↔ a.pos ≤ b.pos := by
    simp only [Iterator.le, Bool.not_eq_true', ← Bool.not_eq_true, hgt]; omega
  have hge : a.ge b = true ↔ a.pos ≥ b.pos := by
    simp only [Iterator.ge, Bool.not_eq_true', ← Bool.not_eq_true, hlt]; omega
  refine ⟨hlt, hgt, hle, hge, heq, ?_⟩
  have hlt' : a.lt b = false ↔ ¬ a.pos < b.pos := by rw [← hlt]; simp
  have hgt' : a.gt b = false ↔ ¬ b.pos < a.pos := by rw [← hgt]; simp
  have heq' : a.eq b = false ↔ ¬ a.pos = b.pos := by rw [← heq]; simp
  rw [hlt, hgt, heq, hlt', hgt', heq']
  omega

/-- Instance of C17 on (1, 511) and (2, 0): the first is below the second. -/
theorem relational_operators_agree_witness :
    (Iterator.mk 1 511).lt (Iterator.mk 2 0) = true ∧
    (Iterator.mk 1 511).eq (Iterator.mk 2 0) = false ∧
    (Iterator.mk 1 511).gt (Iterator.mk 2 0) = false ∧
    ((Iterator.mk 1 511).le (Iterator.mk 2 0) = true ↔
      (Iterator.mk 1 511).pos ≤ (Iterator.mk 2 0).pos) :=
  ⟨by decide, by decide, by decide,
    (relational_operators_agree (Iterator.mk 1 511) (Iterator.mk 2 0) (by decide) (by decide)
      (by decide) (by decide)).2.2.1⟩


/-! ## Constructor failure -/

namespace Deque

theorem valid_grown {d : Deque T} (hv : d.Valid) : d.grown.Valid := by
  obtain ⟨hcap, hsh, hfin, hlin, hlarr, hord, hsz⟩ := hv
  simp only [firstPos, lastPos, kArraySize, kStartCapacityOfArr] at hord hsz hcap hfin hlin
  refine ⟨?_, shaped_grow hsh, hfin, hlin, ?_, ?_, ?_⟩
  · simp only [grown, kStartCapacityOfArr]; omega
  · simp only [grown]; omega
  · simp only [grown, firstPos, lastPos, kArraySize]; omega
  · simp only [grown, firstPos, lastPos, kArraySize]; omega

/-- A constructor failure in `emplace_back` on a well-formed deque: the cursor is
moved back; an enlargement of the table made before the construction stays. -/
theorem emplace_back_none {d : Deque T} (hv : d.Valid) :
    d.emplace_back none =
      .raised .constructionFailure (if d.backGrows then d.grown else d) := by
  have hne : d.capacity_of_arr_ ≠ 0 := by
    have := hv.cap_ge; simp only [kStartCapacityOfArr] at this; omega
  rw [emplace_back_unfold d none hne hv.shaped.1 hv.lin_lt]
  obtain ⟨hsh, hb, ho, -⟩ := valid_advanceBack hv
  obtain ⟨s, hs⟩ := getSlot_eq_some_of_shaped hsh hb ho
  have hli := hv.lin_lt
  simp only [kArraySize] at hli
  simp only [constructBack, hs]
  have key : ∀ d0 : Deque T, d0.last_in_array_index_ < 512 →
      (if d0.nextBack.last_in_array_index_ = 0 then
        Outcome.raised (α := Unit) Err.constructionFailure
          { d0.nextBack with last_array_index_ := d0.nextBack.last_array_index_ - 1
                             last_in_array_index_ := kArraySize - 1 }
      else
        .raised .constructionFailure
          { d0.nextBack with
            last_in_array_index_ := d0.nextBack.last_in_array_index_ - 1 }) =
      .raised .constructionFailure d0 := by
    intro d0 h0
    by_cases h1 : d0.last_in_array_index_ + 1 = 512
    · have h2 : d0.last_in_array_index_ = 511 := by omega
      simp [nextBack, h1, h2]
      cases d0; simp_all
    · simp [nextBack, h1]
  by_cases hg : d.backGrows
  · simp only [advanceBack, if_pos hg]
    exact key d.grown hli
  · simp only [advanceBack, if_neg hg]
    exact key d hli

/-- A constructor failure in `emplace_front` on a well-formed deque. -/
theorem emplace_front_none {d : Deque T} (hv : d.Valid) :
    d.emplace_front none =
      .raised .constructionFailure (if d.frontGrows then d.grown else d) := by
  have hne : d.capacity_of_arr_ ≠ 0 := by
    have := hv.cap_ge; simp only [kStartCapacityOfArr] at this; omega
  rw [emplace_front_unfold d none hne hv.shaped.1]
  obtain ⟨hsh, hb, ho, -⟩ := valid_advanceFront hv
  obtain ⟨s, hs⟩ := getSlot_eq_some_of_shaped hsh hb ho
  have hfi := hv.fin_lt
  have hcap := hv.cap_ge
  simp only [kArraySize, kStartCapacityOfArr] at hfi hcap
  simp only [constructFront, hs]
  have key : ∀ d0 : Deque T, d0.first_in_array_index_ < 512 →
      (d0.first_in_array_index_ = 0 → 1 ≤ d0.first_array_index_) →
      (if d0.prevFront.first_in_array_index_ = kArraySize - 1 then
        Outcome.raised (α := Unit) Err.constructionFailure
          { d0.prevFront with first_array_index_ := d0.prevFront.first_array_index_ + 1
                              first_in_array_index_ := 0 }
      else
        .raised .constructionFailure
          { d0.prevFront with
            first_in_array_index_ := d0.prevFront.first_in_array_index_ + 1 }) =
      .raised .constructionFailure d0 := by
    intro d0 h0 h1
    by_cases h2 : d0.first_in_array_index_ = 0
    · have h3 := h1 h2
      have hw : wsub d0.first_array_index_ 1 = d0.first_array_index_ - 1 := by
        simp only [wsub]; rw [if_pos h3]
      simp [prevFront, h2, hw]
      cases d0; simp_all
    · have h3 : ¬ (d0.first_in_array_index_ - 1 = 511) := by omega
      simp [prevFront, h2, h3]
      cases d0; simp_all; omega
  by_cases hg : d.frontGrows
  · simp only [advanceFront, if_pos hg]
    exact key d.grown hfi (fun _ => by simp only [grown]; omega)
  · simp only [advanceFront, if_neg hg]
    exact key d hfi (fun h => by
      by_contra h1
      exact hg ⟨by omega, h⟩)

theorem emplace_back_none_fresh :
    (fresh : Deque T).emplace_back none = .raised .constructionFailure fresh := by
  simp [emplace_back, capacity, fresh, initial_allocate, set_array_indexes,
    set_indexes_in_array, dealloc]

theorem emplace_front_none_fresh :
    (fresh : Deque T).emplace_front none = .raised .constructionFailure fresh := by
  simp [emplace_front, capacity, fresh, initial_allocate, set_array_indexes,
    set_indexes_in_array, dealloc]

theorem size_grown (d : Deque T) : d.grown.size_ = d.size_ := rfl

end Deque

theorem run_pushes_size (ops : List (Op T)) : ∀ {d : Deque T}, d.Inv →
    (∀ op ∈ ops, op.isPush = true) →
    ∃ d1, run d ops = some d1 ∧ d1.Inv ∧ d1.size_ = d.size_ + ops.length := by
  induction ops with
  | nil => intro d hd _; exact ⟨d, rfl, hd, rfl⟩
  | cons op ops ih =>
    intro d hd hall
    obtain ⟨d1, h1, h2, h3⟩ := apply_push hd (hall op (by simp))
    obtain ⟨d2, h4, h5, h6⟩ := ih (Or.inr h2 : d1.Inv) (fun o ho => hall o (by simp [ho]))
    refine ⟨d2, by simp only [run, h1, Outcome.state?, h4], h5, ?_⟩
    simp only [List.length_cons]; omega

/-- C13 (amended): in a state reachable by pushes and pops, a constructor failure
in emplace_back or emplace_front propagates and leaves size() unchanged; when the
block count after the failed call is the block count before it, the whole state is
the state before the call; otherwise the call had enlarged the table and the state
is the one increase_capacity produced, the cursor movement undone.  After pushes
only, the failing emplace_back leaves as many elements as pushes were made. -/
theorem construction_failure_rolls_back (ops : List (Op T)) (d : Deque T)
    (hrun : run Deque.fresh ops = some d) :
    (∃ d1, d.emplace_back none = .raised .constructionFailure d1 ∧ d1.size = d.size ∧
      (d1.capacity = d.capacity → d1 = d) ∧ (d1.capacity ≠ d.capacity → d1 = d.grown)) ∧
    (∃ d1, d.emplace_front none = .raised .constructionFailure d1 ∧ d1.size = d.size ∧
      (d1.capacity = d.capacity → d1 = d) ∧ (d1.capacity ≠ d.capacity → d1 = d.grown)) ∧
    ((∀ op ∈ ops, op.isPush = true) →
      ∀ e d1, d.emplace_back none = .raised e d1 → d1.size = ops.length) := by
  have hinv : d.Inv := inv_of_reachable ⟨ops, hrun⟩
  have hcapg : d.Valid → d.grown.capacity ≠ d.capacity := by
    intro hv
    have := hv.cap_ge
    simp only [Deque.capacity, Deque.grown, kStartCapacityOfArr] at this ⊢
    omega
  have hback : ∃ d1, d.emplace_back none = .raised .constructionFailure d1 ∧
      d1.size = d.size ∧ (d1.capacity = d.capacity → d1 = d) ∧
      (d1.capacity ≠ d.capacity → d1 = d.grown) := by
    rcases hinv with rfl | hv
    · exact ⟨Deque.fresh, Deque.emplace_back_none_fresh, rfl, fun _ => rfl,
        fun h => absurd rfl h⟩
    · by_cases hg : d.backGrows
      · exact ⟨d.grown, by rw [Deque.emplace_back_none hv, if_pos hg], rfl,
          fun h => absurd h (hcapg hv), fun _ => rfl⟩
      · exact ⟨d, by rw [Deque.emplace_back_none hv, if_neg hg], rfl, fun _ => rfl,
          fun h => absurd rfl h⟩
  refine ⟨hback, ?_, ?_⟩
  · rcases hinv with rfl | hv
    · exact ⟨Deque.fresh, Deque.emplace_front_none_fresh, rfl, fun _ => rfl,
        fun h => absurd rfl h⟩
    · by_cases hg : d.frontGrows
      · exact ⟨d.grown, by rw [Deque.emplace_front_none hv, if_pos hg], rfl,
          fun h => absurd h (hcapg hv), fun _ => rfl⟩
      · exact ⟨d, by rw [Deque.emplace_front_none hv, if_neg hg], rfl, fun _ => rfl,
          fun h => absurd rfl h⟩
  · intro hall e d1 h
    obtain ⟨d2, h1, h2, -⟩ := hback
    rw [h1] at h
    cases h
    obtain ⟨d3, h3, -, h4⟩ := run_pushes_size ops (Or.inl rfl : (Deque.fresh : Deque T).Inv)
      hall
    rw [hrun] at h3
    cases h3
    rw [h2]
    simpa [Deque.fresh] using h4

/-- Instance of C13 (amended): on the deque 1, 2, 3, 4 a failing emplace_back
leaves four elements and the state before the call. -/
theorem construction_failure_rolls_back_witness :
    run (Deque.fresh : Deque Int) [.push_back 1, .push_back 2, .push_back 3, .push_back 4]
      = some sampleFour ∧
    (∃ d1, sampleFour.emplace_back none = .raised .constructionFailure d1 ∧
      d1.size = sampleFour.size ∧ (d1.capacity = sampleFour.capacity → d1 = sampleFour) ∧
      (d1.capacity ≠ sampleFour.capacity → d1 = sampleFour.grown)) ∧
    sampleFour.emplace_back none = .raised .constructionFailure sampleFour :=
  ⟨sampleFour_run,
    (construction_failure_rolls_back _ sampleFour sampleFour_run).1, rfl⟩

/-- C13 as stated fails when the failing call enlarges the table: after 16127
push_back calls (values 0, ..., 16126) a failing emplace_back leaves 192 blocks and
the front cursor in block 96, where the state before the call had 64 blocks and the
front cursor in block 32. -/
theorem construction_failure_keeps_growth :
    ∃ d d1, run (Deque.fresh : Deque Int)
        ((List.range 16127).map fun i => Op.push_back (Int.ofNat i)) = some d ∧
      d.emplace_back none = .raised .constructionFailure d1 ∧
      d.capacity = 64 ∧ d.first_array_index_ = 32 ∧
      d1.capacity = 192 ∧ d1.first_array_index_ = 96 ∧ d1.size = d.size ∧ d1 ≠ d := by
  have hlen : ((List.range 16127).map Int.ofNat).length = 16127 := by
    rw [List.length_map, List.length_range]
  have hm : ((List.range 16127).map fun i => Op.push_back (Int.ofNat i)) =
      ((List.range 16127).map Int.ofNat).map Op.push_back := by
    rw [List.map_map]; rfl
  obtain ⟨d, h1, hv, h3, h4, h5, h6, h7⟩ :=
    run_push_backs ((List.range 16127).map Int.ofNat)
      (by intro h; rw [h] at hlen; cases hlen) (by rw [hlen])
  rw [hlen] at h6 h7
  simp only [Deque.lastPos, kArraySize] at h6
  have hl := hv.lin_lt
  have hla := hv.larr_lt
  simp only [kArraySize] at hl
  have hg : d.backGrows := ⟨by omega, by omega⟩
  refine ⟨d, d.grown, by rw [hm]; exact h1, by rw [Deque.emplace_back_none hv, if_pos hg],
    h3, h4, ?_, ?_, rfl, ?_⟩
  · simp only [Deque.capacity, Deque.grown, h3]
  · simp only [Deque.grown, h3, h4]
  · intro h
    have := congrArg Deque.capacity_of_arr_ h
    simp only [Deque.grown, h3] at this
    omega


/-! ## First allocation and growth -/

/-- C20: the first push_back or push_front of v into a default-constructed deque
allocates 64 blocks of 512 vacant slots, puts both cursors at block 32, offset 256,
constructs v there and gives size() == 1 with at(0) == v; the following push in
either direction leaves the block count at 64. -/
theorem first_push_centres (v w : T) :
    ∃ d, (Deque.fresh : Deque T).push_back v = .ok () d ∧
      (Deque.fresh : Deque T).push_front v = .ok () d ∧
      Shaped d.body_ 64 ∧ d.capacity = 64 ∧
      d.first_array_index_ = 32 ∧ d.first_in_array_index_ = 256 ∧
      d.last_array_index_ = 32 ∧ d.last_in_array_index_ = 256 ∧
      getSlot d.body_ 32 256 = some (some v) ∧ d.size = 1 ∧ d.at_ 0 = .ok (some v) d ∧
      (∃ d2, d.push_back w = .ok () d2 ∧ d2.capacity = 64) ∧
      (∃ d2, d.push_front w = .ok () d2 ∧ d2.capacity = 64) := by
  obtain ⟨d, h1, hv, h3, h4, h5, h6, h7, h8, h9⟩ := Deque.emplace_back_fresh v
  have hslot : getSlot d.body_ 32 256 = some (some v) := by
    rw [h9]; simp
  have hsl : slotAt d.body_ (d.firstPos + 0) = some (some v) := by
    simp only [slotAt, Deque.firstPos, h5, h6, kArraySize]
    exact hslot
  have hsh := hv.shaped
  rw [h4] at hsh
  refine ⟨d, h1, by rw [Deque.push_front, Deque.emplace_front_fresh]; exact h1, hsh, h4,
    h5, h6, h7, h8, hslot, h3, ?_, ?_, ?_⟩
  · rw [Deque.at_of_lt (by omega), Deque.subscript_eq, hsl]
  · obtain ⟨d2, e1, -, -, -, hc⟩ := Deque.push_back_spec w hv
    rcases hc with ⟨-, c1, -⟩ | ⟨hg, -⟩
    · exact ⟨d2, e1, by simp only [Deque.capacity, c1, h4]⟩
    · have := hg.1
      simp only [kStartCapacityOfArr] at h4
      omega
  · obtain ⟨d2, e1, -, -, -, hc⟩ := Deque.push_front_spec w hv
    rcases hc with ⟨-, c1, -⟩ | ⟨hg, -⟩
    · exact ⟨d2, e1, by simp only [Deque.capacity, c1, h4]⟩
    · have := hg.1
      omega

namespace Deque

theorem not_grows_after_back_growth {d d1 : Deque T} (hv : d.Valid) (hv1 : d1.Valid)
    (c1 : d1.capacity_of_arr_ = d.capacity_of_arr_ * 3)
    (c2 : d1.first_array_index_ = d.first_array_index_ + d.capacity_of_arr_)
    (c3 : d1.lastPos = d.lastPos + 1 + d.capacity_of_arr_ * kArraySize) :
    ¬ d1.backGrows ∧ ¬ d1.frontGrows := by
  have a1 := hv.cap_ge
  have a2 := hv.larr_lt
  have a3 := hv.lin_lt
  have a4 := hv1.lin_lt
  simp only [lastPos, kArraySize, kStartCapacityOfArr] at *
  constructor
  · intro hg
    have := hg.1
    omega
  · intro hg
    have := hg.1
    omega

theorem not_grows_after_front_growth {d d1 : Deque T} (hv : d.Valid) (hv1 : d1.Valid)
    (c1 : d1.capacity_of_arr_ = d.capacity_of_arr_ * 3)
    (c2 : d1.last_array_index_ = d.last_array_index_ + d.capacity_of_arr_)
    (c3 : d1.firstPos + 1 = d.firstPos + d.capacity_of_arr_ * kArraySize) :
    ¬ d1.backGrows ∧ ¬ d1.frontGrows := by
  have a1 := hv.cap_ge
  have a2 := hv.larr_lt
  have a3 := hv.lin_lt
  have a4 := hv1.lin_lt
  simp only [firstPos, kArraySize, kStartCapacityOfArr] at *
  constructor
  · intro hg
    have := hg.1
    omega
  · intro hg
    have b1 := hg.1
    have b2 := hg.2
    omega

theorem no_growth_of_not_grows {d1 : Deque T} (hv1 : d1.Valid)
    (hb : ¬ d1.backGrows) (hf : ¬ d1.frontGrows) (w : T) (d2 : Deque T)
    (h : d1.push_back w = .ok () d2 ∨ d1.push_front w = .ok () d2) :
    d2.capacity = d1.capacity := by
  rcases h with h | h
  · obtain ⟨d3, e1, -, -, -, hc⟩ := push_back_spec w hv1
    rw [e1] at h
    cases h
    rcases hc with ⟨-, c1, -⟩ | ⟨hg, -⟩
    · exact c1
    · exact absurd hg hb
  · obtain ⟨d3, e1, -, -, -, hc⟩ := push_front_spec w hv1
    rw [e1] at h
    cases h
    rcases hc with ⟨-, c1, -⟩ | ⟨hg, -⟩
    · exact c1
    · exact absurd hg hf

end Deque

/-- C19: on a table of c >= 1 blocks increase_capacity returns a table of 3c blocks
and adds c to both block cursors, so that cursors with front <= back < c end with
c <= front <= back < 2c; and when a push on a reachable deque with an allocated
table changes the block count, the new count is three times the old one and the
next push in either direction leaves it unchanged. -/
theorem growth_triples_and_recentres (d : Deque T) :
    (d.body_.length = d.capacity → 1 ≤ d.capacity →
      ∃ d1, d.increase_capacity = .ok () d1 ∧ d1.body_.length = 3 * d.capacity ∧
        d1.capacity = 3 * d.capacity ∧
        d1.first_array_index_ = d.first_array_index_ + d.capacity ∧
        d1.last_array_index_ = d.last_array_index_ + d.capacity ∧
        d1.first_in_array_index_ = d.first_in_array_index_ ∧
        d1.last_in_array_index_ = d.last_in_array_index_ ∧ d1.size = d.size ∧
        (d.first_array_index_ ≤ d.last_array_index_ → d.last_array_index_ < d.capacity →
          d.capacity ≤ d1.first_array_index_ ∧ d1.first_array_index_ ≤ d1.last_array_index_ ∧
          d1.last_array_index_ < 2 * d.capacity)) ∧
    (Reachable d → d.capacity ≠ 0 → ∀ v d1,
      (d.push_back v = .ok () d1 ∨ d.push_front v = .ok () d1) →
      d1.capacity ≠ d.capacity →
      d1.capacity = 3 * d.capacity ∧
      ∀ w d2, (d1.push_back w = .ok () d2 ∨ d1.push_front w = .ok () d2) →
        d2.capacity = d1.capacity) := by
  constructor
  · intro hlen hc
    simp only [Deque.capacity] at hlen hc ⊢
    refine ⟨d.grown, Deque.increase_capacity_eq hlen, ?_, ?_, rfl, rfl, rfl, rfl, rfl, ?_⟩
    · simp only [Deque.grown, List.length_append, List.length_take, List.length_replicate, hlen]
      omega
    · simp only [Deque.grown]; omega
    · intro h1 h2
      simp only [Deque.grown]
      omega
  · intro hr hne v d1 hpush hcap
    have hv : d.Valid := by
      rcases inv_of_reachable hr with rfl | hv
      · exact absurd rfl hne
      · exact hv
    rcases hpush with h | h
    · obtain ⟨d3, e1, hv1, -, -, hc⟩ := Deque.push_back_spec v hv
      rw [e1] at h
      cases h
      rcases hc with ⟨-, c1, -⟩ | ⟨-, c1, c2, c3, -⟩
      · exact absurd c1 hcap
      · obtain ⟨hb, hf⟩ := Deque.not_grows_after_back_growth hv hv1 c1 c2 c3
        exact ⟨by simp only [Deque.capacity, c1]; omega,
          Deque.no_growth_of_not_grows hv1 hb hf⟩
    · obtain ⟨d3, e1, hv1, -, -, hc⟩ := Deque.push_front_spec v hv
      rw [e1] at h
      cases h
      rcases hc with ⟨-, c1, -⟩ | ⟨-, c1, c2, c3, -⟩
      · exact absurd c1 hcap
      · obtain ⟨hb, hf⟩ := Deque.not_grows_after_front_growth hv hv1 c1 c2 c3
        exact ⟨by simp only [Deque.capacity, c1]; omega,
          Deque.no_growth_of_not_grows hv1 hb hf⟩


theorem runRef_push_backs (vs : List T) : ∀ l : List T,
    runRef l (vs.map Op.push_back) = l ++ vs := by
  induction vs with
  | nil => intro l; simp [runRef]
  | cons v vs ih =>
    intro l
    simp only [List.map_cons, runRef, Op.applyRef, ih]
    simp

namespace Deque

theorem getSlot_grown_old {d : Deque T} (hs : Shaped d.body_ d.capacity_of_arr_) {b : Nat}
    (o : Nat) (h1 : b < d.capacity_of_arr_) :
    getSlot d.grown.body_ b o = getSlot d.body_ b o := by
  have hb : (List.take d.capacity_of_arr_ d.body_ ++
      List.replicate (d.capacity_of_arr_ * 3 - d.capacity_of_arr_) (freshBlock : Block T))[b]?
      = d.body_[b]? := by
    rw [List.getElem?_append_left (by simp [hs.1]; omega), List.getElem?_take]
    rw [if_pos h1]
  simp only [getSlot, grown, hb]

end Deque

/-- State before the first enlarging push_back: after 16127 push_back calls with the
values 0, ..., 16126 the back cursor is at block 63, offset 510, and the deque holds
the values. -/
theorem before_first_growth :
    ∃ d, run (Deque.fresh : Deque Int)
        ((List.range 16127).map fun i => Op.push_back (Int.ofNat i)) = some d ∧
      d.Holds ((List.range 16127).map Int.ofNat) ∧ d.capacity_of_arr_ = 64 ∧
      d.first_array_index_ = 32 ∧ d.first_in_array_index_ = 256 ∧
      d.last_array_index_ = 63 ∧ d.last_in_array_index_ = 510 ∧ d.backGrows := by
  have hlen : ((List.range 16127).map Int.ofNat).length = 16127 := by
    rw [List.length_map, List.length_range]
  have hm : ((List.range 16127).map fun i => Op.push_back (Int.ofNat i)) =
      ((List.range 16127).map Int.ofNat).map Op.push_back := by
    rw [List.map_map]; rfl
  obtain ⟨d, h1, hv, h3, h4, h5, h6, h7⟩ :=
    run_push_backs ((List.range 16127).map Int.ofNat)
      (by intro h; rw [h] at hlen; cases hlen) (by rw [hlen])
  rw [hlen] at h6 h7
  simp only [Deque.lastPos, kArraySize] at h6
  have hl := hv.lin_lt
  have hla := hv.larr_lt
  simp only [kArraySize] at hl
  have hall : ∀ op ∈ ((List.range 16127).map Int.ofNat).map Op.push_back,
      op.isPush = true := by
    intro op hop
    obtain ⟨v, -, rfl⟩ := List.mem_map.1 hop
    rfl
  have hholds : d.Holds ((List.range 16127).map Int.ofNat) := by
    rcases holds_of_pushes _ hall d h1 with ⟨h, -⟩ | ⟨-, h⟩
    · have := congrArg List.length h
      rw [List.length_map, hlen] at this
      cases this
    · have := h h3
      rw [runRef_push_backs, List.nil_append] at this
      exact this
  exact ⟨d, by rw [hm]; exact h1, hholds, h3, h4, h5, by omega, by omega,
    ⟨by omega, by omega⟩⟩

/-- C18 fails on the code: the push_back that follows 16127 push_back calls (values
0, ..., 16126) enlarges the table from 64 to 192 blocks; the old blocks keep their
indices 0..63 (the element 0 is still in slot (32, 256)), the entries 64..127 are
newly allocated blocks, and at(0), which read 0 before the push, designates a
vacant slot of block 96 after it. -/
theorem growth_leaves_blocks_in_place :
    ∃ d d1, run (Deque.fresh : Deque Int)
        ((List.range 16127).map fun i => Op.push_back (Int.ofNat i)) = some d ∧
      d.capacity = 64 ∧ d.at_ 0 = .ok (some 0) d ∧
      d.push_back 16127 = .ok () d1 ∧ d1.capacity = 192 ∧
      (∀ i o, i < 64 → getSlot d1.body_ i o = getSlot d.body_ i o) ∧
      (∀ i o, i < 64 → o < 512 → (i + 64, o) ≠ (127, 511) →
        getSlot d1.body_ (i + 64) o = some none) ∧
      getSlot d1.body_ 32 256 = some (some 0) ∧
      d1.at_ 0 = .ok none d1 := by
  obtain ⟨d, hrun, hh, h3, h4, h5, h6, h7, hg⟩ := before_first_growth
  have hv := hh.valid
  have hsz : d.size_ = 16127 := by
    rw [hh.size_eq, List.length_map, List.length_range]
  have hfp : d.firstPos = 32 * 512 + 256 := by
    simp only [Deque.firstPos, kArraySize, h4, h5]
  have hs0 : slotAt d.body_ (d.firstPos + 0) = some (some 0) := by
    have := hh.slots 0 (by rw [List.length_map, List.length_range]; omega)
    rw [this]
    simp
  have hold : getSlot d.body_ 32 256 = some (some 0) := by
    have := hs0
    rw [hfp] at this
    exact this
  obtain ⟨d1, e1, hv1, e3, e4, hcases⟩ := Deque.push_back_spec (16127 : Int) hv
  rcases hcases with ⟨hng, -⟩ | ⟨-, c1, c2, c3, c4⟩
  · exact absurd hg hng
  · have hl1 := hv1.lin_lt
    simp only [Deque.lastPos, kArraySize, h3, h6, h7] at c3 hl1
    have hla1 : d1.last_array_index_ = 127 := by omega
    have hli1 : d1.last_in_array_index_ = 511 := by omega
    have hfp1 : d1.firstPos = 96 * 512 + 256 := by
      simp only [Deque.firstPos, kArraySize]; omega
    have hnew : ∀ i o, i < 64 → o < 512 → (i + 64, o) ≠ (127, 511) →
        getSlot d1.body_ (i + 64) o = some none := by
      intro i o hi ho hne
      rw [c4, hla1, hli1, if_neg (by
        intro h
        exact hne (by rw [h.1, h.2]))]
      exact Deque.getSlot_grown_new hv.shaped (by omega) (by omega) ho
    have hsl : slotAt d1.body_ (d1.firstPos + 0) = some none := by
      rw [hfp1]
      exact hnew 32 256 (by omega) (by omega) (by decide)
    refine ⟨d, d1, hrun, by simp only [Deque.capacity, h3], ?_, e1,
      by simp only [Deque.capacity]; omega, ?_, hnew, ?_, ?_⟩
    · rw [Deque.at_of_lt (by omega), Deque.subscript_eq, hs0]
    · intro i o hi
      rw [c4, hla1, if_neg (by omega)]
      exact Deque.getSlot_grown_old hv.shaped o (by omega)
    · rw [c4, hla1, if_neg (by omega), Deque.getSlot_grown_old hv.shaped _ (by omega)]
      exact hold
    · rw [Deque.at_of_lt (by omega), Deque.subscript_eq, hsl]

/-- Instance of C19: increase_capacity on the deque holding the single element 7
gives 192 blocks and cursors in block 96; and the enlarging push_back after 16127
push_back calls triples the block count, the next push leaving it unchanged. -/
theorem growth_triples_and_recentres_witness :
    (∃ d1, sampleOne.increase_capacity = .ok () d1 ∧ d1.body_.length = 3 * sampleOne.capacity ∧
      d1.capacity = 3 * sampleOne.capacity ∧
      d1.first_array_index_ = sampleOne.first_array_index_ + sampleOne.capacity ∧
      d1.last_array_index_ = sampleOne.last_array_index_ + sampleOne.capacity ∧
      d1.first_in_array_index_ = sampleOne.first_in_array_index_ ∧
      d1.last_in_array_index_ = sampleOne.last_in_array_index_ ∧ d1.size = sampleOne.size ∧
      (sampleOne.first_array_index_ ≤ sampleOne.last_array_index_ →
        sampleOne.last_array_index_ < sampleOne.capacity →
        sampleOne.capacity ≤ d1.first_array_index_ ∧
        d1.first_array_index_ ≤ d1.last_array_index_ ∧
        d1.last_array_index_ < 2 * sampleOne.capacity)) ∧
    (∃ d d1, run (Deque.fresh : Deque Int)
        ((List.range 16127).map fun i => Op.push_back (Int.ofNat i)) = some d ∧
      d.push_back 16127 = .ok () d1 ∧ d1.capacity ≠ d.capacity ∧
      d1.capacity = 3 * d.capacity ∧
      ∀ w d2, (d1.push_back w = .ok () d2 ∨ d1.push_front w = .ok () d2) →
        d2.capacity = d1.capacity) := by
  refine ⟨(growth_triples_and_recentres sampleOne).1 (by decide) (by decide), ?_⟩
  obtain ⟨d, hrun, hh, h3, h4, h5, h6, h7, hg⟩ := before_first_growth
  obtain ⟨d1, e1, hv1, e3, e4, hcases⟩ := Deque.push_back_spec (16127 : Int) hh.valid
  have hne : d1.capacity ≠ d.capacity := by
    rcases hcases with ⟨hng, -⟩ | ⟨-, c1, -⟩
    · exact absurd hg hng
    · simp only [Deque.capacity, c1, h3]; omega
  exact ⟨d, d1, hrun, e1, hne,
    (growth_triples_and_recentres d).2 ⟨_, hrun⟩ (by simp only [Deque.capacity, h3]; omega)
      16127 d1 (Or.inl e1) hne⟩


/-! ## Moves and copy assignment -/

namespace Deque

theorem dealloc_eq_fresh (d : Deque T) : d.dealloc = fresh := rfl

theorem moved_from_eq_fresh (d : Deque T) : d.moved_from = fresh := rfl

/-- The loop `while (size_ != 0) pop_back();` on a state satisfying the invariant
returns when its budget exceeds the size, and leaves no element. -/
theorem popAll_spec (n : Nat) : ∀ (fuel : Nat) (d : Deque T), d.Inv → d.size_ = n → n < fuel →
    ∃ d1, popAll fuel d = .ok () d1 ∧ d1.Inv ∧ d1.size_ = 0 := by
  induction n with
  | zero =>
    intro fuel d hd hs hf
    obtain ⟨f, rfl⟩ : ∃ f, fuel = f + 1 := ⟨fuel - 1, by omega⟩
    exact ⟨d, by simp [popAll, hs], hd, hs⟩
  | succ n ih =>
    intro fuel d hd hs hf
    obtain ⟨f, rfl⟩ : ∃ f, fuel = f + 1 := ⟨fuel - 1, by omega⟩
    have hne : d.size_ ≠ 0 := by omega
    rcases hd with rfl | hv
    · exact absurd rfl hne
    · obtain ⟨d1, e1, hv1, e3, -⟩ := pop_back_spec hv hne
      obtain ⟨d2, g1, g2, g3⟩ := ih f d1 (Or.inr hv1) (by omega) (by omega)
      exact ⟨d2, by simp [popAll, hne, e1, g1], g2, g3⟩

end Deque

/-- C12: the move constructor gives the new deque every member the source had and
leaves the source in the state of a default-constructed deque; move assignment
between distinct objects, on a destination reachable by pushes and pops, does the
same after popping the destination's elements. -/
theorem move_transfers_state (fuel : Nat) (dst src : Deque T) :
    src.move_construct = .ok Deque.fresh src ∧
    (Reachable dst → dst.size < fuel →
      dst.move_assign fuel false src = .ok Deque.fresh src) := by
  constructor
  · cases src; rfl
  · intro hr hf
    obtain ⟨d1, e1, -, -⟩ := Deque.popAll_spec dst.size_ fuel dst (inv_of_reachable hr) rfl hf
    simp only [Deque.move_assign, Bool.false_eq_true, if_false, e1, Outcome.andThen_ok,
      Deque.moved_from_eq_fresh]

/-- Instance of C12: move assignment of the deque 1, 2, 3, 4 to the deque holding 7. -/
theorem move_transfers_state_witness :
    Reachable sampleOne ∧ sampleOne.size < 2 ∧
    sampleOne.move_assign 2 false sampleFour = .ok Deque.fresh sampleFour ∧
    sampleFour.move_construct = .ok Deque.fresh sampleFour :=
  ⟨sampleOne_reachable, by decide,
    (move_transfers_state 2 sampleOne sampleFour).2 sampleOne_reachable (by decide),
    (move_transfers_state 2 sampleOne sampleFour).1⟩

namespace Deque

theorem emplace_back_some_inv {d : Deque T} (hd : d.Inv) (w : T) :
    ∃ d1, d.emplace_back (some w) = .ok () d1 ∧ d1.Inv ∧ d1.size_ = d.size_ + 1 := by
  obtain ⟨d1, h1, h2, h3⟩ := @apply_push _ (Op.push_back w) _ hd rfl
  exact ⟨d1, h1, Or.inr h2, h3⟩

theorem emplace_back_none_inv {d : Deque T} (hd : d.Inv) :
    ∃ d1, d.emplace_back none = .raised .constructionFailure d1 ∧ d1.Inv ∧
      d1.size_ = d.size_ := by
  rcases hd with rfl | hv
  · exact ⟨fresh, emplace_back_none_fresh, Or.inl rfl, rfl⟩
  · by_cases hg : d.backGrows
    · exact ⟨d.grown, by rw [emplace_back_none hv, if_pos hg], Or.inr (valid_grown hv), rfl⟩
    · exact ⟨d, by rw [emplace_back_none hv, if_neg hg], Or.inr hv, rfl⟩

/-- The loop of the copy constructor over a source that holds `l`, entered at index
`j` with at most `j` elements copied: when the element copy constructor throws on
some element of index `j` or above, the loop pops what it has copied, releases the
table and raises. -/
theorem copyLoop_raises (copyT : T → Option T) {other : Deque T} {l : List T}
    (h : other.Holds l) (m : Nat) : ∀ (j fuel : Nat) (self : Deque T),
    j + m = l.length → self.Inv → self.size_ ≤ j →
    (∃ i, ∃ hi : i < l.length, j ≤ i ∧ copyT l[i] = none) →
    2 * l.length ≤ fuel + j →
    copyLoop copyT other (Iterator.ofPos (other.firstPos + l.length)) fuel self
      (Iterator.ofPos (other.firstPos + j)) = .raised .constructionFailure fresh := by
  induction m with
  | zero =>
    intro j fuel self hj _ _ hfail _
    obtain ⟨i, hi, hji, -⟩ := hfail
    omega
  | succ m ih =>
    intro j fuel self hj hinv hsz hfail hfuel
    have hjl : j < l.length := by omega
    obtain ⟨f, rfl⟩ : ∃ f, fuel = f + 1 := ⟨fuel - 1, by omega⟩
    have hne : (Iterator.ofPos (other.firstPos + j)).ne
        (Iterator.ofPos (other.firstPos + l.length)) = true := by
      simp only [Iterator.ne, Iterator.eq_ofPos, Bool.not_eq_true', decide_eq_false_iff_not]
      omega
    have hderef : other.deref (Iterator.ofPos (other.firstPos + j)) = some (some l[j]) := by
      rw [deref_ofPos]; exact h.slots j hjl
    cases hc : copyT l[j] with
    | none =>
      obtain ⟨self1, e1, e2, e3⟩ := emplace_back_none_inv hinv
      obtain ⟨self2, g1, -, -⟩ := popAll_spec self1.size_ (f + 1) self1 e2 rfl (by omega)
      simp only [copyLoop, hne, if_true, hderef, hc, e1, g1, Outcome.andThen_ok,
        dealloc_eq_fresh]
    | some w =>
      obtain ⟨self1, e1, e2, e3⟩ := emplace_back_some_inv hinv w
      have hrec := ih (j + 1) f self1 (by omega) e2 (by omega)
        (by
          obtain ⟨i, hi, hji, hci⟩ := hfail
          refine ⟨i, hi, ?_, hci⟩
          by_contra hlt
          have hij : i = j := by omega
          subst hij
          rw [hc] at hci
          cases hci)
        (by omega)
      simp only [copyLoop, hne, if_true, hderef, hc, e1, Iterator.inc_ofPos]
      exact hrec

theorem copy_raises (copyT : T → Option T) {other : Deque T} {l : List T}
    (h : other.Holds l) (hfail : ∃ v ∈ l, copyT v = none) {fuel : Nat}
    (hfuel : 2 * l.length ≤ fuel) :
    other.copy copyT fuel = .raised .constructionFailure fresh := by
  have hne : other.size_ ≠ 0 := by
    have := holds_nonempty h
    rw [h.size_eq]; omega
  have hend : other.end_ = Iterator.ofPos (other.firstPos + l.length) := by
    rw [end_eq_ofPos h.valid, h.span]
  have hbeg : other.begin = Iterator.ofPos (other.firstPos + 0) := by
    rw [begin_eq_ofPos h.valid hne]; rfl
  obtain ⟨v, hv, hcv⟩ := hfail
  obtain ⟨i, hi, hiv⟩ := List.getElem_of_mem hv
  rw [copy, hend, hbeg]
  exact copyLoop_raises copyT h l.length 0 fuel fresh (by omega) (Or.inl rfl)
    (by simp [fresh]) ⟨i, hi, Nat.zero_le _, by rw [hiv]; exact hcv⟩ (by omega)

end Deque

/-- C11: when the copy constructor raises while the temporary is built, copy
assignment a = b raises the same exception and leaves a in its state before the
assignment; this happens in particular when b holds a list of elements on one of
which the element copy constructor throws; self-assignment a = a leaves a
unchanged. -/
theorem copy_assign_strong_guarantee (copyT : T → Option T) (fuel : Nat) (a b : Deque T) :
    (∀ e t, b.copy copyT fuel = .raised e t →
      a.copy_assign copyT fuel false b = .raised e a) ∧
    (∀ l, b.Holds l → (∃ v ∈ l, copyT v = none) → 2 * l.length ≤ fuel →
      a.copy_assign copyT fuel false b = .raised .constructionFailure a) ∧
    a.copy_assign copyT fuel true a = .ok () a := by
  have h1 : ∀ e t, b.copy copyT fuel = .raised e t →
      a.copy_assign copyT fuel false b = .raised e a := by
    intro e t h
    simp only [Deque.copy_assign, Bool.false_eq_true, if_false, h]
  exact ⟨h1, fun l hl hfail hfuel => h1 _ _ (Deque.copy_raises copyT hl hfail hfuel),
    by simp only [Deque.copy_assign, if_true]⟩

theorem sampleFour_holds : sampleFour.Holds [1, 2, 3, 4] := by
  have hall : ∀ op ∈ [Op.push_back (1 : Int), .push_back 2, .push_back 3, .push_back 4],
      op.isPush = true := by decide
  rcases holds_of_pushes _ hall sampleFour sampleFour_run with ⟨h, -⟩ | ⟨-, h⟩
  · cases h
  · exact h rfl

/-- Instance of C11: assigning the deque 1, 2, 3, 4 to the deque holding 7 with an
element copy constructor that throws on 3 raises and leaves the destination
holding 7. -/
theorem copy_assign_strong_guarantee_witness :
    sampleFour.Holds [1, 2, 3, 4] ∧
    (∃ v ∈ [(1 : Int), 2, 3, 4], (fun v : Int => if v = 3 then none else some v) v = none) ∧
    sampleOne.copy_assign (fun v => if v = 3 then none else some v) 8 false sampleFour
      = .raised .constructionFailure sampleOne ∧
    sampleFour.copy (fun v => if v = 3 then none else some v) 8
      = .raised .constructionFailure Deque.fresh :=
  ⟨sampleFour_holds, ⟨3, by decide, rfl⟩,
    (copy_assign_strong_guarantee (fun v : Int => if v = 3 then none else some v) 8
      sampleOne sampleFour).2.1 [1, 2, 3, 4] sampleFour_holds ⟨3, by decide, rfl⟩ (by decide),
    rfl⟩

/-! ## Allocation failure in the first push -/

/-- C14: when the allocation of block k (k < 64) fails during the initial allocation of
the first push, the exception leaves the deque with size 0 but block count 64 and a
table of 64 handles of which handle k refers to no storage, not the state of a fresh
deque; when the very first allocation failed a later push_back accesses a slot of a
null block, and when the 41st failed a later push_back succeeds with cursors near
block 0 and at(0) designating a slot on which nothing was constructed. -/
theorem allocation_failure_leaves_null_handles :
    (∀ (k : Nat) (args : Option Int), k < 64 →
      (Deque.fresh : Deque Int).emplace_back_alloc_failing k args
        = .raised .allocationFailure ((Deque.fresh : Deque Int).initial_allocate_failing k) ∧
      ((Deque.fresh : Deque Int).initial_allocate_failing k).size = 0 ∧
      ((Deque.fresh : Deque Int).initial_allocate_failing k).capacity = 64 ∧
      ((Deque.fresh : Deque Int).initial_allocate_failing k).body_.length = 64 ∧
      ((Deque.fresh : Deque Int).initial_allocate_failing k).body_[k]? = some [] ∧
      (Deque.fresh : Deque Int).initial_allocate_failing k ≠ Deque.fresh) ∧
    ((Deque.fresh : Deque Int).initial_allocate_failing 0).push_back 2 = .undefined ∧
    (∃ d2, ((Deque.fresh : Deque Int).initial_allocate_failing 40).push_back 2 = .ok () d2 ∧
      d2.size = 1 ∧ d2.first_array_index_ = 0 ∧ d2.first_in_array_index_ = 0 ∧
      d2.last_array_index_ = 0 ∧ d2.last_in_array_index_ = 1 ∧
      d2.at_ 0 = .ok none d2) := by
  refine ⟨?_, rfl, ⟨_, rfl, rfl, rfl, rfl, rfl, rfl, rfl⟩⟩
  intro k args hk
  have hlen : ((Deque.fresh : Deque Int).initial_allocate_failing k).body_.length = 64 := by
    simp only [Deque.initial_allocate_failing, Deque.fresh, kStartCapacityOfArr,
      List.length_append, List.length_replicate, List.length_drop, List.length_take,
      List.length_nil, List.nil_append]
    omega
  refine ⟨rfl, rfl, rfl, hlen, ?_, ?_⟩
  · simp only [Deque.initial_allocate_failing, Deque.fresh, kStartCapacityOfArr,
      List.length_nil, List.nil_append, Nat.sub_zero, List.take_replicate, Nat.min_self,
      List.drop_replicate]
    rw [List.getElem?_append_right (by simp)]
    simp only [List.length_replicate, Nat.sub_self]
    rw [List.getElem?_replicate]
    simp; omega
  · intro h
    have := congrArg Deque.capacity_of_arr_ h
    simp [Deque.initial_allocate_failing, Deque.fresh, kStartCapacityOfArr] at this


/-! ## Increment and decrement of iterators -/

/-- C28: for an iterator (b, o) with o < 512, ++ yields (b, o+1) when o < 511 and
(b+1, 0) when o == 511, which is the absolute position plus one, --(++it) is it and
++it is it + 1; when the absolute position is positive, -- yields (b, o-1) when
o > 0 and (b-1, 511) when o == 0, which is the absolute position minus one,
++(--it) is it and --it is it - 1. -/
theorem inc_dec_wrap (b o : Nat) (ho : o < kArraySize) :
    ((Iterator.mk b o).inc = if o < 511 then Iterator.mk b (o + 1) else Iterator.mk (b + 1) 0) ∧
    (Iterator.mk b o).inc.pos = (Iterator.mk b o).pos + 1 ∧
    (Iterator.mk b o).inc.dec = Iterator.mk b o ∧
    (Iterator.mk b o).inc = (Iterator.mk b o).add 1 ∧
    (0 < (Iterator.mk b o).pos →
      ((Iterator.mk b o).dec =
        if 0 < o then Iterator.mk b (o - 1) else Iterator.mk (b - 1) 511) ∧
      (Iterator.mk b o).dec.pos + 1 = (Iterator.mk b o).pos ∧
      (Iterator.mk b o).dec.inc = Iterator.mk b o ∧
      (Iterator.mk b o).dec = (Iterator.mk b o).sub 1) := by
  have hit : Iterator.mk b o = Iterator.ofPos (b * 512 + o) := by
    have := @Iterator.ofPos_pos (Iterator.mk b o) ho
    simp only [Iterator.pos, kArraySize] at this
    exact this.symm
  have hpos : (Iterator.mk b o).pos = b * 512 + o := by
    simp only [Iterator.pos, kArraySize]
  simp only [kArraySize] at ho
  refine ⟨?_, ?_, ?_, ?_, ?_⟩
  · by_cases h : o < 511
    · have : o ≠ 511 := by omega
      simp only [Iterator.inc, kArraySize, this, h, if_true, if_false]
    · have : o = 511 := by omega
      subst this
      rfl
  · rw [hit, Iterator.inc_ofPos, Iterator.pos_ofPos, Iterator.pos_ofPos]
  · rw [hit, Iterator.inc_ofPos, Iterator.dec_ofPos (by omega)]
    rfl
  · rw [hit, Iterator.inc_ofPos]
    exact (Iterator.add_ofPos_nat (b * 512 + o) 1).symm
  · intro hp
    rw [hpos] at hp
    refine ⟨?_, ?_, ?_, ?_⟩
    · by_cases h : 0 < o
      · simp only [Iterator.dec, h, if_true, gt_iff_lt]
      · have ho0 : o = 0 := by omega
        have hb : 1 ≤ b := by omega
        simp only [Iterator.dec, h, if_false, gt_iff_lt, kArraySize, wsub, hb, if_true]
    · rw [hit, Iterator.dec_ofPos hp, Iterator.pos_ofPos, Iterator.pos_ofPos]
      omega
    · rw [hit, Iterator.dec_ofPos hp, Iterator.inc_ofPos]
      have : b * 512 + o - 1 + 1 = b * 512 + o := by omega
      rw [this]
    · rw [hit, Iterator.dec_ofPos hp, Iterator.sub_one_ofPos hp]

/-- Instance of C28 at a block boundary: from (3, 511) the increment reaches (4, 0),
and from (4, 0) the decrement reaches (3, 511). -/
theorem inc_dec_wrap_witness :
    (511 : Nat) < kArraySize ∧ (0 : Nat) < kArraySize ∧
    (Iterator.mk 3 511).inc = Iterator.mk 4 0 ∧
    (Iterator.mk 4 0).dec = Iterator.mk 3 511 ∧
    (Iterator.mk 3 511).inc.dec = Iterator.mk 3 511 ∧
    (Iterator.mk 4 0).dec.inc = Iterator.mk 4 0 :=
  ⟨by decide, by decide,
    (inc_dec_wrap 3 511 (by decide)).1,
    ((inc_dec_wrap 4 0 (by decide)).2.2.2.2 (by decide)).1,
    (inc_dec_wrap 3 511 (by decide)).2.2.1,
    ((inc_dec_wrap 4 0 (by decide)).2.2.2.2 (by decide)).2.2.1⟩


/-! ## The three access paths -/

/-- C27: for a deque with front cursor (fb, fo) and i < size(), the indices that
at(i) and operator[](i) compute, (i + fo) / 512 + fb and (i + fo) mod 512, are the
block index and offset of the specification's mapping of 512*fb + fo + i, the
iterator begin() + i carries the same pair, at(i) is operator[](i), and
operator[](i) reads the slot that *(begin() + i) designates. -/
theorem access_paths_agree (d : Deque T) (i : Nat) (hi : i < d.size) :
    d.slot_index i = specMapping d.first_array_index_ d.first_in_array_index_ i ∧
    ((d.begin.add (i : Int)).index_of_array_, (d.begin.add (i : Int)).index_in_array_)
      = specMapping d.first_array_index_ d.first_in_array_index_ i ∧
    d.subscript i =
      (match getSlot d.body_ (d.slot_index i).1 (d.slot_index i).2 with
        | none => .undefined
        | some s => .ok s d) ∧
    d.at_ i = d.subscript i ∧
    d.subscript i =
      (match d.deref (d.begin.add (i : Int)) with
        | none => .undefined
        | some s => .ok s d) := by
  have hne : d.size ≠ 0 := by omega
  have hidx : d.slot_index i = specMapping d.first_array_index_ d.first_in_array_index_ i := by
    simp only [Deque.slot_index, specMapping, kArraySize, Prod.mk.injEq]
    constructor <;> omega
  have hbeg : d.begin = ⟨d.first_array_index_, d.first_in_array_index_⟩ := by
    simp only [Deque.begin, hne, ne_eq, not_false_eq_true, if_true]
  have hadd : d.begin.add (i : Int) =
      ⟨(d.first_array_index_ * kArraySize + d.first_in_array_index_ + i) / kArraySize,
        (d.first_array_index_ * kArraySize + d.first_in_array_index_ + i) % kArraySize⟩ := by
    rw [hbeg]
    simp only [Iterator.add, Iterator.add_assign, ge_iff_le, Int.natCast_nonneg, if_true,
      Int.toNat_ofNat]
  have hpair : ((d.begin.add (i : Int)).index_of_array_,
      (d.begin.add (i : Int)).index_in_array_)
      = specMapping d.first_array_index_ d.first_in_array_index_ i := by
    rw [hadd]; rfl
  refine ⟨hidx, hpair, rfl, Deque.at_of_lt hi, ?_⟩
  have h1 : (d.begin.add (i : Int)).index_of_array_ = (d.slot_index i).1 := by
    rw [hidx, ← hpair]
  have h2 : (d.begin.add (i : Int)).index_in_array_ = (d.slot_index i).2 := by
    rw [hidx, ← hpair]
  simp only [Deque.deref, h1, h2]
  rfl

/-- Instance of C27 on the deque 1, 2, 3, 4 at index 2: slot (32, 258), holding 3. -/
theorem access_paths_agree_witness :
    2 < sampleFour.size ∧ sampleFour.slot_index 2 = (32, 258) ∧
    specMapping 32 256 2 = (32, 258) ∧
    sampleFour.begin.add 2 = Iterator.mk 32 258 ∧
    sampleFour.at_ 2 = .ok (some 3) sampleFour ∧
    sampleFour.at_ 2 = sampleFour.subscript 2 :=
  ⟨by decide, rfl, rfl, rfl, rfl, (access_paths_agree sampleFour 2 (by decide)).2.2.2.1⟩

/-! ## Cursors of reachable states -/

/-- C26: in every state reachable from a default-constructed deque by push_back,
push_front, pop_back and pop_front, both in-block offsets are below 512, the table
has as many blocks as the recorded block count, each of 512 slots, both block
cursors are below the block count when it is not zero, and the front cursor's
absolute slot is at most the back cursor's; every further push or pop has a defined
result (it accesses slots of the table only) in a state that is reachable again,
and at(i) with i < size() returns the content of a slot of the table. -/
theorem reachable_cursors_in_table (d : Deque T) (hr : Reachable d) :
    d.first_in_array_index_ < kArraySize ∧ d.last_in_array_index_ < kArraySize ∧
    d.body_.length = d.capacity ∧ (∀ blk ∈ d.body_, blk.length = kArraySize) ∧
    (d.capacity ≠ 0 →
      d.first_array_index_ < d.capacity ∧ d.last_array_index_ < d.capacity) ∧
    512 * d.first_array_index_ + d.first_in_array_index_
      ≤ 512 * d.last_array_index_ + d.last_in_array_index_ ∧
    (∀ op : Op T, ∃ d1, (op.apply d).state? = some d1 ∧ Reachable d1) ∧
    (∀ i, i < d.size → ∃ s, d.at_ i = .ok s d ∧
      getSlot d.body_ (d.slot_index i).1 (d.slot_index i).2 = some s) := by
  have hinv := inv_of_reachable hr
  have hops : ∀ op : Op T, ∃ d1, (op.apply d).state? = some d1 ∧ Reachable d1 := by
    intro op
    obtain ⟨d1, h1, -⟩ := apply_inv op hinv
    obtain ⟨ops, hops⟩ := hr
    refine ⟨d1, h1, ops ++ [op], ?_⟩
    rw [run_append, hops]
    simp only [Option.some_bind, run_singleton, h1]
  rcases hinv with rfl | hv
  · refine ⟨Nat.succ_pos _, Nat.succ_pos _, rfl, ?_, fun h => absurd rfl h, le_refl _, hops, ?_⟩
    · intro blk hb; cases hb
    · intro i hi; cases hi
  · have h1 := hv.fin_lt
    have h2 := hv.lin_lt
    have h3 := hv.larr_lt
    have h4 := hv.ordered
    simp only [Deque.firstPos, Deque.lastPos, kArraySize] at h1 h2 h4
    refine ⟨hv.fin_lt, hv.lin_lt, hv.shaped.1, hv.shaped.2, fun _ => ?_, by omega, hops, ?_⟩
    · simp only [Deque.capacity]
      constructor <;> omega
    · intro i hi
      obtain ⟨s, hs1, hs2⟩ := Deque.at_ok_of_valid hv hi
      refine ⟨s, hs2, ?_⟩
      rw [← hs1]
      simp only [slotAt, Deque.slot_index, Deque.firstPos, kArraySize]
      congr 1 <;> omega

/-- Instance of C26 on the deque holding the single element 7. -/
theorem reachable_cursors_in_table_witness :
    Reachable sampleOne ∧ sampleOne.body_.length = sampleOne.capacity ∧
    (∀ op : Op Int, ∃ d1, (op.apply sampleOne).state? = some d1 ∧ Reachable d1) :=
  ⟨sampleOne_reachable, (reachable_cursors_in_table sampleOne sampleOne_reachable).2.2.1,
    (reachable_cursors_in_table sampleOne sampleOne_reachable).2.2.2.2.2.2.1⟩


/-! ## Cursor movement of the pops -/

/-- C24 (amended): on a reachable deque with size() >= 1, pop_back and pop_front
return normally and decrement size by one; when the two cursors designate different
slots, pop_back moves the back cursor one slot toward the front (from offset 0 to
offset 511 of the previous block) and pop_front moves the front cursor one slot
toward the back (from offset 511 to offset 0 of the next block), the other cursor
staying; when both cursors designate the same slot, both cursors stay where they
are. -/
theorem pop_moves_cursor_unless_single (d : Deque T) (hr : Reachable d) (hne : d.size ≠ 0) :
    (∃ d1, d.pop_back = .ok () d1 ∧ d1.size + 1 = d.size ∧
      d1.first_array_index_ = d.first_array_index_ ∧
      d1.first_in_array_index_ = d.first_in_array_index_ ∧
      ((d.first_array_index_ ≠ d.last_array_index_ ∨
          d.first_in_array_index_ ≠ d.last_in_array_index_) →
        d1.lastPos + 1 = d.lastPos ∧
        (d.last_in_array_index_ = 0 →
          d1.last_array_index_ + 1 = d.last_array_index_ ∧ d1.last_in_array_index_ = 511) ∧
        (d.last_in_array_index_ ≠ 0 →
          d1.last_array_index_ = d.last_array_index_ ∧
          d1.last_in_array_index_ + 1 = d.last_in_array_index_)) ∧
      ((d.first_array_index_ = d.last_array_index_ ∧
          d.first_in_array_index_ = d.last_in_array_index_) →
        d1.last_array_index_ = d.last_array_index_ ∧
        d1.last_in_array_index_ = d.last_in_array_index_)) ∧
    (∃ d1, d.pop_front = .ok () d1 ∧ d1.size + 1 = d.size ∧
      d1.last_array_index_ = d.last_array_index_ ∧
      d1.last_in_array_index_ = d.last_in_array_index_ ∧
      ((d.first_array_index_ ≠ d.last_array_index_ ∨
          d.first_in_array_index_ ≠ d.last_in_array_index_) →
        d1.firstPos = d.firstPos + 1 ∧
        (d.first_in_array_index_ = 511 →
          d1.first_array_index_ = d.first_array_index_ + 1 ∧ d1.first_in_array_index_ = 0) ∧
        (d.first_in_array_index_ ≠ 511 →
          d1.first_array_index_ = d.first_array_index_ ∧
          d1.first_in_array_index_ = d.first_in_array_index_ + 1)) ∧
      ((d.first_array_index_ = d.last_array_index_ ∧
          d.first_in_array_index_ = d.last_in_array_index_) →
        d1.first_array_index_ = d.first_array_index_ ∧
        d1.first_in_array_index_ = d.first_in_array_index_)) := by
  have hsz : d.size_ ≠ 0 := hne
  have hv : d.Valid := by
    rcases inv_of_reachable hr with rfl | hv
    · exact absurd rfl hne
    · exact hv
  have h1 := hv.fin_lt
  have h2 := hv.lin_lt
  have h4 := hv.ordered
  simp only [Deque.firstPos, Deque.lastPos, kArraySize] at h1 h2 h4
  constructor
  · obtain ⟨d1, e1, hv1, e3, -, e5, e6, e7, e8, -⟩ := Deque.pop_back_spec hv hsz
    have g2 := hv1.lin_lt
    simp only [Deque.firstPos, Deque.lastPos, kArraySize] at e7 e8 g2
    refine ⟨d1, e1, by simp only [Deque.size]; omega, e5, e6, fun hd => ?_, fun hs => ?_⟩
    · have := e7 (by omega)
      refine ⟨by simp only [Deque.lastPos, kArraySize]; omega, fun h0 => ?_, fun h0 => ?_⟩
      · constructor <;> omega
      · constructor <;> omega
    · exact e8 (by rw [hs.1, hs.2])
  · obtain ⟨d1, e1, hv1, e3, -, e5, e6, e7, e8, -⟩ := Deque.pop_front_spec hv hsz
    have g1 := hv1.fin_lt
    simp only [Deque.firstPos, Deque.lastPos, kArraySize] at e7 e8 g1
    refine ⟨d1, e1, by simp only [Deque.size]; omega, e5, e6, fun hd => ?_, fun hs => ?_⟩
    · have := e7 (by omega)
      refine ⟨by simp only [Deque.firstPos, kArraySize]; omega, fun h0 => ?_, fun h0 => ?_⟩
      · constructor <;> omega
      · constructor <;> omega
    · exact e8 (by rw [hs.1, hs.2])

/-- Instance of C24 (amended) on the deque 1, 2, 3, 4: pop_back moves the back cursor
from (32, 259) to (32, 258). -/
theorem pop_moves_cursor_unless_single_witness :
    Reachable sampleFour ∧ sampleFour.size ≠ 0 ∧
    (∃ d1, sampleFour.pop_back = .ok () d1 ∧ d1.size + 1 = sampleFour.size ∧
      d1.first_array_index_ = sampleFour.first_array_index_ ∧
      d1.first_in_array_index_ = sampleFour.first_in_array_index_ ∧
      ((sampleFour.first_array_index_ ≠ sampleFour.last_array_index_ ∨
          sampleFour.first_in_array_index_ ≠ sampleFour.last_in_array_index_) →
        d1.lastPos + 1 = sampleFour.lastPos ∧
        (sampleFour.last_in_array_index_ = 0 →
          d1.last_array_index_ + 1 = sampleFour.last_array_index_ ∧
          d1.last_in_array_index_ = 511) ∧
        (sampleFour.last_in_array_index_ ≠ 0 →
          d1.last_array_index_ = sampleFour.last_array_index_ ∧
          d1.last_in_array_index_ + 1 = sampleFour.last_in_array_index_)) ∧
      ((sampleFour.first_array_index_ = sampleFour.last_array_index_ ∧
          sampleFour.first_in_array_index_ = sampleFour.last_in_array_index_) →
        d1.last_array_index_ = sampleFour.last_array_index_ ∧
        d1.last_in_array_index_ = sampleFour.last_in_array_index_)) :=
  ⟨⟨_, sampleFour_run⟩, by decide,
    (pop_moves_cursor_unless_single sampleFour ⟨_, sampleFour_run⟩ (by decide)).1⟩

/-- C24 as stated fails at size() == 1: on the deque holding the single element 7,
with both cursors at (32, 256), pop_back returns with size 0 and the back cursor
still at (32, 256), and pop_front returns with size 0 and the front cursor still at
(32, 256). -/
theorem pop_of_single_keeps_cursor :
    Reachable sampleOne ∧ sampleOne.size = 1 ∧
    sampleOne.last_array_index_ = 32 ∧ sampleOne.last_in_array_index_ = 256 ∧
    sampleOne.first_array_index_ = 32 ∧ sampleOne.first_in_array_index_ = 256 ∧
    (∃ d1, sampleOne.pop_back = .ok () d1 ∧ d1.size = 0 ∧
      d1.last_array_index_ = 32 ∧ d1.last_in_array_index_ = 256) ∧
    (∃ d1, sampleOne.pop_front = .ok () d1 ∧ d1.size = 0 ∧
      d1.first_array_index_ = 32 ∧ d1.first_in_array_index_ = 256) :=
  ⟨sampleOne_reachable, rfl, rfl, rfl, rfl, rfl, ⟨_, rfl, rfl, rfl, rfl⟩,
    ⟨_, rfl, rfl, rfl, rfl⟩⟩

/-! ## Live range and size -/

/-- C25 fails on the code: after push_back 1; pop_back; push_back 2 the deque has
size() == 1, but the front cursor is still on slot (32, 256), vacated by pop_back,
and the back cursor on slot (32, 257), which holds 2: the range [front, back] spans
two slots, one of them vacant, and end() - begin() == 2. -/
theorem live_range_exceeds_size :
    ∃ d, run (Deque.fresh : Deque Int) [.push_back 1, .pop_back, .push_back 2] = some d ∧
      d.size = 1 ∧ d.firstPos = 32 * 512 + 256 ∧ d.lastPos = 32 * 512 + 257 ∧
      slotAt d.body_ d.firstPos = some none ∧ slotAt d.body_ d.lastPos = some (some 2) ∧
      d.begin = Iterator.mk 32 256 ∧ d.end_ = Iterator.mk 32 258 ∧
      d.end_.distance d.begin = 2 :=
  ⟨_, rfl, rfl, rfl, rfl, rfl, rfl, rfl, rfl, by decide⟩


/-! ## Pops and the block count -/

theorem apply_pop_capacity {op : Op T} {d : Deque T} (hd : d.Inv) (hop : op.isPop = true) :
    ∃ d1, (op.apply d).state? = some d1 ∧ d1.Inv ∧
      d1.capacity_of_arr_ = d.capacity_of_arr_ ∧ d1.size_ = d.size_ - 1 := by
  by_cases hsz : d.size_ = 0
  · refine ⟨d, ?_, hd, rfl, by omega⟩
    rw [(apply_pop hd hop).1 hsz]
    rfl
  · have hv : d.Valid := by
      rcases hd with rfl | hv
      · exact absurd rfl hsz
      · exact hv
    cases op with
    | push_back v => cases hop
    | push_front v => cases hop
    | pop_back =>
      obtain ⟨d1, e1, hv1, e3, e4, -⟩ := Deque.pop_back_spec hv hsz
      exact ⟨d1, by simp only [Op.apply, e1, Outcome.state?], Or.inr hv1, e4, e3⟩
    | pop_front =>
      obtain ⟨d1, e1, hv1, e3, e4, -⟩ := Deque.pop_front_spec hv hsz
      exact ⟨d1, by simp only [Op.apply, e1, Outcome.state?], Or.inr hv1, e4, e3⟩

theorem run_pops_capacity (ops : List (Op T)) : ∀ {d : Deque T}, d.Inv →
    (∀ op ∈ ops, op.isPop = true) →
    ∃ d1, run d ops = some d1 ∧ d1.Inv ∧ d1.capacity_of_arr_ = d.capacity_of_arr_ ∧
      d1.size_ = d.size_ - ops.length := by
  induction ops with
  | nil => intro d hd _; exact ⟨d, rfl, hd, rfl, rfl⟩
  | cons op ops ih =>
    intro d hd hall
    obtain ⟨d1, h1, h2, h3, h4⟩ := apply_pop_capacity hd (hall op (by simp))
    obtain ⟨d2, g1, g2, g3, g4⟩ := ih h2 (fun o ho => hall o (by simp [ho]))
    refine ⟨d2, by simp only [run, h1, g1], g2, by rw [g3, h3], ?_⟩
    simp only [List.length_cons]; omega

theorem run_pop_backs_span (n : Nat) : ∀ {d : Deque T}, d.Valid →
    d.firstPos + d.size_ = d.lastPos + 1 → n < d.size_ →
    ∃ d1, run d (List.replicate n Op.pop_back) = some d1 ∧ d1.Valid ∧
      d1.capacity_of_arr_ = d.capacity_of_arr_ ∧ d1.size_ + n = d.size_ ∧
      d1.first_array_index_ = d.first_array_index_ ∧
      d1.first_in_array_index_ = d.first_in_array_index_ ∧ d1.lastPos + n = d.lastPos := by
  induction n with
  | zero => intro d hv _ _; exact ⟨d, rfl, hv, rfl, rfl, rfl, rfl, rfl⟩
  | succ n ih =>
    intro d hv hspan hn
    obtain ⟨d1, e1, hv1, e3, e4, e5, e6, e7, -, -⟩ := Deque.pop_back_spec hv (by omega)
    have hl := e7 (by omega)
    have hfp : d1.firstPos = d.firstPos := by simp only [Deque.firstPos, e5, e6]
    obtain ⟨d2, g1, g2, g3, g4, g5, g6, g7⟩ := ih hv1 (by rw [hfp]; omega) (by omega)
    refine ⟨d2, ?_, g2, by rw [g3, e4], by omega, by rw [g5, e5], by rw [g6, e6], by omega⟩
    simp only [List.replicate_succ, run, Op.apply, e1, Outcome.state?]
    exact g1

/-- C21 fails on the code: no pop_back or pop_front on a reachable deque changes the
block count; in particular after 16128 push_back calls (values 0, ..., 16127) have
enlarged the table to 192 blocks, 16118 pop_back calls leave size() == 10, the ten
slots of the live range in the one block 96, and the block count still 192. -/
theorem pops_never_shrink :
    (∀ (d : Deque Int) (op : Op Int), Reachable d → op.isPop = true →
      ∃ d1, (op.apply d).state? = some d1 ∧ d1.capacity = d.capacity) ∧
    (∃ d0 d, run (Deque.fresh : Deque Int)
        ((List.range 16128).map fun i => Op.push_back (Int.ofNat i)) = some d0 ∧
      d0.size = 16128 ∧ d0.capacity = 192 ∧
      run d0 (List.replicate 16118 Op.pop_back) = some d ∧
      d.size = 10 ∧ d.first_array_index_ = 96 ∧ d.last_array_index_ = 96 ∧
      d.last_array_index_ - d.first_array_index_ + 1 ≤ d.size / 4 ∧
      d.capacity = 192) := by
  constructor
  · intro d op hr hop
    obtain ⟨d1, h1, -, h3, -⟩ := apply_pop_capacity (inv_of_reachable hr) hop
    exact ⟨d1, h1, h3⟩
  · obtain ⟨d, hrun, hh, h3, h4, h5, h6, h7, hg⟩ := before_first_growth
    have hv := hh.valid
    have hsz : d.size_ = 16127 := by
      rw [hh.size_eq, List.length_map, List.length_range]
    obtain ⟨d1, e1, hv1, e3, e4, hcases⟩ := Deque.push_back_spec (Int.ofNat 16127) hv
    have hr : List.range 16128 = List.range 16127 ++ [16127] := List.range_succ 16127
    have hm : ((List.range 16128).map fun i => Op.push_back (Int.ofNat i)) =
        ((List.range 16127).map fun i => Op.push_back (Int.ofNat i)) ++
          [Op.push_back (Int.ofNat 16127)] := by
      rw [hr, List.map_append]; rfl
    rcases hcases with ⟨hng, -⟩ | ⟨-, c1, c2, c3, -⟩
    · exact absurd hg hng
    · have hcap : d1.capacity_of_arr_ = 192 := by rw [c1, h3]
      have hlp : d1.lastPos = 65535 := by
        rw [c3]; simp only [Deque.lastPos, kArraySize, h6, h7, h3]
      have hfp : d1.firstPos = 49408 := by
        simp only [Deque.firstPos, kArraySize, c2, e4, h3, h4, h5]
      obtain ⟨d2, g1, g2, g3, g4, g5, g6, g7⟩ := run_pop_backs_span 16118 hv1
        (by omega) (by omega)
      have hl2 := g2.lin_lt
      simp only [Deque.lastPos, kArraySize] at g7 hlp hl2
      have hf2 : d2.first_array_index_ = 96 := by rw [g5, c2, h3, h4]
      have hla2 : d2.last_array_index_ = 96 := by omega
      have hs2 : d2.size_ = 10 := by omega
      refine ⟨d1, d2, ?_, by simp only [Deque.size]; omega, hcap, g1, hs2, hf2, hla2, ?_,
        by simp only [Deque.capacity]; omega⟩
      · rw [hm, run_append, hrun]
        exact run_singleton_ok (Op.push_back (Int.ofNat 16127)) d e1
      · simp only [Deque.size, hs2, hf2, hla2]
        decide

/-! ## Pushing at one end and popping at the other -/

theorem runOk_append (ops1 ops2 : List (Op T)) : ∀ d : Deque T,
    runOk d (ops1 ++ ops2) = (runOk d ops1).bind fun d1 => runOk d1 ops2 := by
  induction ops1 with
  | nil => intro d; rfl
  | cons op ops ih =>
    intro d
    simp only [List.cons_append, runOk]
    cases h : op.apply d with
    | ok r d1 => exact ih d1
    | raised e d1 => rfl
    | undefined => rfl
    | outOfFuel => rfl

theorem runOk_pushes (ops : List (Op T)) : ∀ {d : Deque T}, d.Inv →
    (∀ op ∈ ops, op.isPush = true) →
    ∃ d1, runOk d ops = some d1 ∧ d1.Inv ∧ d1.size_ = d.size_ + ops.length := by
  induction ops with
  | nil => intro d hd _; exact ⟨d, rfl, hd, rfl⟩
  | cons op ops ih =>
    intro d hd hall
    obtain ⟨d1, h1, h2, h3⟩ := apply_push hd (hall op (by simp))
    obtain ⟨d2, g1, g2, g3⟩ := ih (Or.inr h2 : d1.Inv) (fun o ho => hall o (by simp [ho]))
    refine ⟨d2, by simp only [runOk, h1, g1], g2, ?_⟩
    simp only [List.length_cons]; omega

theorem runOk_pops (ops : List (Op T)) : ∀ {d : Deque T}, d.Inv →
    (∀ op ∈ ops, op.isPop = true) → ops.length ≤ d.size_ →
    ∃ d1, runOk d ops = some d1 ∧ d1.Inv ∧ d1.size_ + ops.length = d.size_ := by
  induction ops with
  | nil => intro d hd _ _; exact ⟨d, rfl, hd, rfl⟩
  | cons op ops ih =>
    intro d hd hall hlen
    simp only [List.length_cons] at hlen
    obtain ⟨d1, h1, h2, h3⟩ := (apply_pop hd (hall op (by simp))).2 (by omega)
    obtain ⟨d2, g1, g2, g3⟩ := ih (Or.inr h2 : d1.Inv) (fun o ho => hall o (by simp [ho]))
      (by omega)
    refine ⟨d2, by simp only [runOk, h1, g1], g2, ?_⟩
    simp only [List.length_cons]; omega

/-- C22: for every list of N values, the N push_back calls on a default-constructed
deque followed by N pop_front calls all return normally and leave size() == 0, and
so do the N push_front calls followed by N pop_back calls. -/
theorem push_then_pop_other_end (vs : List T) :
    (∃ d, runOk Deque.fresh (vs.map Op.push_back ++ List.replicate vs.length Op.pop_front)
        = some d ∧ d.size = 0) ∧
    (∃ d, runOk Deque.fresh (vs.map Op.push_front ++ List.replicate vs.length Op.pop_back)
        = some d ∧ d.size = 0) := by
  have key : ∀ (mk : T → Op T) (pop : Op T), (∀ v, (mk v).isPush = true) →
      pop.isPop = true →
      ∃ d, runOk Deque.fresh (vs.map mk ++ List.replicate vs.length pop) = some d ∧
        d.size = 0 := by
    intro mk pop hmk hpop
    obtain ⟨d1, h1, h2, h3⟩ := runOk_pushes (vs.map mk) (Or.inl rfl : (Deque.fresh : Deque T).Inv)
      (fun op hop => by
        obtain ⟨v, -, rfl⟩ := List.mem_map.1 hop
        exact hmk v)
    rw [List.length_map] at h3
    have h0 : (Deque.fresh : Deque T).size_ = 0 := rfl
    obtain ⟨d2, g1, -, g3⟩ := runOk_pops (List.replicate vs.length pop) h2
      (fun op hop => by rw [List.eq_of_mem_replicate hop]; exact hpop)
      (by rw [List.length_replicate]; omega)
    rw [List.length_replicate] at g3
    refine ⟨d2, ?_, by simp only [Deque.size]; omega⟩
    rw [runOk_append, h1]
    exact g1
  exact ⟨key Op.push_back Op.pop_front (fun _ => rfl) rfl,
    key Op.push_front Op.pop_back (fun _ => rfl) rfl⟩


/-! ## Work of the shifting loops of erase and insert -/

namespace Deque

/-- The loop of `erase`, entered `k` slots above the front cursor, executes `k`
assignments. -/
theorem eraseLoopAssignments_spec (k : Nat) : ∀ (fuel : Nat) (d : Deque T), d.Valid →
    d.size_ ≠ 0 → d.capacity_of_arr_ * kArraySize < 2 ^ 62 → d.firstPos + k ≤ d.lastPos →
    (∀ j, j ≤ k → ∃ x, slotAt d.body_ (d.firstPos + j) = some (some x)) → k < fuel →
    d.eraseLoopAssignments fuel (Iterator.ofPos (d.firstPos + k)) = k := by
  induction k with
  | zero =>
    intro fuel d hv hne hcap hle hsl hf
    obtain ⟨f, rfl⟩ : ∃ f, fuel = f + 1 := ⟨fuel - 1, by omega⟩
    have hlt := hv.larr_lt
    have hli := hv.lin_lt
    simp only [lastPos, kArraySize] at hle hcap hli
    simp only [eraseLoopAssignments, begin_eq_ofPos hv hne, Nat.add_zero]
    rw [Iterator.gt_ofPos (by simp only [firstPos, kArraySize] at *; omega)
      (by simp only [firstPos, kArraySize] at *; omega)]
    simp
  | succ k ih =>
    intro fuel d hv hne hcap hle hsl hf
    obtain ⟨f, rfl⟩ : ∃ f, fuel = f + 1 := ⟨fuel - 1, by omega⟩
    have hlt := hv.larr_lt
    have hli := hv.lin_lt
    simp only [lastPos, kArraySize] at hle hcap hli
    obtain ⟨x, hx⟩ := hsl (k + 1) (le_refl _)
    obtain ⟨y, hy⟩ := hsl k (by omega)
    have hq : d.firstPos + (k + 1) < d.capacity_of_arr_ * kArraySize := by
      simp only [kArraySize]; omega
    obtain ⟨body1, e1, e2, e3⟩ := assignSlot_ofPos hv.shaped hq hx hy
    have hv1 := valid_with_body hv e2
    have hfp : ({ d with body_ := body1 } : Deque T).firstPos = d.firstPos := rfl
    have hrec := ih f { d with body_ := body1 } hv1 hne hcap
      (by simp only [hfp, lastPos, kArraySize]; omega)
      (by
        intro j hj
        obtain ⟨z, hz⟩ := hsl j (by omega)
        refine ⟨z, ?_⟩
        rw [hfp]
        show slotAt body1 (d.firstPos + j) = _
        rw [e3, if_neg (by omega), hz])
      (by omega)
    have hgt : (Iterator.ofPos (d.firstPos + (k + 1))).gt d.begin = true := by
      rw [begin_eq_ofPos hv hne, Iterator.gt_ofPos (by simp only [kArraySize] at hq; omega)
        (by simp only [kArraySize] at hq; omega)]
      simp
    have hsub : (Iterator.ofPos (d.firstPos + (k + 1))).sub 1 =
        Iterator.ofPos (d.firstPos + k) := by
      rw [Iterator.sub_one_ofPos (by omega)]; rfl
    have hdec : (Iterator.ofPos (d.firstPos + (k + 1))).dec =
        Iterator.ofPos (d.firstPos + k) := by
      rw [Iterator.dec_ofPos (by omega)]; rfl
    rw [hfp] at hrec
    simp only [eraseLoopAssignments, hgt, if_true, hsub, e1, hdec, hrec]
    omega

/-- The assignments of `erase` at index `p` of a deque that holds `l`: none at the first
and the last index, `p` otherwise. -/
theorem eraseAssignments_of_holds (fuel : Nat) {d : Deque T} {l : List T} (h : d.Holds l)
    (hcap : d.capacity_of_arr_ * kArraySize < 2 ^ 62) {p : Nat} (hp : p < l.length)
    (hfuel : p < fuel) :
    d.eraseAssignments fuel (d.begin.add (p : Int)) =
      if p = 0 ∨ p + 1 = l.length then 0 else p := by
  have hv := h.valid
  have hne : d.size_ ≠ 0 := by rw [h.size_eq]; omega
  have hspan := h.span
  have hiter : d.begin.add (p : Int) = Iterator.ofPos (d.firstPos + p) := by
    rw [begin_eq_ofPos hv hne, Iterator.add_ofPos_nat]
  have hend : d.end_.sub 1 = Iterator.ofPos d.lastPos := by
    rw [end_eq_ofPos hv, Iterator.sub_one_ofPos (by omega)]; rfl
  rw [hiter]
  by_cases hp0 : p = 0
  · subst hp0
    rw [if_pos (Or.inl rfl), Nat.add_zero, ← begin_eq_ofPos hv hne]
    simp only [eraseAssignments, eq_self, if_true]
  · have hne1 : (Iterator.ofPos (d.firstPos + p)).eq d.begin = false := by
      rw [begin_eq_ofPos hv hne, Iterator.eq_ofPos]
      simp only [decide_eq_false_iff_not]; omega
    by_cases hpl : p + 1 = l.length
    · have heq2 : (Iterator.ofPos (d.firstPos + p)).eq (d.end_.sub 1) = true := by
        rw [hend, Iterator.eq_ofPos]
        simp only [decide_eq_true_eq]; omega
      rw [if_pos (Or.inr hpl)]
      simp only [eraseAssignments, hne1, heq2, Bool.false_eq_true, if_false, if_true]
    · have hne2 : (Iterator.ofPos (d.firstPos + p)).eq (d.end_.sub 1) = false := by
        rw [hend, Iterator.eq_ofPos]
        simp only [decide_eq_false_iff_not]; omega
      rw [if_neg (by omega)]
      simp only [eraseAssignments, hne1, hne2, Bool.false_eq_true, if_false]
      exact eraseLoopAssignments_spec p fuel d hv hne hcap (by omega)
        (fun j hj => have hjl : j < l.length := by omega
          ⟨l[j], h.slots j hjl⟩) hfuel

theorem swapSlots_ofPos {d : Deque T} {n q : Nat} {x y : T}
    (hs : Shaped d.body_ n) (hq : q + 1 < n * kArraySize)
    (h1 : slotAt d.body_ q = some (some x)) (h2 : slotAt d.body_ (q + 1) = some (some y)) :
    ∃ body1, d.swapSlots (Iterator.ofPos q) (Iterator.ofPos (q + 1)) =
        .ok () { d with body_ := body1 } ∧ Shaped body1 n ∧
      ∀ r, slotAt body1 r =
        if r = q + 1 then some (some x) else if r = q then some (some y)
        else slotAt d.body_ r := by
  obtain ⟨body1, e1, e2, e3⟩ := slotAt_setSlot (some y) hs (show q < n * kArraySize by omega)
  obtain ⟨body2, g1, g2, g3⟩ := slotAt_setSlot (some x) e2 hq
  refine ⟨body2, ?_, g2, fun r => ?_⟩
  · have d1 : d.deref (Iterator.ofPos q) = some (some x) := h1
    have d2 : d.deref (Iterator.ofPos (q + 1)) = some (some y) := h2
    have e1' : setSlot d.body_ (Iterator.ofPos q).index_of_array_
        (Iterator.ofPos q).index_in_array_ (some y) = some body1 := e1
    have g1' : setSlot body1 (Iterator.ofPos (q + 1)).index_of_array_
        (Iterator.ofPos (q + 1)).index_in_array_ (some x) = some body2 := g1
    simp only [swapSlots, d1, d2, store, e1', Outcome.andThen_ok, g1']
  · rw [g3]
    by_cases hr : r = q + 1
    · rw [if_pos hr, if_pos hr]
    · rw [if_neg hr, if_neg hr, e3]

/-- The loop of `insert`, entered at slot `q` with the limit `iter` at slot `t`:
when the slots `q, ..., q + m` hold elements and `q + m <= t + 1`, it executes at
least `m` swaps. -/
theorem insertLoopSwaps_ge (m : Nat) : ∀ (fuel : Nat) (d : Deque T) (n q t : Nat),
    Shaped d.body_ n → n * kArraySize < 2 ^ 62 → q + m < n * kArraySize → t < 2 ^ 62 →
    q + m ≤ t + 1 → (∀ j, j ≤ m → ∃ x, slotAt d.body_ (q + j) = some (some x)) →
    m ≤ fuel → m ≤ d.insertLoopSwaps fuel (Iterator.ofPos q) (Iterator.ofPos t) := by
  induction m with
  | zero => intro _ _ _ _ _ _ _ _ _ _ _ _; exact Nat.zero_le _
  | succ m ih =>
    intro fuel d n q t hs hn hq ht hqt hsl hf
    obtain ⟨f, rfl⟩ : ∃ f, fuel = f + 1 := ⟨fuel - 1, by omega⟩
    obtain ⟨x, hx⟩ := hsl 0 (by omega)
    obtain ⟨y, hy⟩ := hsl 1 (by omega)
    rw [Nat.add_zero] at hx
    obtain ⟨body1, e1, e2, e3⟩ := swapSlots_ofPos hs (show q + 1 < n * kArraySize by omega)
      hx hy
    have hle : (Iterator.ofPos q).le (Iterator.ofPos t) = true := by
      rw [Iterator.le, Iterator.gt_ofPos (by omega) ht]
      simp only [Bool.not_eq_true', decide_eq_false_iff_not]
      omega
    have hadd : (Iterator.ofPos q).add 1 = Iterator.ofPos (q + 1) :=
      Iterator.add_ofPos_nat q 1
    have hrec := ih f { d with body_ := body1 } n (q + 1) t e2 hn (by omega) ht (by omega)
      (by
        intro j hj
        show ∃ z, slotAt body1 (q + 1 + j) = some (some z)
        rw [e3]
        by_cases hj0 : j = 0
        · subst hj0
          exact ⟨x, by rw [if_pos rfl]⟩
        · obtain ⟨z, hz⟩ := hsl (j + 1) (by omega)
          refine ⟨z, ?_⟩
          rw [if_neg (by omega), if_neg (by omega)]
          have : q + 1 + j = q + (j + 1) := by omega
          rw [this, hz])
      (by omega)
    simp only [insertLoopSwaps, hle, if_true, hadd, e1, Iterator.inc_ofPos]
    omega

/-- The swaps of `insert` at index `p > 0` of a deque that holds `l`, its table not
enlarged by the call: at least `p`. -/
theorem insertSwaps_ge_of_holds (fuel : Nat) {d : Deque T} {l : List T} (h : d.Holds l)
    (hcap : d.capacity_of_arr_ * kArraySize < 2 ^ 62) {p : Nat} (hp0 : 0 < p)
    (hp : p < l.length) (hng : ¬ d.frontGrows) (hfuel : p ≤ fuel) (v : T) :
    p ≤ d.insertSwaps fuel (d.begin.add (p : Int)) v := by
  have hv := h.valid
  have hne : d.size_ ≠ 0 := by rw [h.size_eq]; omega
  have hspan := h.span
  have hiter : d.begin.add (p : Int) = Iterator.ofPos (d.firstPos + p) := by
    rw [begin_eq_ofPos hv hne, Iterator.add_ofPos_nat]
  have hne1 : (Iterator.ofPos (d.firstPos + p)).eq d.begin = false := by
    rw [begin_eq_ofPos hv hne, Iterator.eq_ofPos]
    simp only [decide_eq_false_iff_not]; omega
  have hne2 : (Iterator.ofPos (d.firstPos + p)).eq d.end_ = false := by
    rw [end_eq_ofPos hv, Iterator.eq_ofPos]
    simp only [decide_eq_false_iff_not]; omega
  obtain ⟨d1, e1, hh1, ecap⟩ := holds_push_front v h hng
  obtain ⟨d2, g1, -, -, -, hcases⟩ := push_front_spec v hv
  rw [e1] at g1
  cases g1
  have hfp : d1.firstPos + 1 = d.firstPos := by
    rcases hcases with ⟨-, -, -, c, -⟩ | ⟨hg, -⟩
    · exact c
    · exact absurd hg hng
  have hv1 := hh1.valid
  have hne1' : d1.size_ ≠ 0 := by rw [hh1.size_eq]; simp
  have hspan1 := hh1.span
  simp only [List.length_cons] at hspan1
  have hl1 := hv1.larr_lt
  have hli1 := hv1.lin_lt
  have hlp : d1.lastPos < d1.capacity_of_arr_ * kArraySize := by
    simp only [lastPos, kArraySize] at hli1 ⊢; omega
  have e1' : d.emplace_front (some v) = .ok () d1 := e1
  rw [hiter]
  simp only [insertSwaps, hne1, hne2, Bool.false_eq_true, if_false, e1',
    begin_eq_ofPos hv1 hne1']
  have ht : d.firstPos + p = d1.firstPos + 1 + p := by omega
  rw [ht]
  exact insertLoopSwaps_ge p fuel d1 d1.capacity_of_arr_ d1.firstPos (d1.firstPos + 1 + p)
    hv1.shaped (by rw [ecap]; exact hcap) (by omega) (by rw [ecap] at hlp; omega) (by omega)
    (fun j hj => have hjl : j < (v :: l).length := by simp only [List.length_cons]; omega
      ⟨(v :: l)[j], hh1.slots j hjl⟩) hfuel

end Deque

theorem sampleSix_run :
    run (Deque.fresh : Deque Int)
      [.push_back 1, .push_back 2, .push_back 3, .push_back 4, .push_back 5, .push_back 6]
      = some sampleSix := rfl

theorem sampleSix_holds : sampleSix.Holds [1, 2, 3, 4, 5, 6] := by
  have hall : ∀ op ∈ [Op.push_back (1 : Int), .push_back 2, .push_back 3, .push_back 4,
      .push_back 5, .push_back 6], op.isPush = true := by decide
  rcases holds_of_pushes _ hall sampleSix sampleSix_run with ⟨h, -⟩ | ⟨-, h⟩
  · cases h
  · exact h rfl

/-- C23 (amended): on a deque that holds n elements, erase(begin() + p) executes no
element assignment when p == 0 or p == n - 1 and exactly p assignments otherwise,
whatever n - p is: the loop starts at position p and walks down to begin();
insert(begin(), v) executes no swap, and insert(begin() + p, v) with 0 < p < n, the
table not enlarged by the call, executes at least p swaps, its loop starting at the
new begin(). -/
theorem shifts_start_at_front (fuel : Nat) (d : Deque T) (l : List T) (p : Nat) (v : T)
    (h : d.Holds l) (hcap : d.capacity_of_arr_ * kArraySize < 2 ^ 62) (hp : p < l.length)
    (hfuel : p < fuel) :
    d.eraseAssignments fuel (d.begin.add (p : Int)) =
      (if p = 0 ∨ p + 1 = l.length then 0 else p) ∧
    d.insertSwaps fuel d.begin v = 0 ∧
    (0 < p → ¬ d.frontGrows → p ≤ d.insertSwaps fuel (d.begin.add (p : Int)) v) :=
  ⟨Deque.eraseAssignments_of_holds fuel h hcap hp hfuel,
    by simp only [Deque.insertSwaps, Deque.eq_self, if_true],
    fun hp0 hng => Deque.insertSwaps_ge_of_holds fuel h hcap hp0 hp hng (by omega) v⟩

/-- Instance of C23 (amended) on the deque 1, ..., 6 at index 4: erase executes four
assignments, insert at least four swaps. -/
theorem shifts_start_at_front_witness :
    sampleSix.Holds [1, 2, 3, 4, 5, 6] ∧
    sampleSix.eraseAssignments 8 (sampleSix.begin.add ((4 : Nat) : Int)) = 4 ∧
    4 ≤ sampleSix.insertSwaps 8 (sampleSix.begin.add ((4 : Nat) : Int)) 9 :=
  ⟨sampleSix_holds,
    (shifts_start_at_front 8 sampleSix [1, 2, 3, 4, 5, 6] 4 9 sampleSix_holds (by decide)
      (by decide) (by decide)).1,
    (shifts_start_at_front 8 sampleSix [1, 2, 3, 4, 5, 6] 4 9 sampleSix_holds (by decide)
      (by decide) (by decide)).2.2 (by decide) (by decide)⟩

/-- C23 as stated fails: on the deque of the 16127 elements 0, ..., 16126 built by
push_back, erase(begin() + 16125) executes 16125 element assignments, where
min(p, n - p) is 2; and on the deque 1, ..., 6, erase(begin() + 4) executes 4
assignments and insert(begin() + 4, 9) executes 6 swaps, where min(p, n - p) is 2. -/
theorem erase_near_back_shifts_front_part :
    (∃ d, run (Deque.fresh : Deque Int)
        ((List.range 16127).map fun i => Op.push_back (Int.ofNat i)) = some d ∧
      d.size = 16127 ∧
      d.eraseAssignments 16126 (d.begin.add ((16125 : Nat) : Int)) = 16125 ∧
      min 16125 (16127 - 16125) = 2) ∧
    sampleSix.size = 6 ∧
    sampleSix.eraseAssignments 8 (sampleSix.begin.add 4) = 4 ∧
    sampleSix.insertSwaps 8 (sampleSix.begin.add 4) 9 = 6 ∧ min 4 (6 - 4) = 2 := by
  refine ⟨?_, rfl, rfl, rfl, rfl⟩
  obtain ⟨d, hrun, hh, h3, -⟩ := before_first_growth
  have hlen : ((List.range 16127).map Int.ofNat).length = 16127 := by
    rw [List.length_map, List.length_range]
  refine ⟨d, hrun, by rw [Deque.size, hh.size_eq, hlen], ?_, rfl⟩
  rw [Deque.eraseAssignments_of_holds 16126 hh (by rw [h3]; norm_num) (by rw [hlen]; omega)
    (by omega), hlen]
  rfl

end Lemmas

end Containers
